import Mathlib

/-!
# Redistribution of lagrangian fields: `parLagrangianDistributor`

A shallow embedding of
`applications/utilities/parallelProcessing/redistributePar/parLagrangianDistributorTemplates.C`.

The program is SPMD: the same member function runs on every process of a
group and meets the other processes in collective calls
(`Pstream::combineGather`, `Pstream::broadcast`, `map.distribute`).  The
embedding is therefore written at the level of the group: a list indexed by
rank holds, for every process, its arguments and its state, and one
collective call transforms the whole list at once.  Rank 0 is the master.
-/

namespace Foam

/-! ## Names, selectors and the local object registry -/

/-- A `word`: the name of an object.  `operator<` on words is the
lexicographic order of strings. -/
abbrev word := String

/-- The `wordList` of the sources: `List<word>`. -/
abbrev wordList := List word

/-- The `label` of the sources: a signed machine integer, held as an integer.
The labels computed here are counters of loop iterations, which stay far
below the machine range, the index of `boundarySubset` (see there), and the
patch ids of `faPatchi` and `realPatchi`, whose sum and negation wrap around
explicitly (`label.wrap`); every other label is stored and compared only. -/
abbrev label := Int

/-- Modelled from the spec: one pattern of a name selector (`wordRe`, a literal
or a regular expression; the class is not part of the sources).  Only its
match predicate is kept. -/
structure wordRe where
  /-- Whether the pattern matches the text. -/
  isMatch : word → Bool

/-- Modelled from the spec: the optional name-pattern selector (`wordRes`, a list
of `wordRe`; the class is not part of the sources). -/
structure wordRes where
  /-- The patterns of the selector. -/
  patterns : List wordRe

/-- The `wordRes::empty()` of the sources: the selector has no pattern. -/
def wordRes.empty (sel : wordRes) : Bool := sel.patterns.isEmpty

/-- Modelled from the spec: a selector matches a name when one of its patterns
does; an empty selector matches nothing. -/
def wordRes.isMatch (sel : wordRes) (text : word) : Bool :=
  sel.patterns.any (fun re => re.isMatch text)

/-- One entry of the local registry scan: the name of a locally visible object
and the class (container kind) written in its header. -/
structure objectEntry where
  /-- Object name. -/
  name : word
  /-- Class name found in the header of the object. -/
  headerClassName : word
deriving DecidableEq, Repr

/-- Modelled from the spec: the local view of named objects (`IOobjectList`, a
table keyed by object name; the class is not part of the sources).  The
entries are listed in the iteration order of the table, and being keys of a
table the names are distinct. -/
structure IOobjectList where
  /-- The entries in iteration order. -/
  entries : List objectEntry
  /-- The names are the keys of the table. -/
  keys_nodup : (entries.map objectEntry.name).Nodup

/-- Modelled from the spec: `objects.names<Container>()`, the names of the
locally visible objects whose class is the requested container kind. -/
def IOobjectList.names (objects : IOobjectList) (typeName : word) : wordList :=
  (objects.entries.filter (fun e => e.headerClassName == typeName)).map objectEntry.name

/-- Modelled from the spec: `objects.names<Container>(selectedFields)`, the names
of the requested container kind that the selector matches. -/
def IOobjectList.namesMatching (objects : IOobjectList) (typeName : word)
    (selectedFields : wordRes) : wordList :=
  (objects.entries.filter
    (fun e => e.headerClassName == typeName && selectedFields.isMatch e.name)).map
    objectEntry.name

/-! ## Collective primitives -/

/-- Modelled from the spec: the combine operation `ListOps::uniqueEqOp<word>` of
the reconciliation ("a deduplicated union, duplicates removed using value
equality"): every value of `y` that `x` does not hold yet is appended to
`x`. -/
def ListOps.uniqueEqOp (x y : wordList) : wordList :=
  y.foldl (fun acc val => if val ∈ acc then acc else acc ++ [val]) x

/-- Modelled from the spec: `Pstream::combineGather(value, cop)` over the group
(the communication layer is not part of the sources).  The list holds the
value of every rank; afterwards the master holds its own value combined, in
rank order, with the value of every other process, and the others keep
theirs. -/
def Pstream.combineGather {T : Type} (cop : T → T → T) : List T → List T
  | [] => []
  | master :: others => others.foldl cop master :: others

/-- Modelled from the spec: `Pstream::broadcast(value)`: every process of the
group receives the value of the master. -/
def Pstream.broadcast {T : Type} : List T → List T
  | [] => []
  | master :: others => master :: others.map (fun _ => master)

/-- Modelled from the spec: `Foam::sort(list)`, sorting with `operator<` of the
elements, which for words is the lexicographic order. -/
def sort (list : wordList) : wordList := list.insertionSort (· ≤ ·)

/-! ## `filterObjects` -/

/-- The first statement of `filterObjects<Container>` on one process: the
locally matching names.  `typeName` is `Container::typeName`. -/
def filterObjects.localNames (typeName : word) (objects : IOobjectList)
    (selectedFields : wordRes) : wordList :=
  if selectedFields.empty then objects.names typeName
  else objects.namesMatching typeName selectedFields

/-- The `parLagrangianDistributor::filterObjects<Container>` of the sources,
run by the whole group: `group` holds the arguments `(objects,
selectedFields)` of every rank and the result holds the list returned on
every rank. -/
def filterObjects (typeName : word) (group : List (IOobjectList × wordRes)) :
    List wordList :=
  let fieldNames := group.map (fun a => filterObjects.localNames typeName a.1 a.2)
  -- Parallel synchronise: combine names from all processors
  let fieldNames := Pstream.combineGather ListOps.uniqueEqOp fieldNames
  let fieldNames := Pstream.broadcast fieldNames
  -- Sort for consistent order on all processors
  fieldNames.map sort

/-- The list every process holds once `filterObjects` has returned: the sorted
combination of the local lists of the group. -/
def filterObjects.reconciled (typeName : word) (group : List (IOobjectList × wordRes)) :
    wordList :=
  match group.map (fun a => filterObjects.localNames typeName a.1 a.2) with
  | [] => []
  | master :: others => sort (others.foldl ListOps.uniqueEqOp master)

/-! ## Objects on disk, meshes and the cloud -/

/-- Modelled from the spec: the location of an object on disk, "(name, region,
time)" within the directory of its collection.  It stands for the path
`db/inst/loc/name` that `IOobject::objectPath()` builds (`fileName` and
`IOobject` are not part of the sources). -/
structure fileName where
  /-- The database (mesh region of this process) the object belongs to. -/
  db : String
  /-- The instance: the time name. -/
  inst : word
  /-- The local directory below the instance. -/
  loc : String
  /-- The object name. -/
  name : word
deriving DecidableEq, Repr

/-- Modelled from the spec: the arguments `(name, instance, local, db)` an
`IOobject` is constructed from.  The read and write options of the sources are
fixed per call site and are folded into the operation applied to the
object. -/
structure IOobject where
  /-- The object name. -/
  name : word
  /-- The instance: the time name. -/
  inst : word
  /-- The local directory below the instance. -/
  loc : String
  /-- The database the object is looked up in. -/
  db : String
deriving DecidableEq, Repr

/-- The `IOobject::objectPath()` of the sources. -/
def IOobject.objectPath (io : IOobject) : fileName :=
  { db := io.db, inst := io.inst, loc := io.loc, name := io.name }

/-- What the passes use of a mesh: the database it stands for and the name of
its current time, `time().timeName()`. -/
structure fvMesh where
  /-- The database (region) of this mesh on this process. -/
  path : String
  /-- The current time name of the mesh. -/
  timeName : word
deriving DecidableEq, Repr

/-- The data members `srcMesh_` and `tgtMesh_` of `parLagrangianDistributor`. -/
structure parLagrangianDistributor where
  /-- Source mesh. -/
  srcMesh_ : fvMesh
  /-- Destination mesh. -/
  tgtMesh_ : fvMesh
deriving DecidableEq, Repr

/-- The constant `cloud::prefix` (declared outside the sources): the directory
of the lagrangian clouds. -/
def cloudPrefix : String := "lagrangian"

/-- The expression `cloud::prefix/cloudName` of the sources. -/
def cloudDir (cloudName : word) : String := cloudPrefix ++ "/" ++ cloudName

/-- The objects on disk that one process sees: the content found at a
location, if any.  A field is the list of its per-entity values; for the
compact kind the values are themselves lists. -/
abbrev fileSystem (α : Type) := fileName → Option (List α)

/-- Modelled from the spec: "attempts to load; if absent, returns a zero-size
object": the constructor `Container(IOobject(.., READ_IF_PRESENT, ..), label(0))`. -/
def readIfPresent {α : Type} (io : IOobject) (files : fileSystem α) : List α :=
  match files io.objectPath with
  | some content => content
  | none => []

/-- Modelled from the spec: `Container(fieldIO, std::move(field)).write()`: the
object at the location of `fieldIO` now holds the content of `field`. -/
def writeObject {α : Type} (io : IOobject) (field : List α) (files : fileSystem α) :
    fileSystem α :=
  Function.update files io.objectPath (some field)

/-- Modelled from the spec: `Foam::rm(fldName)`: the file is deleted if it
exists. -/
def rm {α : Type} (fldName : fileName) (files : fileSystem α) : fileSystem α :=
  Function.update files fldName none

/-- A field stored on the registry of a cloud. -/
structure storedField (α : Type) where
  /-- The `name()` of the field. -/
  name : word
  /-- The class of the field. -/
  typeName : word
  /-- The per-entity values. -/
  content : List α

/-- What the passes use of a `passivePositionParticleCloud`: its name, the
fields stored on it, listed in the iteration order of its table, and, as the
database `readFields` reads from, its location and the name of its current
time. -/
structure passivePositionParticleCloud (α : Type) where
  /-- The `name()` of the cloud. -/
  name : word
  /-- The stored fields. -/
  stored : List (storedField α)
  /-- The location of the cloud as a database of objects. -/
  dbPath : String := ""
  /-- The `time().timeName()` of the cloud. -/
  timeName : word := ""

/-- Modelled from the spec: `cloud.lookupClass<Container>()`, the stored fields of
the requested kind. -/
def passivePositionParticleCloud.lookupClass {α : Type}
    (cloud : passivePositionParticleCloud α) (typeName : word) : List (storedField α) :=
  cloud.stored.filter (fun f => f.typeName == typeName)

/-- Modelled from the spec: the distribution map, "opaque, supplied externally".
`distribute` is a collective call: from the local container of every rank it
yields the new local container of every rank, or it fails (`none`). -/
structure mapDistributeBase (α : Type) where
  /-- The transform over the whole group. -/
  distribute : List (List α) → Option (Nat → List α)

/-! ## The state of a process and the lock-step execution of a loop -/

/-- History record of one call of `map.distribute` made by a process. -/
structure distributeCall (α : Type) where
  /-- The object the loop iteration is about. -/
  objectName : word
  /-- The local field handed to `map.distribute`. -/
  sent : List α
  /-- The local field after `map.distribute`. -/
  received : List α

/-- One process of the group: the arguments it calls the member functions with
and its state. -/
structure Proc (α : Type) where
  /-- The distributor object (`this`). -/
  self : parLagrangianDistributor
  /-- The local registry scan handed to the passes. -/
  objects : IOobjectList
  /-- The name selector handed to the passes. -/
  selectedFields : wordRes
  /-- The cloud handed to `distributeStoredFields`. -/
  cloud : passivePositionParticleCloud α
  /-- The objects on disk. -/
  files : fileSystem α
  /-- What the process has sent to `Info`, one entry per statement. -/
  info : List String
  /-- History of the calls of `map.distribute` made by the process. -/
  calls : List (distributeCall α)

/-- The statement `Info<< text`. -/
def Proc.print {α : Type} (p : Proc α) (text : String) : Proc α :=
  { p with info := p.info ++ [text] }

/-- The tail shared by the three loops of the sources: build `fieldIO` at the
destination, then write the field if it has entities and remove the file
otherwise. -/
def persistOrRemove {α : Type} (fieldIo : IOobject) (field : List α)
    (files : fileSystem α) : fileSystem α :=
  if field.length ≠ 0 then writeObject fieldIo field files
  else rm fieldIo.objectPath files

/-- A process inside a range-for loop: its state, the items it still has to
visit and the loop counter `nFields`. -/
structure Run (ι α : Type) where
  /-- State of the process. -/
  proc : Proc α
  /-- The items not visited yet. -/
  work : List ι
  /-- The local variable `nFields`. -/
  nFields : label

/-- The body of a loop that makes one call of `map.distribute(field)` per
iteration, cut at that call. -/
structure loopBody (ι α : Type) where
  /-- The object name of a work item. -/
  objectName : ι → word
  /-- The statements before the call; yields the `field` handed to the map. -/
  toCollective : ι → Run ι α → Run ι α × List α
  /-- The statements after the call, `field` now being what the map left. -/
  fromCollective : ι → List α → Run ι α → Run ι α

/-- A process runs its current iteration up to the collective call. -/
def Run.enter {ι α : Type} (body : loopBody ι α) (r : Run ι α) : Run ι α × List α :=
  match r.work with
  | [] => (r, [])
  | x :: _ => body.toCollective x r

/-- A process finishes its current iteration with the field the collective
call left, and the call is added to its history. -/
def Run.leave {ι α : Type} (body : loopBody ι α) (r : Run ι α) (sent received : List α) :
    Run ι α :=
  match r.work with
  | [] => r
  | x :: rest =>
    let r1 := body.fromCollective x received r
    { r1 with
      work := rest
      proc := { r1.proc with
        calls := r1.proc.calls ++ [⟨body.objectName x, sent, received⟩] } }

/-- How a pass of the group ends. -/
inductive passStatus where
  /-- Every process has left its loop. -/
  | completed
  /-- The distribution map failed: the pass is aborted. -/
  | mapFailed
  /-- Some processes have left the loop while others wait in the collective
  call: the group blocks. -/
  | blocked
deriving DecidableEq, Repr

/-- Lock-step execution of the loop by the group.  In every round each process
runs one iteration: all enter `map.distribute` with their local field, the map
transforms the fields of the group, and each process finishes the iteration
with its share.  `fuel` bounds the number of rounds. -/
def lockstep {ι α : Type} (body : loopBody ι α) (map : mapDistributeBase α) :
    Nat → List (Run ι α) → passStatus × List (Run ι α)
  | 0, rs =>
    (if rs.all (fun r => r.work.isEmpty) then passStatus.completed else passStatus.blocked, rs)
  | fuel + 1, rs =>
    if rs.all (fun r => r.work.isEmpty) then (passStatus.completed, rs)
    else if rs.any (fun r => r.work.isEmpty) then (passStatus.blocked, rs)
    else
      let entered := rs.map (Run.enter body)
      match map.distribute (entered.map Prod.snd) with
      | none => (passStatus.mapFailed, entered.map Prod.fst)
      | some out =>
        lockstep body map fuel
          (entered.mapIdx (fun rank e => Run.leave body e.1 e.2 (out rank)))

/-- The number of rounds the loop of the group can take: the master leaves the
loop after as many rounds as it has items. -/
def roundsOf {ι α : Type} : List (Run ι α) → Nat
  | [] => 0
  | master :: _ => master.work.length

/-- What a pass of the group leaves: how it ended, the state of every process
and the value returned on every rank (meaningful when the pass completed). -/
structure passResult (α : Type) where
  /-- How the pass ended. -/
  status : passStatus
  /-- The state of the processes, by rank. -/
  procs : List (Proc α)
  /-- The value of `nFields` on every rank. -/
  returned : List label

/-! ## `distributeFields` -/

/-- The `IOobject` of the source field `objectName` of a cloud. -/
def srcObject {α : Type} (p : Proc α) (cloudName objectName : word) : IOobject :=
  { name := objectName, inst := p.self.srcMesh_.timeName, loc := cloudDir cloudName,
    db := p.self.srcMesh_.path }

/-- The `fieldIO` of the sources: the destination object `objectName` of a
cloud. -/
def tgtObject {α : Type} (p : Proc α) (cloudName objectName : word) : IOobject :=
  { name := objectName, inst := p.self.tgtMesh_.timeName, loc := cloudDir cloudName,
    db := p.self.tgtMesh_.path }

/-- The loop body of `distributeFields<Type>`; `typeName` is
`IOField<Type>::typeName`.  The counter `nFields` is not touched. -/
def distributeFields.body {α : Type} (typeName cloudName : word) : loopBody word α where
  objectName := id
  toCollective objectName r :=
    let p := if r.nFields = 0 then
        r.proc.print ("    Distributing lagrangian " ++ typeName ++ "s\n" ++ "\n")
      else r.proc
    let p := p.print ("        " ++ objectName ++ "\n")
    -- Read if present
    let field := readIfPresent (srcObject p cloudName objectName) p.files
    ({ r with proc := p }, field)
  fromCollective objectName field r :=
    let fieldIo := tgtObject r.proc cloudName objectName
    { r with proc := { r.proc with files := persistOrRemove fieldIo field r.proc.files } }

/-- The `parLagrangianDistributor::distributeFields<Type>` of the sources, run
by the whole group. -/
def distributeFields {α : Type} (map : mapDistributeBase α) (typeName cloudName : word)
    (procs : List (Proc α)) : passResult α :=
  let fieldNames := filterObjects typeName (procs.map (fun p => (p.objects, p.selectedFields)))
  let rs := List.zipWith (fun p names => ({ proc := p, work := names, nFields := 0 } : Run word α))
    procs fieldNames
  let res := lockstep (distributeFields.body typeName cloudName) map (roundsOf rs) rs
  { status := res.1, procs := res.2.map Run.proc, returned := res.2.map Run.nFields }

/-! ## `distributeFieldFields` -/

/-- The loop body of `distributeFieldFields<Type>` (`verbose_` is the constant
`true`); `typeName` is `CompactIOField<Field<Type>, Type>::typeName`. -/
def distributeFieldFields.body {α : Type} (typeName cloudName : word) : loopBody word α where
  objectName := id
  toCollective objectName r :=
    let p := if r.nFields = 0 then
        r.proc.print ("    Distributing lagrangian " ++ typeName ++ "s\n" ++ "\n")
      else r.proc
    let p := p.print ("        " ++ objectName ++ "\n")
    -- Read if present
    let field := readIfPresent (srcObject p cloudName objectName) p.files
    ({ r with proc := p, nFields := r.nFields + 1 }, field)
  fromCollective objectName field r :=
    let fieldIo := tgtObject r.proc cloudName objectName
    { r with proc := { r.proc with files := persistOrRemove fieldIo field r.proc.files } }

/-- The work list of `distributeFieldFields<Type>` on every rank: the names of
the compact kind with the names of the `IOField<Field<Type>>` kind appended. -/
def distributeFieldFields.fieldNames {α : Type} (typeName fieldFieldTypeName : word)
    (procs : List (Proc α)) : List wordList :=
  let group := procs.map (fun p => (p.objects, p.selectedFields))
  List.zipWith (fun compact fieldField => compact ++ fieldField)
    (filterObjects typeName group) (filterObjects fieldFieldTypeName group)

/-- The statement `if (nFields && verbose_) Info<< endl;` that follows the
loops. -/
def Run.finish {ι α : Type} (r : Run ι α) : Run ι α :=
  if r.nFields ≠ 0 then { r with proc := r.proc.print "\n" } else r

/-- The `parLagrangianDistributor::distributeFieldFields<Type>` of the sources,
run by the whole group; `fieldFieldTypeName` is
`IOField<Field<Type>>::typeName`. -/
def distributeFieldFields {α : Type} (map : mapDistributeBase α)
    (typeName fieldFieldTypeName cloudName : word) (procs : List (Proc α)) : passResult α :=
  let fieldNames := distributeFieldFields.fieldNames typeName fieldFieldTypeName procs
  let rs := List.zipWith (fun p names => ({ proc := p, work := names, nFields := 0 } : Run word α))
    procs fieldNames
  let res := lockstep (distributeFieldFields.body typeName cloudName) map (roundsOf rs) rs
  let rs := if res.1 = passStatus.completed then res.2.map Run.finish else res.2
  { status := res.1, procs := rs.map Run.proc, returned := rs.map Run.nFields }

/-! ## `distributeStoredFields` -/

/-- Modelled from the spec: the field of the cloud that was handed to the write
call has given its content away ("ownership of the read buffer is transferred
into the write call"), and a field that is not written is empty: after its
iteration the stored field holds no entity. -/
def passivePositionParticleCloud.release {α : Type}
    (cloud : passivePositionParticleCloud α) (field : storedField α) :
    passivePositionParticleCloud α :=
  { cloud with stored := cloud.stored.map (fun f =>
      if f.name = field.name ∧ f.typeName = field.typeName then { f with content := [] }
      else f) }

/-- The loop body of `distributeStoredFields<Container>` (`verbose_` is the
constant `true`); `typeName` is `Container::typeName`.  A work item is a field
stored on the cloud. -/
def distributeStoredFields.body {α : Type} (typeName : word) :
    loopBody (storedField α) α where
  objectName := storedField.name
  toCollective field r :=
    let p := if r.nFields = 0 then
        r.proc.print ("    Distributing lagrangian " ++ typeName ++ "s\n" ++ "\n")
      else r.proc
    let p := p.print ("        " ++ field.name ++ "\n")
    ({ r with proc := p, nFields := r.nFields + 1 }, field.content)
  fromCollective field content r :=
    let fieldIo := tgtObject r.proc r.proc.cloud.name field.name
    { r with proc := { r.proc with
        files := persistOrRemove fieldIo content r.proc.files
        cloud := r.proc.cloud.release field } }

/-- The `parLagrangianDistributor::distributeStoredFields<Container>` of the
sources, run by the whole group. -/
def distributeStoredFields {α : Type} (map : mapDistributeBase α) (typeName : word)
    (procs : List (Proc α)) : passResult α :=
  let rs := procs.map (fun p =>
    ({ proc := p, work := p.cloud.lookupClass typeName, nFields := 0 } : Run (storedField α) α))
  let res := lockstep (distributeStoredFields.body typeName) map (roundsOf rs) rs
  let rs := if res.1 = passStatus.completed then res.2.map Run.finish else res.2
  { status := res.1, procs := rs.map Run.proc, returned := rs.map Run.nFields }

/-! ## Notions used to state and prove the properties of the passes -/

/-- The effect of the tail of an iteration on the destination: the location
holds the field if that one has entities and nothing otherwise. -/
def persist {α : Type} (q : fileName) (field : List α) (files : fileSystem α) :
    fileSystem α :=
  Function.update files q (if field.length ≠ 0 then some field else none)

/-- The destination state obtained by persisting-or-removing, in order, the
fields received in a list of calls of the map; `dest` gives the destination
location of an object name. -/
def replay {α : Type} (dest : word → fileName) (calls : List (distributeCall α))
    (files : fileSystem α) : fileSystem α :=
  calls.foldl (fun fs c => persist (dest c.objectName) c.received fs) files

/-- A loop body whose iteration leaves the files alone before the call of the
map and persists-or-removes the received field at `dest` after it. -/
structure loopBody.Persists {ι α : Type} (body : loopBody ι α)
    (dest : Proc α → word → fileName) : Prop where
  /-- The statements before the call leave the work list alone. -/
  enter_work : ∀ x r, (body.toCollective x r).1.work = r.work
  /-- The statements before the call leave the files alone. -/
  enter_files : ∀ x r, (body.toCollective x r).1.proc.files = r.proc.files
  /-- The statements before the call leave the history alone. -/
  enter_calls : ∀ x r, (body.toCollective x r).1.proc.calls = r.proc.calls
  /-- The statements before the call leave the distributor object alone. -/
  enter_self : ∀ x r, (body.toCollective x r).1.proc.self = r.proc.self
  /-- The statements before the call leave the name of the cloud alone. -/
  enter_cloud : ∀ x r, (body.toCollective x r).1.proc.cloud.name = r.proc.cloud.name
  /-- The statements after the call persist-or-remove the received field. -/
  leave_files : ∀ x f r, (body.fromCollective x f r).proc.files
    = persist (dest r.proc (body.objectName x)) f r.proc.files
  /-- The statements after the call leave the history alone. -/
  leave_calls : ∀ x f r, (body.fromCollective x f r).proc.calls = r.proc.calls
  /-- The statements after the call leave the distributor object alone. -/
  leave_self : ∀ x f r, (body.fromCollective x f r).proc.self = r.proc.self
  /-- The statements after the call leave the name of the cloud alone. -/
  leave_cloud : ∀ x f r, (body.fromCollective x f r).proc.cloud.name = r.proc.cloud.name
  /-- The destination depends on the distributor object and on the name of the
  cloud only. -/
  dest_congr : ∀ p p' : Proc α, p'.self = p.self → p'.cloud.name = p.cloud.name →
    dest p' = dest p

/-- Progress of one process between two points of a loop: the calls `done` in
between were made for the leading items of the work list and the files are
those obtained by replaying them. -/
def Run.Advanced {ι α : Type} (body : loopBody ι α) (dest : Proc α → word → fileName)
    (r r' : Run ι α) : Prop :=
  r'.proc.self = r.proc.self ∧ r'.proc.cloud.name = r.proc.cloud.name ∧
  ∃ done : List (distributeCall α),
    r'.proc.calls = r.proc.calls ++ done ∧
    r'.proc.files = replay (dest r.proc) done r.proc.files ∧
    r.work.map body.objectName
      = done.map distributeCall.objectName ++ r'.work.map body.objectName

/-- The destination location of an object of a cloud, for a process. -/
def tgtPath {α : Type} (cloudName : word) (p : Proc α) (objectName : word) : fileName :=
  (tgtObject p cloudName objectName).objectPath

/-- The destination location of a field stored on the cloud of a process. -/
def tgtPathStored {α : Type} (p : Proc α) (objectName : word) : fileName :=
  (tgtObject p p.cloud.name objectName).objectPath

/-- Emptiness triggers delete, for one process: `p` is the process before a
pass and `p'` after it, `dest` gives the destination location of an object
name, `workList` is the work list of the process and `completed` says that the
pass completed.  The calls of the map made during the pass are the entries
added to the history: they were made for the leading names of the work list,
for all of them when the pass completed; a name all of whose calls received a
field without entities has no destination object afterwards; and no object
without entities appears. -/
def emptinessTriggersDelete {α : Type} (dest : word → fileName) (workList : List word)
    (completed : Prop) (p p' : Proc α) : Prop :=
  (p'.calls.drop p.calls.length).map distributeCall.objectName <+: workList
    ∧ (completed →
        (p'.calls.drop p.calls.length).map distributeCall.objectName = workList)
    ∧ (∀ X ∈ (p'.calls.drop p.calls.length).map distributeCall.objectName,
        (∀ c ∈ p'.calls.drop p.calls.length, c.objectName = X → c.received.length = 0) →
        p'.files (dest X) = none)
    ∧ ∀ q, p'.files q = some [] → p.files q = some []

/-- The arguments of `filterObjects` on every rank of a group of processes. -/
def groupOf {α : Type} (procs : List (Proc α)) : List (IOobjectList × wordRes) :=
  procs.map (fun p => (p.objects, p.selectedFields))

/-- The work list of `distributeFieldFields` that every process holds. -/
def distributeFieldFields.workList {α : Type} (typeName fieldFieldTypeName : word)
    (procs : List (Proc α)) : wordList :=
  filterObjects.reconciled typeName (groupOf procs)
    ++ filterObjects.reconciled fieldFieldTypeName (groupOf procs)

/-- The fields the group hands to `map.distribute` in the iteration of
`distributeFields` for `objectName`: on every rank the source object, read if
present. -/
def distributeFields.sent {α : Type} (cloudName objectName : word) (procs : List (Proc α)) :
    List (List α) :=
  procs.map (fun p => readIfPresent (srcObject p cloudName objectName) p.files)

/-- The names of a work list for which `distributeFields` runs its iteration to
the end: those before the first name on which the map fails. -/
def distributeFields.processed {α : Type} (map : mapDistributeBase α) (cloudName : word)
    (procs : List (Proc α)) (names : List word) : List word :=
  names.takeWhile (fun X => (map.distribute (distributeFields.sent cloudName X procs)).isSome)

/-- The field the process of rank `rank` holds after `map.distribute` in the
iteration of `distributeFields` for `objectName`. -/
def distributeFields.received {α : Type} (map : mapDistributeBase α) (cloudName : word)
    (procs : List (Proc α)) (rank : Nat) (objectName : word) : List α :=
  match map.distribute (distributeFields.sent cloudName objectName procs) with
  | some out => out rank
  | none => []

/-! ## Example inputs

The end-to-end scenario of the specification: a group of two processes; cloud
`cloud1`; the fixed field `T` exists only on process 0, with three entities;
the distribution map moves two of them to process 1, which holds a stale
destination object `T`. -/

/-- The registry scan of process 0: it sees `T`. -/
def scenario.objects0 : IOobjectList :=
  { entries := [⟨"T", "scalarField"⟩], keys_nodup := by decide }

/-- The registry scan of process 1: it sees nothing. -/
def scenario.objects1 : IOobjectList :=
  { entries := [], keys_nodup := by decide }

/-- The empty selector. -/
def scenario.noSelection : wordRes := { patterns := [] }

/-- The arguments of `filterObjects` on the two ranks. -/
def scenario.group : List (IOobjectList × wordRes) :=
  [(scenario.objects0, scenario.noSelection), (scenario.objects1, scenario.noSelection)]

/-- Process 0: its source object `T` has three entities; its cloud stores a
field `age` of two entities. -/
def scenario.proc0 : Proc Nat :=
  { self := { srcMesh_ := ⟨"processor0/R", "0"⟩, tgtMesh_ := ⟨"processor0/R-new", "0"⟩ }
    objects := scenario.objects0
    selectedFields := scenario.noSelection
    cloud := { name := "cloud1", stored := [⟨"age", "scalarField", [1, 2]⟩] }
    files := fun q =>
      if q = ⟨"processor0/R", "0", "lagrangian/cloud1", "T"⟩ then some [10, 20, 30] else none
    info := []
    calls := [] }

/-- Process 1: no source object, and a stale destination object `T`; its cloud
stores a field `age` without entities, and a stale destination object `age`
exists. -/
def scenario.proc1 : Proc Nat :=
  { self := { srcMesh_ := ⟨"processor1/R", "0"⟩, tgtMesh_ := ⟨"processor1/R-new", "0"⟩ }
    objects := scenario.objects1
    selectedFields := scenario.noSelection
    cloud := { name := "cloud1", stored := [⟨"age", "scalarField", []⟩] }
    files := fun q =>
      if q = ⟨"processor1/R-new", "0", "lagrangian/cloud1", "T"⟩ then some [99]
      else if q = ⟨"processor1/R-new", "0", "lagrangian/cloud1", "age"⟩ then some [7]
      else none
    info := []
    calls := [] }

/-- The distribution map of the scenario: rank 0 keeps its first entity and
sends the others to rank 1. -/
def scenario.map : mapDistributeBase Nat :=
  { distribute := fun fields => some (fun rank =>
      match rank with
      | 0 => (fields.getD 0 []).take 1
      | 1 => fields.getD 1 [] ++ (fields.getD 0 []).drop 1
      | _ => []) }

/-- A distribution map that leaves every field where it is. -/
def scenario.keep : mapDistributeBase Nat :=
  { distribute := fun fields => some (fun rank => fields.getD rank []) }

/-- A process that sees `X` as an object of the compact kind. -/
def synonym.proc0 : Proc Nat :=
  { self := { srcMesh_ := ⟨"processor0/R", "0"⟩, tgtMesh_ := ⟨"processor0/R-new", "0"⟩ }
    objects := { entries := [⟨"X", "scalarFieldCompactField"⟩], keys_nodup := by decide }
    selectedFields := { patterns := [] }
    cloud := { name := "cloud1", stored := [] }
    files := fun q =>
      if q = ⟨"processor0/R", "0", "lagrangian/cloud1", "X"⟩ then some [1, 2] else none
    info := []
    calls := [] }

/-- A process that sees `X` as an object of the `IOField<Field<Type>>` kind. -/
def synonym.proc1 : Proc Nat :=
  { self := { srcMesh_ := ⟨"processor1/R", "0"⟩, tgtMesh_ := ⟨"processor1/R-new", "0"⟩ }
    objects := { entries := [⟨"X", "scalarFieldField"⟩], keys_nodup := by decide }
    selectedFields := { patterns := [] }
    cloud := { name := "cloud1", stored := [] }
    files := fun q =>
      if q = ⟨"processor1/R", "0", "lagrangian/cloud1", "X"⟩ then some [3] else none
    info := []
    calls := [] }

/-- A single process whose destination holds an object `old` left by an
earlier pass; no process reports `old` any more. -/
def stale.proc : Proc Nat :=
  { self := { srcMesh_ := ⟨"processor0/R", "0"⟩, tgtMesh_ := ⟨"processor0/R-new", "0"⟩ }
    objects := scenario.objects0
    selectedFields := scenario.noSelection
    cloud := { name := "cloud1", stored := [] }
    files := fun q =>
      if q = ⟨"processor0/R", "0", "lagrangian/cloud1", "T"⟩ then some [1]
      else if q = ⟨"processor0/R-new", "0", "lagrangian/cloud1", "old"⟩ then some [5]
      else none
    info := []
    calls := [] }

/-! ## One process through its iterations -/

/-- One iteration of a process through a loop body, the collective call having
left the field `received`. -/
def Run.iterate {ι α : Type} (body : loopBody ι α) (r : Run ι α) (received : List α) :
    Run ι α :=
  Run.leave body (Run.enter body r).1 (Run.enter body r).2 received

/-- A process after the iterations in which the collective calls left the
fields `received`, in order. -/
def Run.after {ι α : Type} (body : loopBody ι α) (r : Run ι α) (received : List (List α)) :
    Run ι α :=
  received.foldl (Run.iterate body) r

/-- The header line the loops print under `if (!nFields)`. -/
def distributeHeader (typeName : word) : String :=
  "    Distributing lagrangian " ++ typeName ++ "s\n" ++ "\n"

/-- The line the loops print for an object. -/
def nameLine (objectName : word) : String := "        " ++ objectName ++ "\n"

/-- The calls of the map a process makes when it visits the leading names of
`names`, one for each field `received`: the field it hands over is the source
object as found on disk at that moment, read if present, and the field it
receives is persisted-or-removed before the next name is visited. -/
def diskCalls {α : Type} (src : word → IOobject) (dest : word → fileName) :
    List word → List (List α) → fileSystem α → List (distributeCall α)
  | X :: names, received :: rest, files =>
    ⟨X, readIfPresent (src X) files, received⟩
      :: diskCalls src dest names rest (persist (dest X) received files)
  | _, _, _ => []

/-- Every call of a history hands to the map the source object as found on
disk at the moment of the call, read if present: the content of the object
when there is one and a field without entities when there is none. -/
def sentFromDisk {α : Type} (src : word → IOobject) (dest : word → fileName) :
    List (distributeCall α) → fileSystem α → Prop
  | [], _ => True
  | c :: calls, files =>
    c.sent = readIfPresent (src c.objectName) files
      ∧ sentFromDisk src dest calls (persist (dest c.objectName) c.received files)

/-- The lines a loop sends to `Info` for the names it visits, `n` being the
value of `nFields` when it starts and `bump` what an iteration does to
`nFields`. -/
def progressLines (typeName : word) (bump : label → label) : label → List word → List String
  | _, [] => []
  | n, X :: names =>
    (if n = 0 then [distributeHeader typeName] else []) ++ [nameLine X]
      ++ progressLines typeName bump (bump n) names

/-- The calls of the map a process makes when it visits the leading fields of
`fields`, stored on its cloud, one for each field `received`: it hands over
the content of the stored field. -/
def storedCalls {α : Type} (fields : List (storedField α)) (received : List (List α)) :
    List (distributeCall α) :=
  List.zipWith (fun f recv => ⟨f.name, f.content, recv⟩) fields received

/-- The calls of the map a process has made during a pass: the entries added
to its history, `p` being the process before the pass and `p'` after it. -/
def callsMade {α : Type} (p p' : Proc α) : List (distributeCall α) :=
  p'.calls.drop p.calls.length

/-- Lock-step of the dispatcher, for one process: the calls of the map made
during the pass are one call per name for the leading names of the work list,
in list order, for all the names when the pass completed, and each call hands
over the source object as found on disk, a field without entities when the
object is absent. -/
def lockStepCalls {α : Type} (src : word → IOobject) (dest : word → fileName)
    (workList : List word) (completed : Prop) (p p' : Proc α) : Prop :=
  (callsMade p p').map distributeCall.objectName <+: workList
    ∧ (completed → (callsMade p p').map distributeCall.objectName = workList)
    ∧ sentFromDisk src dest (callsMade p p') p.files

/-! ## `readFields` -/

/-- The `IOobject(objectName, cloud.time().timeName(), cloud, ..)` of the
sources: the object `objectName` in the database of the cloud. -/
def cloudObject {α : Type} (cloud : passivePositionParticleCloud α) (objectName : word) :
    IOobject :=
  { name := objectName, inst := cloud.timeName, loc := "", db := cloud.dbPath }

/-- Modelled from the spec: `fieldPtr->store()`: the field is handed over to the
registry of the cloud, whose table lists it from then on (here after the
fields it held already). -/
def passivePositionParticleCloud.store {α : Type} (cloud : passivePositionParticleCloud α)
    (field : storedField α) : passivePositionParticleCloud α :=
  { cloud with stored := cloud.stored ++ [field] }

/-- The header line `readFields` prints under `if (!nFields)`. -/
def readHeader (typeName : word) : String :=
  "    Reading lagrangian " ++ typeName ++ "s\n" ++ "\n"

/-- One iteration of the loop of `readFields<Container>` on a process
(`verbose_` is the constant `true`); the state is the process and the counter
`nFields`. -/
def readFields.iteration {α : Type} (typeName : word) (st : Proc α × label)
    (objectName : word) : Proc α × label :=
  let p := if st.2 = 0 then st.1.print (readHeader typeName) else st.1
  let p := p.print (nameLine objectName)
  let nFields := st.2 + 1
  -- Read if present
  let field : storedField α :=
    ⟨objectName, typeName, readIfPresent (cloudObject p.cloud objectName) p.files⟩
  ({ p with cloud := p.cloud.store field }, nFields)

/-- The loop of `readFields<Container>` on a process and the statement
`if (nFields && verbose_) Info<< endl;` after it; `fieldNames` is what
`filterObjects` returned on the process. -/
def readFields.loop {α : Type} (typeName : word) (fieldNames : wordList) (p : Proc α) :
    Proc α × label :=
  let st := fieldNames.foldl (readFields.iteration typeName) (p, 0)
  if st.2 ≠ 0 then (st.1.print "\n", st.2) else st

/-- The `parLagrangianDistributor::readFields<Container>` of the sources, run by
the whole group; `typeName` is `Container::typeName`.  Its loop makes no
collective call and cannot fail. -/
def readFields {α : Type} (typeName : word) (procs : List (Proc α)) : passResult α :=
  let fieldNames := filterObjects typeName (procs.map (fun p => (p.objects, p.selectedFields)))
  let rs := List.zipWith (fun p names => readFields.loop typeName names p) procs fieldNames
  { status := passStatus.completed, procs := rs.map Prod.fst, returned := rs.map Prod.snd }

/-! ## The finite-area mesh: `faMesh` -/

/-- What `boundarySubset` uses of a `faMesh`: the data members `nEdges_` and
`nInternalEdges_`.  Edges are numbered with the internal edges first, so the
boundary edges are `nInternalEdges_ .. nEdges_ - 1`. -/
structure faMesh where
  /-- Number of edges. -/
  nEdges_ : label
  /-- Number of internal edges, a count that is never negative. -/
  nInternalEdges_ : label
deriving DecidableEq, Repr

/-- The static data of `faMesh` that `geometryOrder` reads and writes: the
member `static int geometryOrder_`.  The `int` is a mathematical integer here:
the value is stored and returned, never computed with. -/
structure faMesh.statics where
  /-- Geometry treatment. -/
  geometryOrder_ : Int
deriving DecidableEq, Repr

/-- The `static int geometryOrder() noexcept` of the sources: the current
geometry treatment. -/
def faMesh.geometryOrder (s : faMesh.statics) : Int :=
  s.geometryOrder_

/-- The `static int geometryOrder(const int order) noexcept` of the sources: the
value it returns and the static data after the call. -/
def faMesh.geometryOrder.set (order : Int) (s : faMesh.statics) : Int × faMesh.statics :=
  let old := s.geometryOrder_
  (old, { s with geometryOrder_ := order })

/-- How a call that may raise a fatal error ends. -/
inductive Outcome (β : Type) where
  /-- The call returns `result`. -/
  | returned (result : β)
  /-- The call ends in a fatal error. -/
  | fatalError
  /-- The call reads an element outside the storage of a list without any
  check: no error is raised and what is read is not defined. -/
  | uncheckedAccess
deriving DecidableEq, Repr

/-- Modelled from the spec: `checkBoundaryEdgeLabelRange`, declared in the sources
as "Fatal error if edge labels are out of range" (its body is not part of
them): `true` when every label is the label of a boundary edge of the mesh,
`nInternalEdges_ .. nEdges_ - 1`, in which case the call returns; `false`
when the call ends in a fatal error. -/
def faMesh.checkBoundaryEdgeLabelRange (mesh : faMesh) (edgeLabels : List label) : Bool :=
  edgeLabels.all (fun edgei => decide (mesh.nInternalEdges_ ≤ edgei ∧ edgei < mesh.nEdges_))

/-- Modelled from the spec: `UList<T>::operator[]` (not part of the sources): the
element at index `i`.  The index is checked in a `FULLDEBUG` build only, where
an index outside `0 .. size - 1` is a fatal error; in any other build the
access is unchecked. -/
def UList.get {T : Type} (fullDebug : Bool) (list : List T) (i : label) : Outcome T :=
  match (if 0 ≤ i then list[i.toNat]? else none) with
  | some value => Outcome.returned value
  | none => if fullDebug then Outcome.fatalError else Outcome.uncheckedAccess

/-- The loop `forAll(edgeLabels, i)` of `boundarySubset`, which fills the result
element by element and stops at the first access that does not return. -/
def faMesh.boundarySubset.loop {T : Type} (fullDebug : Bool) (mesh : faMesh)
    (bndField : List T) : List label → Outcome (List T)
  | [] => Outcome.returned []
  | edgei :: edgeLabels =>
    match UList.get fullDebug bndField (edgei - mesh.nInternalEdges_) with
    | Outcome.returned value =>
      match faMesh.boundarySubset.loop fullDebug mesh bndField edgeLabels with
      | Outcome.returned result => Outcome.returned (value :: result)
      | Outcome.fatalError => Outcome.fatalError
      | Outcome.uncheckedAccess => Outcome.uncheckedAccess
    | Outcome.fatalError => Outcome.fatalError
    | Outcome.uncheckedAccess => Outcome.uncheckedAccess

/-- The `faMesh::boundarySubset` of the sources.  `fullDebug` tells whether the
build defines `FULLDEBUG`: the call of `checkBoundaryEdgeLabelRange` stands
between `#ifdef FULLDEBUG` and `#endif`.  The difference
`edgeLabels[i] - nInternalEdges_` is taken in the integers: in a C++ label it
leaves the machine range only for a negative label, whose index is negative
here as well. -/
def faMesh.boundarySubset {T : Type} (fullDebug : Bool) (mesh : faMesh) (bndField : List T)
    (edgeLabels : List label) : Outcome (List T) :=
  if fullDebug && !mesh.checkBoundaryEdgeLabelRange edgeLabels then Outcome.fatalError
  else
    -- Like UIndirectList but with an offset
    faMesh.boundarySubset.loop fullDebug mesh bndField edgeLabels

/-! ## `faMesh::patchTuple` -/

/-- The `faMesh::patchTuple` of the sources, a `FixedList<label, 4>`: the fields
are its components `[0]` to `[3]` under the names of their accessors. -/
structure faMesh.patchTuple where
  /-- Processor is the first sort index. -/
  procNo : label
  /-- PatchId (-ve for finiteArea patches) is the second sort index. -/
  patchi : label
  /-- The patch edge index (on the finiteArea patch) is the third sort index. -/
  patchEdgei : label
  /-- The processor-local mesh face is the fourth sort index. -/
  meshFacei : label
deriving DecidableEq, Repr

/-- Modelled from the spec: `operator<` of `FixedList` on a `patchTuple`, the
"lexicographic (proc, patch, patchEdge, meshFace) order": the components are
compared in turn and the first that differs decides. -/
def faMesh.patchTuple.less (a b : faMesh.patchTuple) : Bool :=
  if a.procNo < b.procNo then true
  else if b.procNo < a.procNo then false
  else if a.patchi < b.patchi then true
  else if b.patchi < a.patchi then false
  else if a.patchEdgei < b.patchEdgei then true
  else if b.patchEdgei < a.patchEdgei then false
  else if a.meshFacei < b.meshFacei then true
  else false

/-- Modelled from the spec: the `Pair<T>` of the sources, a `FixedList<T, 2>` with the
accessors `first()` and `second()` (the class is not part of the sources). -/
structure Pair (T : Type) where
  /-- The first element. -/
  first : T
  /-- The second element. -/
  second : T
deriving DecidableEq, Repr

/-- Modelled from the spec: `Pair<T>::flip()`: the two elements change places. -/
def Pair.flip {T : Type} (p : Pair T) : Pair T :=
  ⟨p.second, p.first⟩

/-- Modelled from the spec: `Pair<T>::sort()`, "sort left/right as lower/higher":
the pair is flipped if its second element is less than its first; `less` is
the `operator<` of `T`. -/
def Pair.sort {T : Type} (less : T → T → Bool) (p : Pair T) : Pair T :=
  if less p.second p.first then p.flip else p

/-- Modelled from the spec: `operator<` of `FixedList` on a `Pair<T>`: the first
elements are compared, then the second. -/
def Pair.less {T : Type} (less : T → T → Bool) (a b : Pair T) : Bool :=
  if less a.first b.first then true
  else if less b.first a.first then false
  else if less a.second b.second then true
  else false

/-- Modelled from the spec: `Foam::stableSort(list)`, a stable sort by `operator<`:
every element is placed before the elements that follow it in the input and are
not less than it. -/
def stableSort {T : Type} (less : T → T → Bool) (list : List T) : List T :=
  list.insertionSort (fun a b => less b a = false)

/-- The `faMesh::patchTuple::sort` of the sources; the list sorted in place is
returned. -/
def faMesh.patchTuple.sort (list : List (Pair faMesh.patchTuple)) :
    List (Pair faMesh.patchTuple) :=
  -- 1. sort left/right as lower/higher processor connection
  let list := list.map (Pair.sort faMesh.patchTuple.less)
  -- 2. sort by proc/patch/patch index
  stableSort (Pair.less faMesh.patchTuple.less) list

/-- The two tuples of a pair without their order. -/
def Pair.unordered {T : Type} (p : Pair T) : Sym2 T :=
  Sym2.mk (p.first, p.second)

/-- That `less` is a strict total order: what the sorts of the sources expect of
an `operator<`. -/
structure StrictTotal {T : Type} (less : T → T → Bool) : Prop where
  /-- No element is less than itself. -/
  irrefl : ∀ a, less a a = false
  /-- The order is transitive. -/
  trans : ∀ a b c, less a b = true → less b c = true → less a c = true
  /-- Two elements neither of which is less than the other are equal. -/
  total : ∀ a b, less a b = false → less b a = false → a = b

/-- The registry scan of a process that sees two fields, `U` and `T`. -/
def two.objects : IOobjectList :=
  { entries := [⟨"U", "scalarField"⟩, ⟨"T", "scalarField"⟩], keys_nodup := by decide }

/-- A single process with the source objects `T`, of one entity, and `U`, of
two; its destination holds a stale object `U`. -/
def two.proc : Proc Nat :=
  { self := { srcMesh_ := ⟨"processor0/R", "0"⟩, tgtMesh_ := ⟨"processor0/R-new", "0"⟩ }
    objects := two.objects
    selectedFields := scenario.noSelection
    cloud := { name := "cloud1", stored := [] }
    files := fun q =>
      if q = ⟨"processor0/R", "0", "lagrangian/cloud1", "T"⟩ then some [1]
      else if q = ⟨"processor0/R", "0", "lagrangian/cloud1", "U"⟩ then some [2, 3]
      else if q = ⟨"processor0/R-new", "0", "lagrangian/cloud1", "U"⟩ then some [8]
      else none
    info := []
    calls := [] }

/-- A distribution map that fails on the field `[2, 3]` of a single process and
leaves every other field where it is. -/
def two.failing : mapDistributeBase Nat :=
  { distribute := fun fields =>
      if fields = [[2, 3]] then none else some (fun rank => fields.getD rank []) }

/-- A process whose cloud stores the fields `a` and `b`, listed in that order
by its table. -/
def order.proc0 : Proc Nat :=
  { self := { srcMesh_ := ⟨"processor0/R", "0"⟩, tgtMesh_ := ⟨"processor0/R-new", "0"⟩ }
    objects := scenario.objects1
    selectedFields := scenario.noSelection
    cloud := { name := "cloud1",
               stored := [⟨"a", "scalarField", [1]⟩, ⟨"b", "scalarField", [2, 3]⟩] }
    files := fun _ => none
    info := []
    calls := [] }

/-- A process whose cloud stores the same two fields `a` and `b`, listed in the
other order by its table. -/
def order.proc1 : Proc Nat :=
  { self := { srcMesh_ := ⟨"processor1/R", "0"⟩, tgtMesh_ := ⟨"processor1/R-new", "0"⟩ }
    objects := scenario.objects1
    selectedFields := scenario.noSelection
    cloud := { name := "cloud1",
               stored := [⟨"b", "scalarField", []⟩, ⟨"a", "scalarField", [4]⟩] }
    files := fun _ => none
    info := []
    calls := [] }

/-- Process 0 before `readFields`: its cloud stores nothing and its database
holds the object `T` of three entities. -/
def reading.proc0 : Proc Nat :=
  { self := { srcMesh_ := ⟨"processor0/R", "0"⟩, tgtMesh_ := ⟨"processor0/R-new", "0"⟩ }
    objects := scenario.objects0
    selectedFields := scenario.noSelection
    cloud := { name := "cloud1", stored := [], dbPath := "processor0/R/lagrangian/cloud1",
               timeName := "0" }
    files := fun q =>
      if q = ⟨"processor0/R/lagrangian/cloud1", "0", "", "T"⟩ then some [10, 20, 30] else none
    info := []
    calls := [] }

/-- Process 1 before `readFields`: its cloud stores nothing and its database
holds no object. -/
def reading.proc1 : Proc Nat :=
  { self := { srcMesh_ := ⟨"processor1/R", "0"⟩, tgtMesh_ := ⟨"processor1/R-new", "0"⟩ }
    objects := scenario.objects1
    selectedFields := scenario.noSelection
    cloud := { name := "cloud1", stored := [], dbPath := "processor1/R/lagrangian/cloud1",
               timeName := "0" }
    files := fun _ => none
    info := []
    calls := [] }

/-- Process 0 before `readFields` when its cloud stores the field `age`
already; the cloud of `reading.proc1` stores nothing. -/
def reading.aged : Proc Nat :=
  { reading.proc0 with
    cloud := { name := "cloud1", stored := [⟨"age", "scalarField", [1, 2, 3]⟩],
               dbPath := "processor0/R/lagrangian/cloud1", timeName := "0" } }

/-- A mesh of five edges of which two are internal: its boundary edges are
`2, 3, 4`. -/
def small.mesh : faMesh := { nEdges_ := 5, nInternalEdges_ := 2 }

/-- A field on the three boundary edges of `small.mesh`. -/
def small.bndField : List Nat := [10, 20, 30]

/-- Two connections, each given with the higher processor on the left. -/
def links.given : List (Pair faMesh.patchTuple) :=
  [⟨⟨1, 0, 0, 0⟩, ⟨0, 2, 1, 5⟩⟩, ⟨⟨0, 1, 0, 0⟩, ⟨0, -1, 0, 3⟩⟩]

/-- The connections of `links.given` in the other order, each pair swapped. -/
def links.swapped : List (Pair faMesh.patchTuple) :=
  [⟨⟨0, -1, 0, 3⟩, ⟨0, 1, 0, 0⟩⟩, ⟨⟨0, 2, 1, 5⟩, ⟨1, 0, 0, 0⟩⟩]

/-! ## Labels as machine integers, and the patch id of a `patchTuple` -/

/-- Modelled from the spec: the constant `labelMax`, the largest value of a `label`
of `w` bits; `w` is the label size of the build (32 or 64), which like
`labelMax` is not part of the sources. -/
def labelMax (w : Nat) : label :=
  2 ^ (w - 1) - 1

/-- The value a signed machine integer of `w` bits holds for the mathematical
result `x` of an operation: `x` itself when it lies in
`-2^(w-1) .. 2^(w-1) - 1`, and `x` wrapped around modulo `2^w` otherwise. -/
def label.wrap (w : Nat) (x : Int) : label :=
  (x + 2 ^ (w - 1)) % 2 ^ w - 2 ^ (w - 1)

/-- The setter `void procNo(label val)` of the sources. -/
def faMesh.patchTuple.procNo.set (val : label) (t : faMesh.patchTuple) : faMesh.patchTuple :=
  { t with procNo := val }

/-- The setter `void patchi(label val)` of the sources. -/
def faMesh.patchTuple.patchi.set (val : label) (t : faMesh.patchTuple) : faMesh.patchTuple :=
  { t with patchi := val }

/-- The setter `void patchEdgei(label val)` of the sources. -/
def faMesh.patchTuple.patchEdgei.set (val : label) (t : faMesh.patchTuple) :
    faMesh.patchTuple :=
  { t with patchEdgei := val }

/-- The setter `void meshFacei(label val)` of the sources. -/
def faMesh.patchTuple.meshFacei.set (val : label) (t : faMesh.patchTuple) :
    faMesh.patchTuple :=
  { t with meshFacei := val }

/-- The `patchTuple::clear()` of the sources: reset to 'invalid'. -/
def faMesh.patchTuple.clear (w : Nat) (t : faMesh.patchTuple) : faMesh.patchTuple :=
  let t := faMesh.patchTuple.procNo.set (-1) t
  let t := faMesh.patchTuple.patchi.set (labelMax w) t
  let t := faMesh.patchTuple.patchEdgei.set (-1) t
  faMesh.patchTuple.meshFacei.set (-1) t

/-- The default constructor `patchTuple()` of the sources, whose body is
`clear()`; `storage` is what the four components hold before the body runs
(the `FixedList` leaves them as they are found). -/
def faMesh.patchTuple.defaultConstruct (w : Nat) (storage : faMesh.patchTuple) :
    faMesh.patchTuple :=
  faMesh.patchTuple.clear w storage

/-- The `patchTuple::valid()` of the sources: valid if proc and edge are
non-negative. -/
def faMesh.patchTuple.valid (t : faMesh.patchTuple) : Bool :=
  decide (t.procNo ≥ 0) && decide (t.patchEdgei ≥ 0)

/-- The `patchTuple::realPatchi()` of the sources: the real patchId.  The sum
and the negation are those of labels of `w` bits. -/
def faMesh.patchTuple.realPatchi (w : Nat) (t : faMesh.patchTuple) : label :=
  let id := t.patchi
  if id < 0 then label.wrap w (-(label.wrap w (id + 1))) else id

/-- The `patchTuple::faPatchi(label val)` of the sources: set patchId as
finiteArea.  The sum and the negation are those of labels of `w` bits. -/
def faMesh.patchTuple.faPatchi (w : Nat) (val : label) (t : faMesh.patchTuple) :
    faMesh.patchTuple :=
  faMesh.patchTuple.patchi.set (label.wrap w (-(label.wrap w (val + 1)))) t

/-- The `patchTuple::is_finiteArea()` of the sources: considered to be
finiteArea if patchi < 0. -/
def faMesh.patchTuple.is_finiteArea (t : faMesh.patchTuple) : Bool :=
  decide (t.patchi < 0)

/-- A boundary field with one entry more than `small.mesh` has boundary
edges. -/
def small.longField : List Nat := [10, 20, 30, 40]

/-- A tuple of processor 1 whose patch id is set as the finite-area patch 0,
with labels of 32 bits. -/
def links.areaOnProc1 : faMesh.patchTuple :=
  faMesh.patchTuple.faPatchi 32 0 ⟨1, 0, 0, 0⟩

/-- A tuple of processor 0 whose patch id is set as the normal patch 0. -/
def links.normalOnProc0 : faMesh.patchTuple :=
  faMesh.patchTuple.patchi.set 0 ⟨0, 0, 0, 0⟩

/-! ## Reconciliation of names -/

theorem ListOps.mem_uniqueEqOp (x y : wordList) (v : word) :
    v ∈ ListOps.uniqueEqOp x y ↔ v ∈ x ∨ v ∈ y := by
  unfold ListOps.uniqueEqOp
  induction y generalizing x with
  | nil => simp
  | cons b y ih =>
    rw [List.foldl_cons, ih]
    by_cases hb : b ∈ x
    · simp only [hb, if_true, List.mem_cons]
      constructor
      · rintro (h | h)
        · exact Or.inl h
        · exact Or.inr (Or.inr h)
      · rintro (h | h | h)
        · exact Or.inl h
        · exact Or.inl (h ▸ hb)
        · exact Or.inr h
    · simp only [hb, if_false, List.mem_append, List.mem_singleton, List.mem_cons]
      tauto

theorem ListOps.nodup_uniqueEqOp (x y : wordList) (hx : x.Nodup) :
    (ListOps.uniqueEqOp x y).Nodup := by
  unfold ListOps.uniqueEqOp
  induction y generalizing x with
  | nil => simpa using hx
  | cons b y ih =>
    rw [List.foldl_cons]
    apply ih
    by_cases hb : b ∈ x
    · simpa [hb] using hx
    · simp only [hb, if_false]
      rw [List.nodup_append]
      refine ⟨hx, List.nodup_singleton b, ?_⟩
      intro a ha hab
      rw [List.mem_singleton] at hab
      exact hb (hab ▸ ha)

theorem ListOps.mem_foldl_uniqueEqOp (others : List wordList) (master : wordList) (v : word) :
    v ∈ others.foldl ListOps.uniqueEqOp master ↔ v ∈ master ∨ ∃ l ∈ others, v ∈ l := by
  induction others generalizing master with
  | nil => simp
  | cons o others ih =>
    rw [List.foldl_cons, ih, ListOps.mem_uniqueEqOp]
    simp only [List.mem_cons, exists_eq_or_imp]
    tauto

theorem ListOps.nodup_foldl_uniqueEqOp (others : List wordList) (master : wordList)
    (h : master.Nodup) : (others.foldl ListOps.uniqueEqOp master).Nodup := by
  induction others generalizing master with
  | nil => simpa using h
  | cons o others ih =>
    rw [List.foldl_cons]
    exact ih _ (ListOps.nodup_uniqueEqOp _ _ h)

theorem filterObjects_eq_replicate (typeName : word) (group : List (IOobjectList × wordRes)) :
    filterObjects typeName group
      = List.replicate group.length (filterObjects.reconciled typeName group) := by
  unfold filterObjects filterObjects.reconciled
  cases group with
  | nil => rfl
  | cons a group =>
    simp only [List.map_cons, Pstream.combineGather, Pstream.broadcast, List.length_cons,
      List.replicate_succ, List.map_map, List.cons.injEq, true_and]
    rw [List.eq_replicate_iff]
    refine ⟨by simp, ?_⟩
    intro b hb
    simp only [List.mem_map, Function.comp] at hb
    obtain ⟨_, _, h⟩ := hb
    exact h.symm

theorem filterObjects.nodup_localNames (typeName : word) (objects : IOobjectList)
    (selectedFields : wordRes) :
    (filterObjects.localNames typeName objects selectedFields).Nodup := by
  unfold filterObjects.localNames IOobjectList.names IOobjectList.namesMatching
  have h := objects.keys_nodup
  split
  · exact (List.Nodup.sublist ((List.filter_sublist _).map _) h)
  · exact (List.Nodup.sublist ((List.filter_sublist _).map _) h)

theorem mem_sort (l : wordList) (v : word) : v ∈ sort l ↔ v ∈ l :=
  (List.perm_insertionSort _ l).mem_iff

theorem filterObjects.mem_reconciled (typeName : word) (group : List (IOobjectList × wordRes))
    (v : word) :
    v ∈ filterObjects.reconciled typeName group
      ↔ ∃ a ∈ group, v ∈ filterObjects.localNames typeName a.1 a.2 := by
  unfold filterObjects.reconciled
  cases group with
  | nil => simp
  | cons a group =>
    simp only [List.map_cons, mem_sort, ListOps.mem_foldl_uniqueEqOp, List.mem_map,
      List.mem_cons, exists_eq_or_imp]
    constructor
    · rintro (h | ⟨l, ⟨b, hb, rfl⟩, hv⟩)
      · exact Or.inl h
      · exact Or.inr ⟨b, hb, hv⟩
    · rintro (h | ⟨b, hb, hv⟩)
      · exact Or.inl h
      · exact Or.inr ⟨_, ⟨b, hb, rfl⟩, hv⟩

theorem filterObjects.sorted_reconciled (typeName : word)
    (group : List (IOobjectList × wordRes)) :
    (filterObjects.reconciled typeName group).Sorted (· < ·) := by
  unfold filterObjects.reconciled
  cases group with
  | nil => simp
  | cons a group =>
    simp only [List.map_cons]
    apply List.Sorted.lt_of_le
    · exact List.sorted_insertionSort _ _
    · unfold sort
      rw [(List.perm_insertionSort _ _).nodup_iff]
      exact ListOps.nodup_foldl_uniqueEqOp _ _ (filterObjects.nodup_localNames _ _ _)

theorem filterObjects.mem_localNames (typeName : word) (objects : IOobjectList)
    (selectedFields : wordRes) (v : word) :
    v ∈ filterObjects.localNames typeName objects selectedFields
      ↔ (⟨v, typeName⟩ : objectEntry) ∈ objects.entries
          ∧ (selectedFields.empty = false → selectedFields.isMatch v = true) := by
  unfold filterObjects.localNames IOobjectList.names IOobjectList.namesMatching
  cases hsel : selectedFields.empty
  · simp only [Bool.false_eq_true, if_false, List.mem_map, List.mem_filter, Bool.and_eq_true,
      beq_iff_eq, forall_true_left]
    constructor
    · rintro ⟨e, ⟨he, hc, hm⟩, rfl⟩
      cases e
      simp only at hc
      subst hc
      exact ⟨he, hm⟩
    · rintro ⟨he, hm⟩
      exact ⟨_, ⟨he, rfl, hm⟩, rfl⟩
  · simp only [if_true, List.mem_map, List.mem_filter, beq_iff_eq, Bool.true_eq_false,
      false_implies, and_true]
    constructor
    · rintro ⟨e, ⟨he, hc⟩, rfl⟩
      cases e
      simp only at hc
      subst hc
      exact he
    · rintro he
      exact ⟨_, ⟨he, rfl⟩, rfl⟩

/-- C1 (name-set convergence): for every group and every assignment of local
registries and selectors to its processes, `filterObjects` returns one list per
process and all of them are the same list, element by element. -/
theorem filterObjects_converges (typeName : word) (group : List (IOobjectList × wordRes)) :
    ∃ names : wordList, filterObjects typeName group = List.replicate group.length names :=
  ⟨filterObjects.reconciled typeName group, filterObjects_eq_replicate typeName group⟩

/-- C2: every list returned by `filterObjects` is strictly increasing in the
lexicographic order of names, hence sorted and free of repetitions. -/
theorem filterObjects_strictly_sorted (typeName : word)
    (group : List (IOobjectList × wordRes)) (l : wordList)
    (hl : l ∈ filterObjects typeName group) : l.Sorted (· < ·) := by
  rw [filterObjects_eq_replicate] at hl
  rw [List.eq_of_mem_replicate hl]
  exact filterObjects.sorted_reconciled typeName group

/-- Witness of C2 on the scenario group. -/
theorem filterObjects_strictly_sorted_witness :
    ["T"] ∈ filterObjects "scalarField" scenario.group
      ∧ List.Sorted (· < ·) (["T"] : wordList) :=
  ⟨by decide, filterObjects_strictly_sorted "scalarField" scenario.group ["T"] (by decide)⟩

/-- C3 (presence tolerance): a name is in the list returned on a process exactly
when it is among the locally matching names of some process of the group, and
the returned list is empty exactly when no process has a match. -/
theorem filterObjects_presence (typeName : word) (group : List (IOobjectList × wordRes))
    (l : wordList) (hl : l ∈ filterObjects typeName group) :
    (∀ name : word, name ∈ l
        ↔ ∃ a ∈ group, name ∈ filterObjects.localNames typeName a.1 a.2)
      ∧ (l = [] ↔ ∀ a ∈ group, filterObjects.localNames typeName a.1 a.2 = []) := by
  rw [filterObjects_eq_replicate] at hl
  rw [List.eq_of_mem_replicate hl]
  have hmem := filterObjects.mem_reconciled typeName group
  refine ⟨hmem, ?_⟩
  rw [List.eq_nil_iff_forall_not_mem]
  constructor
  · intro h a ha
    rw [List.eq_nil_iff_forall_not_mem]
    intro v hv
    exact h v ((hmem v).2 ⟨a, ha, hv⟩)
  · intro h v hv
    obtain ⟨a, ha, hva⟩ := (hmem v).1 hv
    rw [h a ha] at hva
    exact absurd hva (List.not_mem_nil v)

/-- Witness of C3 on the scenario group: `T`, seen by process 0 only, is in the
list of both processes. -/
theorem filterObjects_presence_witness :
    ["T"] ∈ filterObjects "scalarField" scenario.group
      ∧ ((∀ name : word, name ∈ ["T"]
          ↔ ∃ a ∈ scenario.group, name ∈ filterObjects.localNames "scalarField" a.1 a.2)
        ∧ ((["T"] : wordList) = []
          ↔ ∀ a ∈ scenario.group, filterObjects.localNames "scalarField" a.1 a.2 = [])) :=
  ⟨by decide, filterObjects_presence "scalarField" scenario.group ["T"] (by decide)⟩

/-- C4 (selector semantics): with an empty selector the local candidates are all
names of the requested kind in the registry; with a non-empty selector they are
the names of that kind the selector matches; so every name of a returned list
is, on some process, of the requested kind and matched by the selector when
that one is not empty. -/
theorem filterObjects_selector (typeName : word) :
    (∀ (objects : IOobjectList) (sel : wordRes), sel.empty = true →
        filterObjects.localNames typeName objects sel = objects.names typeName
          ∧ ∀ name : word, name ∈ filterObjects.localNames typeName objects sel
              ↔ (⟨name, typeName⟩ : objectEntry) ∈ objects.entries)
      ∧ (∀ (objects : IOobjectList) (sel : wordRes), sel.empty = false →
        filterObjects.localNames typeName objects sel = objects.namesMatching typeName sel
          ∧ ∀ name : word, name ∈ filterObjects.localNames typeName objects sel
              ↔ (⟨name, typeName⟩ : objectEntry) ∈ objects.entries
                  ∧ sel.isMatch name = true)
      ∧ (∀ (group : List (IOobjectList × wordRes)) (l : wordList),
        l ∈ filterObjects typeName group → ∀ name ∈ l, ∃ a ∈ group,
          (⟨name, typeName⟩ : objectEntry) ∈ a.1.entries
            ∧ (a.2.empty = false → a.2.isMatch name = true)) := by
  refine ⟨?_, ?_, ?_⟩
  · intro objects sel hsel
    refine ⟨by simp [filterObjects.localNames, hsel], fun name => ?_⟩
    rw [filterObjects.mem_localNames]
    simp [hsel]
  · intro objects sel hsel
    refine ⟨by simp [filterObjects.localNames, hsel], fun name => ?_⟩
    rw [filterObjects.mem_localNames]
    simp [hsel]
  · intro group l hl name hname
    rw [filterObjects_eq_replicate] at hl
    rw [List.eq_of_mem_replicate hl] at hname
    obtain ⟨a, ha, hva⟩ := (filterObjects.mem_reconciled typeName group name).1 hname
    exact ⟨a, ha, (filterObjects.mem_localNames _ _ _ _).1 hva⟩

/-- Witness of C4: the empty selector of the scenario and a selector of one
pattern, on the registry of process 0. -/
theorem filterObjects_selector_witness :
    (scenario.noSelection.empty = true
        ∧ filterObjects.localNames "scalarField" scenario.objects0 scenario.noSelection = ["T"])
      ∧ ((wordRes.mk [⟨fun w => w == "U"⟩]).empty = false
        ∧ filterObjects.localNames "scalarField" scenario.objects0
            (wordRes.mk [⟨fun w => w == "U"⟩]) = [])
      ∧ (["T"] ∈ filterObjects "scalarField" scenario.group
        ∧ ∃ a ∈ scenario.group, (⟨"T", "scalarField"⟩ : objectEntry) ∈ a.1.entries
            ∧ (a.2.empty = false → a.2.isMatch "T" = true)) :=
  ⟨⟨by decide, by
      rw [((filterObjects_selector "scalarField").1 scenario.objects0 scenario.noSelection
        (by decide)).1]
      decide⟩,
    ⟨by decide, by
      rw [((filterObjects_selector "scalarField").2.1 scenario.objects0
        (wordRes.mk [⟨fun w => w == "U"⟩]) (by decide)).1]
      decide⟩,
    ⟨by decide, (filterObjects_selector "scalarField").2.2 scenario.group ["T"] (by decide)
      "T" (by decide)⟩⟩

/-! ## The lock-step loop and the three passes -/

theorem persistOrRemove_eq_persist {α : Type} (io : IOobject) (field : List α)
    (files : fileSystem α) :
    persistOrRemove io field files = persist io.objectPath field files := by
  unfold persistOrRemove persist writeObject rm
  split <;> rfl

theorem Run.Advanced.refl {ι α : Type} (body : loopBody ι α)
    (dest : Proc α → word → fileName) (r : Run ι α) : Run.Advanced body dest r r :=
  ⟨rfl, rfl, [], by simp, rfl, by simp⟩

theorem Run.Advanced.trans {ι α : Type} {body : loopBody ι α}
    {dest : Proc α → word → fileName} (hb : body.Persists dest) {r1 r2 r3 : Run ι α}
    (h12 : Run.Advanced body dest r1 r2) (h23 : Run.Advanced body dest r2 r3) :
    Run.Advanced body dest r1 r3 := by
  obtain ⟨hs12, hn12, done12, hc12, hf12, hw12⟩ := h12
  obtain ⟨hs23, hn23, done23, hc23, hf23, hw23⟩ := h23
  refine ⟨hs23.trans hs12, hn23.trans hn12, done12 ++ done23, ?_, ?_, ?_⟩
  · rw [hc23, hc12, List.append_assoc]
  · rw [hf23, hf12, hb.dest_congr _ _ hs12 hn12]
    unfold replay
    rw [List.foldl_append]
  · rw [hw12, hw23, List.map_append, List.append_assoc]

theorem Run.Advanced.round {ι α : Type} {body : loopBody ι α}
    {dest : Proc α → word → fileName} (hb : body.Persists dest) (r : Run ι α)
    (received : List α) :
    Run.Advanced body dest r
      (Run.leave body (Run.enter body r).1 (Run.enter body r).2 received) := by
  unfold Run.enter Run.leave
  cases hw : r.work with
  | nil => simp only [hw]; exact Run.Advanced.refl body dest r
  | cons x rest =>
    simp only [hb.enter_work, hw]
    refine ⟨?_, ?_, [⟨body.objectName x, (body.toCollective x r).2, received⟩], ?_, ?_, ?_⟩
    · show (body.fromCollective x received (body.toCollective x r).1).proc.self = r.proc.self
      rw [hb.leave_self, hb.enter_self]
    · show (body.fromCollective x received (body.toCollective x r).1).proc.cloud.name
        = r.proc.cloud.name
      rw [hb.leave_cloud, hb.enter_cloud]
    · show (body.fromCollective x received (body.toCollective x r).1).proc.calls ++ _ = _
      rw [hb.leave_calls, hb.enter_calls]
    · show (body.fromCollective x received (body.toCollective x r).1).proc.files = _
      rw [hb.leave_files, hb.enter_files,
        hb.dest_congr _ _ (hb.enter_self x r) (hb.enter_cloud x r)]
      rfl
    · simp [hw]

theorem Run.Advanced.enter {ι α : Type} {body : loopBody ι α}
    {dest : Proc α → word → fileName} (hb : body.Persists dest) (r : Run ι α) :
    Run.Advanced body dest r (Run.enter body r).1 := by
  unfold Run.enter
  cases hw : r.work with
  | nil => exact Run.Advanced.refl body dest r
  | cons x rest =>
    refine ⟨hb.enter_self x r, hb.enter_cloud x r, [], ?_, ?_, ?_⟩
    · simp [hb.enter_calls]
    · simp [hb.enter_files, replay]
    · simp [hb.enter_work, hw]

/-- Every process advances through a lock-step execution by replaying its own
calls; the group keeps its size. -/
theorem lockstep_advanced {ι α : Type} {body : loopBody ι α}
    {dest : Proc α → word → fileName} (hb : body.Persists dest) (map : mapDistributeBase α)
    (fuel : Nat) (rs : List (Run ι α)) :
    (lockstep body map fuel rs).2.length = rs.length
      ∧ ∀ (i : Nat) (r : Run ι α), rs[i]? = some r →
          ∃ r', (lockstep body map fuel rs).2[i]? = some r' ∧ Run.Advanced body dest r r' := by
  induction fuel generalizing rs with
  | zero =>
    exact ⟨rfl, fun i r hr => ⟨r, hr, Run.Advanced.refl body dest r⟩⟩
  | succ n ih =>
    unfold lockstep
    split
    · exact ⟨rfl, fun i r hr => ⟨r, hr, Run.Advanced.refl body dest r⟩⟩
    · split
      · exact ⟨rfl, fun i r hr => ⟨r, hr, Run.Advanced.refl body dest r⟩⟩
      · simp only
        split
        · refine ⟨by simp, fun i r hr => ⟨(Run.enter body r).1, ?_, Run.Advanced.enter hb r⟩⟩
          simp [List.getElem?_map, hr]
        · rename_i out hout
          obtain ⟨hlen, hadv⟩ := ih
            (List.mapIdx (fun rank e => Run.leave body e.1 e.2 (out rank))
              (List.map (Run.enter body) rs))
          refine ⟨by rw [hlen]; simp, fun i r hr => ?_⟩
          obtain ⟨r', hr', hadv'⟩ := hadv i
            (Run.leave body (Run.enter body r).1 (Run.enter body r).2 (out i))
            (by simp [List.getElem?_mapIdx, List.getElem?_map, hr])
          exact ⟨r', hr', (Run.Advanced.round hb r (out i)).trans hb hadv'⟩

/-- When the pass completes every process has emptied its work list. -/
theorem lockstep_completed {ι α : Type} (body : loopBody ι α) (map : mapDistributeBase α)
    (fuel : Nat) (rs : List (Run ι α))
    (h : (lockstep body map fuel rs).1 = passStatus.completed) :
    ∀ r' ∈ (lockstep body map fuel rs).2, r'.work = [] := by
  induction fuel generalizing rs with
  | zero =>
    unfold lockstep at h ⊢
    simp only at h ⊢
    split at h
    · rename_i hall
      intro r' hr'
      have := (List.all_eq_true.1 hall) r' hr'
      simpa using this
    · cases h
  | succ n ih =>
    unfold lockstep at h ⊢
    split
    · rename_i hall
      intro r' hr'
      have := (List.all_eq_true.1 hall) r' hr'
      simpa using this
    · rename_i hall
      rw [if_neg hall] at h
      split
      · rename_i hany
        rw [if_pos hany] at h
        cases h
      · rename_i hany
        rw [if_neg hany] at h
        simp only at h ⊢
        split
        · rename_i hnone
          rw [hnone] at h
          cases h
        · rename_i out hout
          rw [hout] at h
          exact ih _ h

theorem tgtPath_injective {α : Type} (cloudName : word) (p : Proc α) :
    Function.Injective (tgtPath cloudName p) := by
  intro X Y h
  simp only [tgtPath, tgtObject, IOobject.objectPath, fileName.mk.injEq] at h
  exact h.2.2.2

theorem distributeFields_body_persists {α : Type} (typeName cloudName : word) :
    (distributeFields.body typeName cloudName : loopBody word α).Persists
      (tgtPath cloudName) where
  enter_work x r := rfl
  enter_files x r := by
    simp only [distributeFields.body, Proc.print]
    split <;> rfl
  enter_calls x r := by
    simp only [distributeFields.body, Proc.print]
    split <;> rfl
  enter_self x r := by
    simp only [distributeFields.body, Proc.print]
    split <;> rfl
  enter_cloud x r := by
    simp only [distributeFields.body, Proc.print]
    split <;> rfl
  leave_files x f r := by
    simp only [distributeFields.body, persistOrRemove_eq_persist, tgtPath, id]
  leave_calls x f r := rfl
  leave_self x f r := rfl
  leave_cloud x f r := rfl
  dest_congr p p' hs hn := by
    funext X
    simp only [tgtPath, tgtObject, hs]

theorem distributeFieldFields_body_persists {α : Type} (typeName cloudName : word) :
    (distributeFieldFields.body typeName cloudName : loopBody word α).Persists
      (tgtPath cloudName) where
  enter_work x r := rfl
  enter_files x r := by
    simp only [distributeFieldFields.body, Proc.print]
    split <;> rfl
  enter_calls x r := by
    simp only [distributeFieldFields.body, Proc.print]
    split <;> rfl
  enter_self x r := by
    simp only [distributeFieldFields.body, Proc.print]
    split <;> rfl
  enter_cloud x r := by
    simp only [distributeFieldFields.body, Proc.print]
    split <;> rfl
  leave_files x f r := by
    simp only [distributeFieldFields.body, persistOrRemove_eq_persist, tgtPath, id]
  leave_calls x f r := rfl
  leave_self x f r := rfl
  leave_cloud x f r := rfl
  dest_congr p p' hs hn := by
    funext X
    simp only [tgtPath, tgtObject, hs]

theorem distributeStoredFields_body_persists {α : Type} (typeName : word) :
    (distributeStoredFields.body typeName : loopBody (storedField α) α).Persists
      tgtPathStored where
  enter_work x r := rfl
  enter_files x r := by
    simp only [distributeStoredFields.body, Proc.print]
    split <;> rfl
  enter_calls x r := by
    simp only [distributeStoredFields.body, Proc.print]
    split <;> rfl
  enter_self x r := by
    simp only [distributeStoredFields.body, Proc.print]
    split <;> rfl
  enter_cloud x r := by
    simp only [distributeStoredFields.body, Proc.print]
    split <;> rfl
  leave_files x f r := by
    simp only [distributeStoredFields.body, persistOrRemove_eq_persist, tgtPathStored]
  leave_calls x f r := rfl
  leave_self x f r := rfl
  leave_cloud x f r := rfl
  dest_congr p p' hs hn := by
    funext X
    simp only [tgtPathStored, tgtObject, hs, hn]

/-- Replaying calls never leaves an object without entities that was not there
before. -/
theorem replay_no_empty {α : Type} (dest : word → fileName) (calls : List (distributeCall α))
    (files : fileSystem α) (q : fileName) (h : replay dest calls files q = some []) :
    files q = some [] := by
  induction calls generalizing files with
  | nil => exact h
  | cons c calls ih =>
    have h1 := ih (persist (dest c.objectName) c.received files) h
    unfold persist at h1
    by_cases hq : q = dest c.objectName
    · subst hq
      rw [Function.update_same] at h1
      split at h1
      · rename_i hlen
        simp only [Option.some.injEq] at h1
        rw [h1] at hlen
        exact absurd rfl hlen
      · cases h1
    · rwa [Function.update_noteq hq] at h1

/-- Replaying calls leaves alone every location that is not the destination of
one of them. -/
theorem replay_frame {α : Type} (dest : word → fileName) (calls : List (distributeCall α))
    (files : fileSystem α) (q : fileName)
    (h : ∀ c ∈ calls, dest c.objectName ≠ q) : replay dest calls files q = files q := by
  induction calls generalizing files with
  | nil => rfl
  | cons c calls ih =>
    show replay dest calls (persist (dest c.objectName) c.received files) q = _
    rw [ih _ (fun c' hc' => h c' (List.mem_cons_of_mem _ hc'))]
    unfold persist
    exact Function.update_noteq (fun hq => h c (List.mem_cons_self _ _) hq.symm) _ _

/-- When every call made for an object received a field without entities, the
destination of the object is absent after the replay. -/
theorem replay_absent {α : Type} (dest : word → fileName) (hdest : Function.Injective dest)
    (calls : List (distributeCall α)) (files : fileSystem α) (X : word)
    (hX : X ∈ calls.map distributeCall.objectName)
    (hempty : ∀ c ∈ calls, c.objectName = X → c.received.length = 0) :
    replay dest calls files (dest X) = none := by
  induction calls generalizing files with
  | nil => simp at hX
  | cons c calls ih =>
    show replay dest calls (persist (dest c.objectName) c.received files) (dest X) = none
    by_cases hin : X ∈ calls.map distributeCall.objectName
    · exact ih _ hin (fun c' hc' => hempty c' (List.mem_cons_of_mem _ hc'))
    · have hc : c.objectName = X := by
        simp only [List.map_cons, List.mem_cons] at hX
        rcases hX with h | h
        · exact h.symm
        · exact absurd h hin
      rw [replay_frame]
      · unfold persist
        rw [hc, Function.update_same, hempty c (List.mem_cons_self _ _) hc]
        simp
      · intro c' hc' heq
        exact hin (List.mem_map.2 ⟨c', hc', hdest heq⟩)

theorem zipWith_replicate_length {β γ δ : Type} (f : β → γ → δ) (l : List β) (c : γ) :
    List.zipWith f l (List.replicate l.length c) = l.map (fun b => f b c) := by
  induction l with
  | nil => rfl
  | cons b l ih => simp [List.replicate_succ, ih]

theorem Run.finish_proc {ι α : Type} (r : Run ι α) :
    (Run.finish r).proc.self = r.proc.self ∧ (Run.finish r).proc.calls = r.proc.calls
      ∧ (Run.finish r).proc.files = r.proc.files ∧ (Run.finish r).work = r.work := by
  unfold Run.finish Proc.print
  split <;> exact ⟨rfl, rfl, rfl, rfl⟩

/-- What a lock-step pass does to the process of rank `i`, whether or not the
statement after the loop is run. -/
theorem pass_advanced {ι α : Type} {body : loopBody ι α} {dest : Proc α → word → fileName}
    (hb : body.Persists dest) (hinj : ∀ p, Function.Injective (dest p))
    (map : mapDistributeBase α) (rs : List (Run ι α)) (withFinish : Bool)
    (i : Nat) (r : Run ι α) (hr : rs[i]? = some r) :
    ∃ p', ((if withFinish = true ∧ (lockstep body map (roundsOf rs) rs).1 = passStatus.completed
              then (lockstep body map (roundsOf rs) rs).2.map Run.finish
              else (lockstep body map (roundsOf rs) rs).2).map Run.proc)[i]? = some p'
      ∧ emptinessTriggersDelete (dest r.proc) (r.work.map body.objectName)
          ((lockstep body map (roundsOf rs) rs).1 = passStatus.completed) r.proc p' := by
  obtain ⟨r', hr', hs, hn, done, hcalls, hfiles, hwork⟩ :=
    (lockstep_advanced hb map (roundsOf rs) rs).2 i r hr
  have hmem : r' ∈ (lockstep body map (roundsOf rs) rs).2 :=
    List.mem_iff_getElem?.2 ⟨i, hr'⟩
  have key : ∀ p' : Proc α, p'.calls = r'.proc.calls → p'.files = r'.proc.files →
      emptinessTriggersDelete (dest r.proc) (r.work.map body.objectName)
        ((lockstep body map (roundsOf rs) rs).1 = passStatus.completed) r.proc p' := by
    intro p' hc hf
    have hdrop : p'.calls.drop r.proc.calls.length = done := by
      rw [hc, hcalls, List.drop_left]
    unfold emptinessTriggersDelete
    rw [hdrop, hf, hfiles]
    refine ⟨⟨_, hwork.symm⟩, fun hdone => ?_,
      fun X hX hempty => replay_absent _ (hinj r.proc) done _ X hX hempty,
      fun q hq => replay_no_empty _ _ _ q hq⟩
    have hw : r'.work = [] := lockstep_completed body map _ rs hdone r' hmem
    rw [hw, List.map_nil, List.append_nil] at hwork
    exact hwork.symm
  by_cases hfin : withFinish = true
      ∧ (lockstep body map (roundsOf rs) rs).1 = passStatus.completed
  · rw [if_pos hfin]
    refine ⟨(Run.finish r').proc, by simp [List.getElem?_map, hr'], ?_⟩
    exact key _ (Run.finish_proc r').2.1 (Run.finish_proc r').2.2.1
  · rw [if_neg hfin]
    exact ⟨r'.proc, by simp [List.getElem?_map, hr'], key _ rfl rfl⟩

theorem distributeFields_runs {α : Type} (typeName : word) (procs : List (Proc α)) :
    List.zipWith (fun p names => ({ proc := p, work := names, nFields := 0 } : Run word α))
        procs (filterObjects typeName (procs.map (fun p => (p.objects, p.selectedFields))))
      = procs.map (fun p =>
          (⟨p, filterObjects.reconciled typeName (groupOf procs), 0⟩ : Run word α)) := by
  rw [filterObjects_eq_replicate, List.length_map, zipWith_replicate_length]
  rfl

theorem distributeFieldFields_fieldNames {α : Type} (typeName fieldFieldTypeName : word)
    (procs : List (Proc α)) :
    distributeFieldFields.fieldNames typeName fieldFieldTypeName procs
      = List.replicate procs.length
          (distributeFieldFields.workList typeName fieldFieldTypeName procs) := by
  unfold distributeFieldFields.fieldNames distributeFieldFields.workList groupOf
  simp only [filterObjects_eq_replicate, List.length_map, List.zipWith_replicate, min_self]

theorem distributeFieldFields_runs {α : Type} (typeName fieldFieldTypeName : word)
    (procs : List (Proc α)) :
    List.zipWith (fun p names => ({ proc := p, work := names, nFields := 0 } : Run word α))
        procs (distributeFieldFields.fieldNames typeName fieldFieldTypeName procs)
      = procs.map (fun p =>
          (⟨p, distributeFieldFields.workList typeName fieldFieldTypeName procs, 0⟩ :
            Run word α)) := by
  rw [distributeFieldFields_fieldNames, zipWith_replicate_length]

theorem distributeFieldFields_triggers {α : Type} (map : mapDistributeBase α)
    (typeName fieldFieldTypeName cloudName : word) (procs : List (Proc α)) (i : Nat)
    (p : Proc α) (hp : procs[i]? = some p) :
    ∃ p', (distributeFieldFields map typeName fieldFieldTypeName cloudName procs).procs[i]?
        = some p'
      ∧ emptinessTriggersDelete (tgtPath cloudName p)
          (distributeFieldFields.workList typeName fieldFieldTypeName procs)
          ((distributeFieldFields map typeName fieldFieldTypeName cloudName procs).status
            = passStatus.completed) p p' := by
  have h := pass_advanced (distributeFieldFields_body_persists typeName cloudName)
    (tgtPath_injective cloudName) map
    (procs.map (fun p =>
      (⟨p, distributeFieldFields.workList typeName fieldFieldTypeName procs, 0⟩ :
        Run word α)))
    true i _ (by rw [List.getElem?_map, hp]; rfl)
  simp only [true_and] at h
  unfold distributeFieldFields
  simp only [distributeFieldFields_runs]
  simpa [distributeFieldFields.body] using h

theorem lockstep_nFields {ι α : Type} (body : loopBody ι α) (map : mapDistributeBase α)
    (c : label)
    (henter : ∀ x r, (body.toCollective x r).1.nFields = r.nFields)
    (hleave : ∀ x f r, (body.fromCollective x f r).nFields = r.nFields)
    (fuel : Nat) (rs : List (Run ι α)) (h : ∀ r ∈ rs, r.nFields = c) :
    ∀ r' ∈ (lockstep body map fuel rs).2, r'.nFields = c := by
  have hent : ∀ r : Run ι α, (Run.enter body r).1.nFields = r.nFields := by
    intro r
    unfold Run.enter
    split
    · rfl
    · exact henter _ _
  have hlv : ∀ (r : Run ι α) (s f : List α), (Run.leave body r s f).nFields = r.nFields := by
    intro r s f
    unfold Run.leave
    split
    · rfl
    · exact hleave _ _ _
  induction fuel generalizing rs with
  | zero => exact h
  | succ n ih =>
    unfold lockstep
    split
    · exact h
    · split
      · exact h
      · simp only
        split
        · intro r' hr'
          simp only [List.map_map, List.mem_map, Function.comp] at hr'
          obtain ⟨r, hr, rfl⟩ := hr'
          rw [hent]
          exact h r hr
        · apply ih
          intro r' hr'
          obtain ⟨i, hi⟩ := List.mem_iff_getElem?.1 hr'
          rw [List.getElem?_mapIdx, List.getElem?_map] at hi
          cases hri : rs[i]? with
          | none => rw [hri] at hi; cases hi
          | some r =>
            rw [hri] at hi
            simp only [Option.map_some', Option.some.injEq] at hi
            rw [← hi, hlv, hent]
            exact h r (List.mem_iff_getElem?.2 ⟨i, hri⟩)

/-- The value `distributeFields` returns is `0` on every rank, whatever the
number of names it has processed: its loop never increments `nFields`. -/
theorem distributeFields_returned {α : Type} (map : mapDistributeBase α)
    (typeName cloudName : word) (procs : List (Proc α)) :
    (distributeFields map typeName cloudName procs).returned
      = List.replicate procs.length 0 := by
  unfold distributeFields
  simp only [distributeFields_runs]
  rw [List.eq_replicate_iff]
  constructor
  · rw [List.length_map,
      (lockstep_advanced (distributeFields_body_persists typeName cloudName) map _ _).1,
      List.length_map]
  · intro v hv
    obtain ⟨r', hr', rfl⟩ := List.mem_map.1 hv
    refine lockstep_nFields _ map 0 (fun _ _ => rfl) (fun _ _ _ => rfl) _ _ ?_ r' hr'
    intro r hr
    obtain ⟨p, _, rfl⟩ := List.mem_map.1 hr
    rfl

/-- C5, at the failing input (the scenario of the specification): the
reconciled list holds one name, the pass completes and every process has made
its call of the map for that name, yet `distributeFields` returns `0` on both
ranks instead of the count `1`. -/
theorem distributeFields_returns_zero_scenario :
    filterObjects "scalarField" (groupOf [scenario.proc0, scenario.proc1]) = [["T"], ["T"]]
      ∧ (distributeFields scenario.map "scalarField" "cloud1"
          [scenario.proc0, scenario.proc1]).status = passStatus.completed
      ∧ (distributeFields scenario.map "scalarField" "cloud1"
          [scenario.proc0, scenario.proc1]).procs.map
            (fun p => p.calls.map distributeCall.objectName) = [["T"], ["T"]]
      ∧ (distributeFields scenario.map "scalarField" "cloud1"
          [scenario.proc0, scenario.proc1]).returned = [0, 0] := by
  decide

/-- C6 as stated fails: `X` is reported as a compact field by process 0 and as
an `IOField<Field<Type>>` by process 1; the work list of both processes holds
`X` twice and both processes run the iteration for `X` twice. -/
theorem distributeFieldFields_synonym_twice :
    distributeFieldFields.fieldNames "scalarFieldCompactField" "scalarFieldField"
        [synonym.proc0, synonym.proc1] = [["X", "X"], ["X", "X"]]
      ∧ ¬ (["X", "X"] : wordList).Nodup
      ∧ (distributeFieldFields scenario.keep "scalarFieldCompactField" "scalarFieldField"
          "cloud1" [synonym.proc0, synonym.proc1]).status = passStatus.completed
      ∧ (distributeFieldFields scenario.keep "scalarFieldCompactField" "scalarFieldField"
          "cloud1" [synonym.proc0, synonym.proc1]).procs.map
            (fun p => p.calls.map distributeCall.objectName) = [["X", "X"], ["X", "X"]]
      ∧ (distributeFieldFields scenario.keep "scalarFieldCompactField" "scalarFieldField"
          "cloud1" [synonym.proc0, synonym.proc1]).returned = [2, 2] := by
  decide

theorem lockstep_done {ι α : Type} (body : loopBody ι α) (map : mapDistributeBase α)
    (fuel : Nat) (rs : List (Run ι α)) (h : ∀ r ∈ rs, r.work = []) :
    lockstep body map fuel rs = (passStatus.completed, rs) := by
  have hall : rs.all (fun r => r.work.isEmpty) = true := by
    rw [List.all_eq_true]
    intro r hr
    rw [h r hr]
    rfl
  cases fuel with
  | zero => unfold lockstep; rw [if_pos hall]
  | succ n => unfold lockstep; rw [if_pos hall]

theorem lockstep_round {ι α : Type} (body : loopBody ι α) (map : mapDistributeBase α)
    (fuel : Nat) (rs : List (Run ι α)) (hne : rs ≠ []) (h : ∀ r ∈ rs, r.work ≠ []) :
    lockstep body map (fuel + 1) rs
      = match map.distribute ((rs.map (Run.enter body)).map Prod.snd) with
        | none => (passStatus.mapFailed, (rs.map (Run.enter body)).map Prod.fst)
        | some out =>
          lockstep body map fuel
            ((rs.map (Run.enter body)).mapIdx
              (fun rank e => Run.leave body e.1 e.2 (out rank))) := by
  have hany : ¬ rs.any (fun r => r.work.isEmpty) = true := by
    rw [List.any_eq_true]
    rintro ⟨r, hr, hemp⟩
    exact h r hr (List.isEmpty_iff.1 hemp)
  have hall : ¬ rs.all (fun r => r.work.isEmpty) = true := by
    rw [List.all_eq_true]
    intro hall
    obtain ⟨r, hr⟩ := List.exists_mem_of_ne_nil rs hne
    exact h r hr (List.isEmpty_iff.1 (hall r hr))
  conv_lhs => unfold lockstep
  rw [if_neg hall, if_neg hany]

/-! ## `distributeFields`: what the pass leaves on disk -/

theorem distributeFields.enter_eq {α : Type} (typeName cloudName : word) (r : Run word α)
    (X : word) (xs : List word) (hw : r.work = X :: xs) :
    (Run.enter (distributeFields.body typeName cloudName) r).2
        = readIfPresent (srcObject r.proc cloudName X) r.proc.files
      ∧ (Run.enter (distributeFields.body typeName cloudName) r).1.proc.self = r.proc.self
      ∧ (Run.enter (distributeFields.body typeName cloudName) r).1.proc.objects
          = r.proc.objects
      ∧ (Run.enter (distributeFields.body typeName cloudName) r).1.proc.selectedFields
          = r.proc.selectedFields
      ∧ (Run.enter (distributeFields.body typeName cloudName) r).1.proc.files = r.proc.files
      ∧ (Run.enter (distributeFields.body typeName cloudName) r).1.work = X :: xs := by
  unfold Run.enter
  rw [hw]
  simp only [distributeFields.body, Proc.print, srcObject]
  split <;> exact ⟨rfl, rfl, rfl, rfl, rfl, hw⟩

theorem distributeFields.leave_eq {α : Type} (typeName cloudName : word) (r : Run word α)
    (X : word) (xs : List word) (hw : r.work = X :: xs) (s f : List α) :
    (Run.leave (distributeFields.body typeName cloudName)
        (Run.enter (distributeFields.body typeName cloudName) r).1 s f).work = xs
      ∧ (Run.leave (distributeFields.body typeName cloudName)
        (Run.enter (distributeFields.body typeName cloudName) r).1 s f).proc.self = r.proc.self
      ∧ (Run.leave (distributeFields.body typeName cloudName)
        (Run.enter (distributeFields.body typeName cloudName) r).1 s f).proc.objects
          = r.proc.objects
      ∧ (Run.leave (distributeFields.body typeName cloudName)
        (Run.enter (distributeFields.body typeName cloudName) r).1 s f).proc.selectedFields
          = r.proc.selectedFields
      ∧ (Run.leave (distributeFields.body typeName cloudName)
        (Run.enter (distributeFields.body typeName cloudName) r).1 s f).proc.files
          = persist (tgtPath cloudName r.proc X) f r.proc.files := by
  obtain ⟨_, hs, ho, hsel, hf, hwk⟩ := distributeFields.enter_eq typeName cloudName r X xs hw
  unfold Run.leave
  rw [hwk]
  refine ⟨rfl, hs, ho, hsel, ?_⟩
  show persistOrRemove _ f _ = _
  rw [persistOrRemove_eq_persist, hf]
  simp only [tgtPath, tgtObject, hs]

theorem takeWhile_congr_mem {β : Type} (p q : β → Bool) (l : List β)
    (h : ∀ x ∈ l, p x = q x) : l.takeWhile p = l.takeWhile q := by
  induction l with
  | nil => rfl
  | cons a l ih =>
    rw [List.takeWhile_cons, List.takeWhile_cons, h a (List.mem_cons_self _ _),
      ih (fun x hx => h x (List.mem_cons_of_mem _ hx))]

/-- The source object of a name that is still to be processed is not touched
by the iteration for another name. -/
theorem distributeFields.sent_after_round {α : Type} (typeName cloudName : word)
    (rs : List (Run word α)) (X : word) (xs : List word) (hw : ∀ r ∈ rs, r.work = X :: xs)
    (out : Nat → List α) (Y : word) (hY : Y ≠ X) :
    distributeFields.sent cloudName Y
        (((rs.map (Run.enter (distributeFields.body typeName cloudName))).mapIdx
          (fun rank e => Run.leave (distributeFields.body typeName cloudName) e.1 e.2
            (out rank))).map Run.proc)
      = distributeFields.sent cloudName Y (rs.map Run.proc) := by
  unfold distributeFields.sent
  apply List.ext_getElem?
  intro i
  simp only [List.getElem?_map, List.getElem?_mapIdx]
  cases hri : rs[i]? with
  | none => rfl
  | some r =>
    have hr : r ∈ rs := List.mem_iff_getElem?.2 ⟨i, hri⟩
    obtain ⟨_, hs, _, _, hf⟩ :=
      distributeFields.leave_eq typeName cloudName r X xs (hw r hr)
        (Run.enter (distributeFields.body typeName cloudName) r).2 (out i)
    simp only [Option.map_some', Option.some.injEq]
    unfold readIfPresent
    have hsrc : ∀ p p' : Proc α, p'.self = p.self →
        srcObject p' cloudName Y = srcObject p cloudName Y := by
      intro p p' h
      simp only [srcObject, h]
    rw [hsrc _ _ hs, hf]
    unfold persist
    rw [Function.update_noteq]
    intro heq
    simp only [srcObject, tgtPath, tgtObject, IOobject.objectPath, fileName.mk.injEq] at heq
    exact hY heq.2.2.2

/-- What the loop of `distributeFields` does when every process holds the same
duplicate-free work list: it processes the names up to the first failure of the
map, and the files of a process are those obtained by persisting-or-removing,
for each processed name, the field the map returns from the source objects. -/
theorem distributeFields_lockstep {α : Type} (map : mapDistributeBase α)
    (typeName cloudName : word) (names : List word) :
    ∀ (rs : List (Run word α)) (fuel : Nat), names.Nodup → rs ≠ [] →
      (∀ r ∈ rs, r.work = names) → names.length ≤ fuel →
      (lockstep (distributeFields.body typeName cloudName) map fuel rs).1
          = (if distributeFields.processed map cloudName (rs.map Run.proc) names = names
              then passStatus.completed else passStatus.mapFailed)
        ∧ ∀ (i : Nat) (r : Run word α), rs[i]? = some r →
            ∃ r', (lockstep (distributeFields.body typeName cloudName) map fuel rs).2[i]?
                = some r'
              ∧ r'.proc.self = r.proc.self ∧ r'.proc.objects = r.proc.objects
              ∧ r'.proc.selectedFields = r.proc.selectedFields
              ∧ r'.proc.files
                  = (distributeFields.processed map cloudName (rs.map Run.proc) names).foldl
                      (fun fs X => persist (tgtPath cloudName r.proc X)
                        (distributeFields.received map cloudName (rs.map Run.proc) i X) fs)
                      r.proc.files := by
  induction names with
  | nil =>
    intro rs fuel _ _ hw _
    rw [lockstep_done _ _ _ _ hw]
    refine ⟨by simp [distributeFields.processed], fun i r hr => ⟨r, hr, rfl, rfl, rfl, ?_⟩⟩
    simp [distributeFields.processed]
  | cons X xs ih =>
    intro rs fuel hnd hne hw hfuel
    obtain ⟨m, rfl⟩ : ∃ m, fuel = m + 1 := ⟨fuel - 1, by simp at hfuel; omega⟩
    have hXxs : X ∉ xs := (List.nodup_cons.1 hnd).1
    have hsent : (rs.map (Run.enter (distributeFields.body typeName cloudName))).map Prod.snd
        = distributeFields.sent cloudName X (rs.map Run.proc) := by
      unfold distributeFields.sent
      rw [List.map_map, List.map_map]
      apply List.map_congr_left
      intro r hr
      exact (distributeFields.enter_eq typeName cloudName r X xs (hw r hr)).1
    rw [lockstep_round _ _ _ _ hne (fun r hr => by rw [hw r hr]; exact List.cons_ne_nil _ _),
      hsent]
    cases hout : map.distribute (distributeFields.sent cloudName X (rs.map Run.proc)) with
    | none =>
      have hproc : distributeFields.processed map cloudName (rs.map Run.proc) (X :: xs)
          = [] := by
        unfold distributeFields.processed
        rw [List.takeWhile_cons, hout]
        rfl
      rw [hproc]
      refine ⟨by simp, fun i r hr => ?_⟩
      obtain ⟨_, hs, ho, hsel, hf, _⟩ :=
        distributeFields.enter_eq typeName cloudName r X xs
          (hw r (List.mem_iff_getElem?.2 ⟨i, hr⟩))
      exact ⟨_, by simp [List.getElem?_map, hr], hs, ho, hsel, hf⟩
    | some out =>
      have hw1 : ∀ r1 ∈ (rs.map (Run.enter (distributeFields.body typeName cloudName))).mapIdx
          (fun rank e => Run.leave (distributeFields.body typeName cloudName) e.1 e.2
            (out rank)), r1.work = xs := by
        intro r1 hr1
        obtain ⟨i, hi⟩ := List.mem_iff_getElem?.1 hr1
        rw [List.getElem?_mapIdx, List.getElem?_map] at hi
        cases hri : rs[i]? with
        | none => rw [hri] at hi; cases hi
        | some r =>
          rw [hri] at hi
          simp only [Option.map_some', Option.some.injEq] at hi
          rw [← hi]
          exact (distributeFields.leave_eq typeName cloudName r X xs
            (hw r (List.mem_iff_getElem?.2 ⟨i, hri⟩)) _ _).1
      have hne1 : (rs.map (Run.enter (distributeFields.body typeName cloudName))).mapIdx
          (fun rank e => Run.leave (distributeFields.body typeName cloudName) e.1 e.2
            (out rank)) ≠ [] := by
        intro h
        apply hne
        have := congrArg List.length h
        simpa using this
      obtain ⟨hst, hfiles⟩ := ih _ m (List.nodup_cons.1 hnd).2 hne1 hw1
        (by simp at hfuel; omega)
      have hsame : ∀ Y ∈ xs, distributeFields.sent cloudName Y
          (((rs.map (Run.enter (distributeFields.body typeName cloudName))).mapIdx
            (fun rank e => Run.leave (distributeFields.body typeName cloudName) e.1 e.2
              (out rank))).map Run.proc)
          = distributeFields.sent cloudName Y (rs.map Run.proc) := by
        intro Y hY
        exact distributeFields.sent_after_round typeName cloudName rs X xs hw out Y
          (fun h => hXxs (h ▸ hY))
      have hproc1 : distributeFields.processed map cloudName
          (((rs.map (Run.enter (distributeFields.body typeName cloudName))).mapIdx
            (fun rank e => Run.leave (distributeFields.body typeName cloudName) e.1 e.2
              (out rank))).map Run.proc) xs
          = distributeFields.processed map cloudName (rs.map Run.proc) xs := by
        unfold distributeFields.processed
        apply takeWhile_congr_mem
        intro Y hY
        rw [hsame Y hY]
      have hproc : distributeFields.processed map cloudName (rs.map Run.proc) (X :: xs)
          = X :: distributeFields.processed map cloudName (rs.map Run.proc) xs := by
        unfold distributeFields.processed
        rw [List.takeWhile_cons, hout]
        rfl
      rw [hproc1] at hst hfiles
      rw [hproc]
      refine ⟨by rw [hst]; simp, fun i r hr => ?_⟩
      have hrmem : r ∈ rs := List.mem_iff_getElem?.2 ⟨i, hr⟩
      obtain ⟨_, hs, ho, hsel, hf⟩ :=
        distributeFields.leave_eq typeName cloudName r X xs (hw r hrmem)
          (Run.enter (distributeFields.body typeName cloudName) r).2 (out i)
      obtain ⟨r', hr', hs', ho', hsel', hf'⟩ := hfiles i
        (Run.leave (distributeFields.body typeName cloudName)
          (Run.enter (distributeFields.body typeName cloudName) r).1
          (Run.enter (distributeFields.body typeName cloudName) r).2 (out i))
        (by simp [List.getElem?_mapIdx, List.getElem?_map, hr])
      refine ⟨r', hr', hs'.trans hs, ho'.trans ho, hsel'.trans hsel, ?_⟩
      rw [hf', hf, List.foldl_cons]
      have hrecvX : distributeFields.received map cloudName (rs.map Run.proc) i X = out i := by
        unfold distributeFields.received
        rw [hout]
      rw [hrecvX]
      apply List.foldl_ext
      intro fs Y hY
      have hYxs : Y ∈ xs := (List.takeWhile_sublist _).subset hY
      have htgt : tgtPath cloudName (Run.leave (distributeFields.body typeName cloudName)
            (Run.enter (distributeFields.body typeName cloudName) r).1
            (Run.enter (distributeFields.body typeName cloudName) r).2 (out i)).proc Y
          = tgtPath cloudName r.proc Y := by
        simp only [tgtPath, tgtObject, hs]
      rw [htgt]
      unfold distributeFields.received
      rw [hsame Y hYxs]

theorem filterObjects.nodup_reconciled (typeName : word)
    (group : List (IOobjectList × wordRes)) :
    (filterObjects.reconciled typeName group).Nodup :=
  (filterObjects.sorted_reconciled typeName group).nodup

/-- Persisting-or-removing the fields of a list of names leaves alone every
location that is not the destination of one of them. -/
theorem foldl_persist_frame {α : Type} (dest : word → fileName) (v : word → List α)
    (l : List word) (files : fileSystem α) (q : fileName) (h : ∀ Y ∈ l, dest Y ≠ q) :
    l.foldl (fun fs Y => persist (dest Y) (v Y) fs) files q = files q := by
  induction l generalizing files with
  | nil => rfl
  | cons Y l ih =>
    rw [List.foldl_cons, ih _ (fun Z hZ => h Z (List.mem_cons_of_mem _ hZ))]
    unfold persist
    exact Function.update_noteq (fun hq => h Y (List.mem_cons_self _ _) hq.symm) _ _

/-- Persisting-or-removing the fields of a list of names leaves, at the
destination of each of them, its field if that one has entities and nothing
otherwise. -/
theorem foldl_persist_at {α : Type} (dest : word → fileName) (hdest : Function.Injective dest)
    (v : word → List α) (l : List word) (files : fileSystem α) (X : word) (hX : X ∈ l) :
    l.foldl (fun fs Y => persist (dest Y) (v Y) fs) files (dest X)
      = if (v X).length ≠ 0 then some (v X) else none := by
  induction l generalizing files with
  | nil => simp at hX
  | cons Y l ih =>
    rw [List.foldl_cons]
    by_cases hin : X ∈ l
    · exact ih _ hin
    · have hYX : Y = X := by
        rcases List.mem_cons.1 hX with h | h
        · exact h.symm
        · exact absurd h hin
      rw [foldl_persist_frame _ _ _ _ _
        (fun Z hZ heq => hin (by rw [← hdest heq]; exact hZ))]
      unfold persist
      rw [hYX, Function.update_same]

theorem map_proc_start {α : Type} (names : List word) (procs : List (Proc α)) :
    (procs.map (fun p => (⟨p, names, 0⟩ : Run word α))).map Run.proc = procs := by
  induction procs with
  | nil => rfl
  | cons p procs ih => simp only [List.map_cons, ih]

/-- The whole of `distributeFields`, for the group: how the pass ends and what
it leaves on the disk of every process. -/
theorem distributeFields_spec {α : Type} (map : mapDistributeBase α)
    (typeName cloudName : word) (procs : List (Proc α)) :
    (distributeFields map typeName cloudName procs).status
        = (if distributeFields.processed map cloudName procs
              (filterObjects.reconciled typeName (groupOf procs))
            = filterObjects.reconciled typeName (groupOf procs)
          then passStatus.completed else passStatus.mapFailed)
      ∧ (distributeFields map typeName cloudName procs).procs.length = procs.length
      ∧ ∀ (i : Nat) (p : Proc α), procs[i]? = some p →
          ∃ p', (distributeFields map typeName cloudName procs).procs[i]? = some p'
            ∧ p'.self = p.self ∧ p'.objects = p.objects
            ∧ p'.selectedFields = p.selectedFields
            ∧ p'.files
                = (distributeFields.processed map cloudName procs
                    (filterObjects.reconciled typeName (groupOf procs))).foldl
                    (fun fs X => persist (tgtPath cloudName p X)
                      (distributeFields.received map cloudName procs i X) fs)
                    p.files := by
  have hlen : (distributeFields map typeName cloudName procs).procs.length = procs.length := by
    unfold distributeFields
    simp only [distributeFields_runs]
    rw [List.length_map,
      (lockstep_advanced (distributeFields_body_persists typeName cloudName) map _ _).1,
      List.length_map]
  cases procs with
  | nil => exact ⟨rfl, rfl, fun i p hp => by simp at hp⟩
  | cons p0 procs =>
    have h := distributeFields_lockstep map typeName cloudName
      (filterObjects.reconciled typeName (groupOf (p0 :: procs)))
      ((p0 :: procs).map (fun p =>
        (⟨p, filterObjects.reconciled typeName (groupOf (p0 :: procs)), 0⟩ : Run word α)))
      (filterObjects.reconciled typeName (groupOf (p0 :: procs))).length
      (filterObjects.nodup_reconciled _ _) (by simp)
      (by intro r hr; obtain ⟨p, _, rfl⟩ := List.mem_map.1 hr; rfl) le_rfl
    rw [map_proc_start] at h
    have hrounds : roundsOf ((p0 :: procs).map (fun p =>
        (⟨p, filterObjects.reconciled typeName (groupOf (p0 :: procs)), 0⟩ : Run word α)))
        = (filterObjects.reconciled typeName (groupOf (p0 :: procs))).length := rfl
    refine ⟨?_, hlen, ?_⟩
    · unfold distributeFields
      simp only [distributeFields_runs]
      rw [hrounds]
      exact h.1
    · intro i p hp
      obtain ⟨r', hr', hs, ho, hsel, hf⟩ := h.2 i
        ⟨p, filterObjects.reconciled typeName (groupOf (p0 :: procs)), 0⟩
        (by rw [List.getElem?_map, hp]; rfl)
      refine ⟨r'.proc, ?_, hs, ho, hsel, hf⟩
      unfold distributeFields
      simp only [distributeFields_runs]
      rw [List.getElem?_map, hrounds, hr']
      rfl

theorem distributeFields_completed_iff {α : Type} (map : mapDistributeBase α)
    (typeName cloudName : word) (procs : List (Proc α)) :
    (distributeFields map typeName cloudName procs).status = passStatus.completed
      ↔ distributeFields.processed map cloudName procs
            (filterObjects.reconciled typeName (groupOf procs))
          = filterObjects.reconciled typeName (groupOf procs) := by
  rw [(distributeFields_spec map typeName cloudName procs).1]
  split <;> simp [*]

/-- C6 as amended: the work list of `distributeFieldFields` is, on every rank,
the reconciled list of the compact kind followed by the reconciled list of the
`IOField<Field<Type>>` kind; neither part holds a name twice, a name occurs in
the work list once for each of the two kinds under which some process reports
it, and a pass that completes has made one call of the map per entry of the
list, in list order. -/
theorem distributeFieldFields_workList {α : Type} (map : mapDistributeBase α)
    (typeName fieldFieldTypeName cloudName : word) (procs : List (Proc α)) :
    distributeFieldFields.fieldNames typeName fieldFieldTypeName procs
        = List.replicate procs.length
            (filterObjects.reconciled typeName (groupOf procs)
              ++ filterObjects.reconciled fieldFieldTypeName (groupOf procs))
      ∧ (filterObjects.reconciled typeName (groupOf procs)).Nodup
      ∧ (filterObjects.reconciled fieldFieldTypeName (groupOf procs)).Nodup
      ∧ (∀ X : word,
          (filterObjects.reconciled typeName (groupOf procs)
              ++ filterObjects.reconciled fieldFieldTypeName (groupOf procs)).count X
            = (if ∃ a ∈ groupOf procs, X ∈ filterObjects.localNames typeName a.1 a.2
                then 1 else 0)
              + (if ∃ a ∈ groupOf procs,
                    X ∈ filterObjects.localNames fieldFieldTypeName a.1 a.2
                then 1 else 0))
      ∧ ∀ (i : Nat) (p : Proc α), procs[i]? = some p →
          ∃ p', (distributeFieldFields map typeName fieldFieldTypeName cloudName
                  procs).procs[i]? = some p'
            ∧ ((distributeFieldFields map typeName fieldFieldTypeName cloudName procs).status
                  = passStatus.completed →
                (p'.calls.drop p.calls.length).map distributeCall.objectName
                  = filterObjects.reconciled typeName (groupOf procs)
                      ++ filterObjects.reconciled fieldFieldTypeName (groupOf procs)) := by
  refine ⟨distributeFieldFields_fieldNames typeName fieldFieldTypeName procs,
    filterObjects.nodup_reconciled _ _, filterObjects.nodup_reconciled _ _, ?_, ?_⟩
  · intro X
    have hcount : ∀ tn : word,
        (filterObjects.reconciled tn (groupOf procs)).count X
          = if ∃ a ∈ groupOf procs, X ∈ filterObjects.localNames tn a.1 a.2
            then 1 else 0 := by
      intro tn
      by_cases h : X ∈ filterObjects.reconciled tn (groupOf procs)
      · rw [List.count_eq_one_of_mem (filterObjects.nodup_reconciled _ _) h,
          if_pos ((filterObjects.mem_reconciled _ _ _).1 h)]
      · rw [List.count_eq_zero_of_not_mem h,
          if_neg (fun h' => h ((filterObjects.mem_reconciled _ _ _).2 h'))]
    rw [List.count_append, hcount, hcount]
  · intro i p hp
    obtain ⟨p', hp', htrig⟩ :=
      distributeFieldFields_triggers map typeName fieldFieldTypeName cloudName procs i p hp
    exact ⟨p', hp', htrig.2.1⟩

/-- Witness of the amended C6 on the two processes that report `X` under the
two kinds. -/
theorem distributeFieldFields_workList_witness :
    [synonym.proc0, synonym.proc1][0]? = some synonym.proc0
      ∧ ∃ p', (distributeFieldFields scenario.keep "scalarFieldCompactField"
                "scalarFieldField" "cloud1" [synonym.proc0, synonym.proc1]).procs[0]?
                  = some p'
          ∧ ((distributeFieldFields scenario.keep "scalarFieldCompactField"
                "scalarFieldField" "cloud1" [synonym.proc0, synonym.proc1]).status
                  = passStatus.completed →
              (p'.calls.drop synonym.proc0.calls.length).map distributeCall.objectName
                = filterObjects.reconciled "scalarFieldCompactField"
                      (groupOf [synonym.proc0, synonym.proc1])
                    ++ filterObjects.reconciled "scalarFieldField"
                      (groupOf [synonym.proc0, synonym.proc1])) :=
  ⟨rfl, (distributeFieldFields_workList scenario.keep "scalarFieldCompactField"
    "scalarFieldField" "cloud1" [synonym.proc0, synonym.proc1]).2.2.2.2 0 synonym.proc0 rfl⟩

theorem distributeFields.processed_nodup {α : Type} (map : mapDistributeBase α)
    (cloudName : word) (procs : List (Proc α)) (names : List word) (h : names.Nodup) :
    (distributeFields.processed map cloudName procs names).Nodup :=
  h.sublist (List.takeWhile_sublist _)

/-- C8 (a non-empty result is written): when the map fails on no name of the
reconciled list, `distributeFields` completes, and for every name of the list
and every process whose field has entities after `map.distribute`, the
destination object of the name holds exactly that field afterwards, whatever
it held before. -/
theorem distributeFields_writes {α : Type} (map : mapDistributeBase α)
    (typeName cloudName : word) (procs : List (Proc α))
    (hmap : ∀ X ∈ filterObjects.reconciled typeName (groupOf procs),
      (map.distribute (distributeFields.sent cloudName X procs)).isSome = true) :
    (distributeFields map typeName cloudName procs).status = passStatus.completed
      ∧ ∀ X ∈ filterObjects.reconciled typeName (groupOf procs),
          ∀ (i : Nat) (p : Proc α), procs[i]? = some p →
            (distributeFields.received map cloudName procs i X).length ≠ 0 →
            ∃ p', (distributeFields map typeName cloudName procs).procs[i]? = some p'
              ∧ p'.files (tgtPath cloudName p X)
                  = some (distributeFields.received map cloudName procs i X) := by
  have hproc : distributeFields.processed map cloudName procs
      (filterObjects.reconciled typeName (groupOf procs))
      = filterObjects.reconciled typeName (groupOf procs) := by
    unfold distributeFields.processed
    rw [List.takeWhile_eq_self_iff]
    exact hmap
  refine ⟨(distributeFields_completed_iff map typeName cloudName procs).2 hproc, ?_⟩
  intro X hX i p hp hlen
  obtain ⟨p', hp', _, _, _, hf⟩ := (distributeFields_spec map typeName cloudName procs).2.2 i p hp
  refine ⟨p', hp', ?_⟩
  rw [hf, hproc, foldl_persist_at _ (tgtPath_injective cloudName p) _ _ _ X hX, if_pos hlen]

/-- Witness of C8, the end-to-end scenario: two processes, `T` with three
entities on process 0 only, the map moves two of them to process 1; afterwards
process 0 holds a `T` of one entity and process 1 a `T` of two, in place of its
stale object. -/
theorem distributeFields_writes_witness :
    (∀ X ∈ filterObjects.reconciled "scalarField" (groupOf [scenario.proc0, scenario.proc1]),
        (scenario.map.distribute
          (distributeFields.sent "cloud1" X [scenario.proc0, scenario.proc1])).isSome = true)
      ∧ ((distributeFields scenario.map "scalarField" "cloud1"
            [scenario.proc0, scenario.proc1]).status = passStatus.completed
        ∧ ∀ X ∈ filterObjects.reconciled "scalarField"
              (groupOf [scenario.proc0, scenario.proc1]),
            ∀ (i : Nat) (p : Proc Nat), [scenario.proc0, scenario.proc1][i]? = some p →
              (distributeFields.received scenario.map "cloud1"
                [scenario.proc0, scenario.proc1] i X).length ≠ 0 →
              ∃ p', (distributeFields scenario.map "scalarField" "cloud1"
                      [scenario.proc0, scenario.proc1]).procs[i]? = some p'
                ∧ p'.files (tgtPath "cloud1" p X)
                    = some (distributeFields.received scenario.map "cloud1"
                        [scenario.proc0, scenario.proc1] i X))
      ∧ filterObjects "scalarField" (groupOf [scenario.proc0, scenario.proc1])
          = [["T"], ["T"]]
      ∧ [scenario.proc0, scenario.proc1].map (fun p => p.files (tgtPath "cloud1" p "T"))
          = [none, some [99]]
      ∧ (distributeFields scenario.map "scalarField" "cloud1"
          [scenario.proc0, scenario.proc1]).procs.map
            (fun p => p.files (tgtPath "cloud1" p "T"))
          = [some [10], some [20, 30]] :=
  ⟨by decide, distributeFields_writes scenario.map "scalarField" "cloud1"
    [scenario.proc0, scenario.proc1] (by decide), by decide, by decide, by decide⟩

/-- C9 as stated fails: the destination of the process holds an object `old`
left by an earlier pass; `old` is not in the work list, for which the pass
produces the single non-empty field `T`, and after the completed pass the
destination still holds `old` next to `T`. -/
theorem distributeFields_keeps_stale_object :
    filterObjects "scalarField" (groupOf [stale.proc]) = [["T"]]
      ∧ (distributeFields scenario.keep "scalarField" "cloud1" [stale.proc]).status
          = passStatus.completed
      ∧ (distributeFields scenario.keep "scalarField" "cloud1" [stale.proc]).procs.map
          (fun p => (p.calls.map distributeCall.objectName,
            p.files (tgtPath "cloud1" p "T"), p.files (tgtPath "cloud1" p "old")))
          = [(["T"], some [1], some [5])] := by
  decide

/-- C9 as amended: after a completed pass of `distributeFields`, on every
process the destination object of each name of the work list is present
exactly when the pass produced a field with entities for it, and then holds
that field, whatever an earlier pass left there; every location that is not
the destination of a name of the work list is left as it was. -/
theorem distributeFields_no_stale_in_workList {α : Type} (map : mapDistributeBase α)
    (typeName cloudName : word) (procs : List (Proc α))
    (hdone : (distributeFields map typeName cloudName procs).status = passStatus.completed)
    (i : Nat) (p : Proc α) (hp : procs[i]? = some p) :
    ∃ p', (distributeFields map typeName cloudName procs).procs[i]? = some p'
      ∧ (∀ X ∈ filterObjects.reconciled typeName (groupOf procs),
          p'.files (tgtPath cloudName p X)
            = if (distributeFields.received map cloudName procs i X).length ≠ 0
              then some (distributeFields.received map cloudName procs i X) else none)
      ∧ ∀ q : fileName,
          (∀ X ∈ filterObjects.reconciled typeName (groupOf procs),
            tgtPath cloudName p X ≠ q) →
          p'.files q = p.files q := by
  have hproc := (distributeFields_completed_iff map typeName cloudName procs).1 hdone
  obtain ⟨p', hp', _, _, _, hf⟩ := (distributeFields_spec map typeName cloudName procs).2.2 i p hp
  rw [hproc] at hf
  refine ⟨p', hp', fun X hX => ?_, fun q hq => ?_⟩
  · rw [hf, foldl_persist_at _ (tgtPath_injective cloudName p) _ _ _ X hX]
  · rw [hf, foldl_persist_frame _ _ _ _ q hq]

/-- Witness of the amended C9 on the process that holds the stale object. -/
theorem distributeFields_no_stale_in_workList_witness :
    ((distributeFields scenario.keep "scalarField" "cloud1" [stale.proc]).status
        = passStatus.completed ∧ [stale.proc][0]? = some stale.proc)
      ∧ ∃ p', (distributeFields scenario.keep "scalarField" "cloud1" [stale.proc]).procs[0]?
          = some p'
        ∧ (∀ X ∈ filterObjects.reconciled "scalarField" (groupOf [stale.proc]),
            p'.files (tgtPath "cloud1" stale.proc X)
              = if (distributeFields.received scenario.keep "cloud1" [stale.proc] 0 X).length
                    ≠ 0
                then some (distributeFields.received scenario.keep "cloud1" [stale.proc] 0 X)
                else none)
        ∧ ∀ q : fileName,
            (∀ X ∈ filterObjects.reconciled "scalarField" (groupOf [stale.proc]),
              tgtPath "cloud1" stale.proc X ≠ q) →
            p'.files q = stale.proc.files q :=
  ⟨⟨by decide, rfl⟩, distributeFields_no_stale_in_workList scenario.keep "scalarField" "cloud1"
    [stale.proc] (by decide) 0 stale.proc rfl⟩

theorem srcObject_ne_tgtPath {α : Type} (cloudName : word) (p p' : Proc α)
    (hself : p'.self = p.self) (hne : p.self.srcMesh_ ≠ p.self.tgtMesh_) (X Y : word) :
    tgtPath cloudName p Y ≠ (srcObject p' cloudName X).objectPath := by
  intro h
  simp only [tgtPath, tgtObject, srcObject, IOobject.objectPath, fileName.mk.injEq, hself] at h
  apply hne
  cases hs : p.self.srcMesh_
  cases ht : p.self.tgtMesh_
  rw [hs, ht] at h
  simp only at h
  rw [h.1, h.2.1]

/-- C10 (idempotent rerun): when on every process the source and the
destination locations differ, running `distributeFields` a second time, on the
state the first pass left, ends the same way and leaves on every process the
same files as the first pass; the second pass hands the same source fields to
the map as the first. -/
theorem distributeFields_idempotent {α : Type} (map : mapDistributeBase α)
    (typeName cloudName : word) (procs : List (Proc α))
    (hdistinct : ∀ p ∈ procs, p.self.srcMesh_ ≠ p.self.tgtMesh_) :
    (distributeFields map typeName cloudName
        (distributeFields map typeName cloudName procs).procs).status
        = (distributeFields map typeName cloudName procs).status
      ∧ (distributeFields map typeName cloudName
          (distributeFields map typeName cloudName procs).procs).procs.map Proc.files
        = (distributeFields map typeName cloudName procs).procs.map Proc.files
      ∧ filterObjects typeName (groupOf (distributeFields map typeName cloudName procs).procs)
        = filterObjects typeName (groupOf procs)
      ∧ ∀ X : word,
          distributeFields.sent cloudName X (distributeFields map typeName cloudName procs).procs
            = distributeFields.sent cloudName X procs := by
  obtain ⟨hst1, hlen1, hrel1⟩ := distributeFields_spec map typeName cloudName procs
  obtain ⟨hst2, hlen2, hrel2⟩ := distributeFields_spec map typeName cloudName
    (distributeFields map typeName cloudName procs).procs
  have hnone : ∀ i : Nat, procs[i]? = none →
      (distributeFields map typeName cloudName procs).procs[i]? = none := by
    intro i hi
    rw [List.getElem?_eq_none_iff] at hi ⊢
    omega
  have hgroup : groupOf (distributeFields map typeName cloudName procs).procs
      = groupOf procs := by
    unfold groupOf
    apply List.ext_getElem?
    intro i
    rw [List.getElem?_map, List.getElem?_map]
    cases hi : procs[i]? with
    | none => rw [hnone i hi]
    | some p =>
      obtain ⟨p', hp', _, ho, hsel, _⟩ := hrel1 i p hi
      rw [hp']
      simp only [Option.map_some', ho, hsel]
  have hsent : ∀ X : word,
      distributeFields.sent cloudName X (distributeFields map typeName cloudName procs).procs
        = distributeFields.sent cloudName X procs := by
    intro X
    unfold distributeFields.sent
    apply List.ext_getElem?
    intro i
    rw [List.getElem?_map, List.getElem?_map]
    cases hi : procs[i]? with
    | none => rw [hnone i hi]
    | some p =>
      obtain ⟨p', hp', hs, _, _, hf⟩ := hrel1 i p hi
      rw [hp']
      simp only [Option.map_some', Option.some.injEq]
      unfold readIfPresent
      rw [hf, foldl_persist_frame _ _ _ _ _ (fun Y _ =>
        srcObject_ne_tgtPath cloudName p p' hs
          (hdistinct p (List.mem_iff_getElem?.2 ⟨i, hi⟩)) X Y)]
      have hsrc : srcObject p' cloudName X = srcObject p cloudName X := by
        simp only [srcObject, hs]
      rw [hsrc]
  have hprocessed : ∀ names : List word,
      distributeFields.processed map cloudName
          (distributeFields map typeName cloudName procs).procs names
        = distributeFields.processed map cloudName procs names := by
    intro names
    unfold distributeFields.processed
    simp only [hsent]
  have hreceived : ∀ (i : Nat) (X : word),
      distributeFields.received map cloudName
          (distributeFields map typeName cloudName procs).procs i X
        = distributeFields.received map cloudName procs i X := by
    intro i X
    unfold distributeFields.received
    rw [hsent]
  rw [hgroup, hprocessed] at hst2
  refine ⟨hst2.trans hst1.symm, ?_, by rw [hgroup], hsent⟩
  apply List.ext_getElem?
  intro i
  rw [List.getElem?_map, List.getElem?_map]
  cases hi : procs[i]? with
  | none =>
    have h1 := hnone i hi
    have h2 : (distributeFields map typeName cloudName
        (distributeFields map typeName cloudName procs).procs).procs[i]? = none := by
      rw [List.getElem?_eq_none_iff] at h1 ⊢
      omega
    rw [h1, h2]
  | some p =>
    obtain ⟨p', hp', hs, _, _, hf⟩ := hrel1 i p hi
    obtain ⟨p'', hp'', _, _, _, hf'⟩ := hrel2 i p' hp'
    rw [hp', hp'']
    simp only [Option.map_some', Option.some.injEq]
    rw [hgroup, hprocessed] at hf'
    have htgt : tgtPath cloudName p' = tgtPath cloudName p := by
      funext X
      simp only [tgtPath, tgtObject, hs]
    rw [hf', htgt]
    simp only [hreceived]
    funext q
    by_cases hq : ∃ X ∈ distributeFields.processed map cloudName procs
        (filterObjects.reconciled typeName (groupOf procs)), tgtPath cloudName p X = q
    · obtain ⟨X, hX, rfl⟩ := hq
      rw [foldl_persist_at _ (tgtPath_injective cloudName p) _ _ _ X hX, hf,
        foldl_persist_at _ (tgtPath_injective cloudName p) _ _ _ X hX]
    · rw [foldl_persist_frame _ _ _ _ q (fun X hX heq => hq ⟨X, hX, heq⟩)]

/-- Witness of C10 on the scenario, where source and destination differ on both
processes. -/
theorem distributeFields_idempotent_witness :
    (∀ p ∈ [scenario.proc0, scenario.proc1], p.self.srcMesh_ ≠ p.self.tgtMesh_)
      ∧ ((distributeFields scenario.map "scalarField" "cloud1"
            (distributeFields scenario.map "scalarField" "cloud1"
              [scenario.proc0, scenario.proc1]).procs).status
            = (distributeFields scenario.map "scalarField" "cloud1"
                [scenario.proc0, scenario.proc1]).status
        ∧ (distributeFields scenario.map "scalarField" "cloud1"
            (distributeFields scenario.map "scalarField" "cloud1"
              [scenario.proc0, scenario.proc1]).procs).procs.map Proc.files
            = (distributeFields scenario.map "scalarField" "cloud1"
                [scenario.proc0, scenario.proc1]).procs.map Proc.files
        ∧ filterObjects "scalarField"
            (groupOf (distributeFields scenario.map "scalarField" "cloud1"
              [scenario.proc0, scenario.proc1]).procs)
            = filterObjects "scalarField" (groupOf [scenario.proc0, scenario.proc1])
        ∧ ∀ X : word,
            distributeFields.sent "cloud1" X
                (distributeFields scenario.map "scalarField" "cloud1"
                  [scenario.proc0, scenario.proc1]).procs
              = distributeFields.sent "cloud1" X [scenario.proc0, scenario.proc1])
      ∧ (distributeFields scenario.map "scalarField" "cloud1"
          (distributeFields scenario.map "scalarField" "cloud1"
            [scenario.proc0, scenario.proc1]).procs).procs.map
            (fun p => p.files (tgtPath "cloud1" p "T"))
          = [some [10], some [20, 30]] :=
  ⟨by decide, distributeFields_idempotent scenario.map "scalarField" "cloud1"
    [scenario.proc0, scenario.proc1] (by decide), by decide⟩

/-! ## One process through its iterations: lemmas -/

theorem Run.iterate_work {ι α : Type} (body : loopBody ι α)
    (henter : ∀ x r, (body.toCollective x r).1.work = r.work) (r : Run ι α)
    (received : List α) : (Run.iterate body r received).work = r.work.tail := by
  unfold Run.iterate Run.leave Run.enter
  cases hw : r.work with
  | nil => simp [hw]
  | cons x rest => simp [henter, hw]

theorem lockstep_stopped {ι α : Type} (body : loopBody ι α) (rs : List (Run ι α))
    (st : passStatus) (hst : st ≠ passStatus.mapFailed)
    (hdone : st = passStatus.completed → ∀ r ∈ rs, r.work = []) :
    ∃ k : Nat, ∀ (i : Nat) (r : Run ι α), rs[i]? = some r →
      ∃ (received : List (List α)) (r' : Run ι α),
        (st, rs).2[i]? = some r' ∧ received.length = k ∧ k ≤ r.work.length
          ∧ ((st, rs).1 = passStatus.completed → k = r.work.length)
          ∧ ((st, rs).1 = passStatus.mapFailed → k < r.work.length)
          ∧ r' = (if (st, rs).1 = passStatus.mapFailed
                  then (Run.enter body (Run.after body r received)).1
                  else Run.after body r received) := by
  refine ⟨0, fun i r hr => ⟨[], r, hr, rfl, Nat.zero_le _, ?_, fun h => absurd h hst, ?_⟩⟩
  · intro h
    rw [hdone h r (List.mem_iff_getElem?.2 ⟨i, hr⟩)]
    rfl
  · rw [if_neg hst]
    rfl

theorem lockstep_blocked {ι α : Type} (body : loopBody ι α) (map : mapDistributeBase α)
    (fuel : Nat) (rs : List (Run ι α)) (hall : ¬ rs.all (fun r => r.work.isEmpty) = true)
    (hany : fuel = 0 ∨ rs.any (fun r => r.work.isEmpty) = true) :
    lockstep body map fuel rs = (passStatus.blocked, rs) := by
  cases fuel with
  | zero => unfold lockstep; rw [if_neg hall]
  | succ n =>
    rcases hany with h | h
    · cases h
    · unfold lockstep; rw [if_neg hall, if_pos h]

/-- What a lock-step execution does to the process of rank `i` is what the
process does on its own, given the fields the collective calls left to it;
every process runs the same number `k` of complete iterations. -/
theorem lockstep_local {ι α : Type} (body : loopBody ι α)
    (henter : ∀ x r, (body.toCollective x r).1.work = r.work) (map : mapDistributeBase α)
    (fuel : Nat) (rs : List (Run ι α)) :
    ∃ k : Nat, ∀ (i : Nat) (r : Run ι α), rs[i]? = some r →
      ∃ (received : List (List α)) (r' : Run ι α),
        (lockstep body map fuel rs).2[i]? = some r'
          ∧ received.length = k ∧ k ≤ r.work.length
          ∧ ((lockstep body map fuel rs).1 = passStatus.completed → k = r.work.length)
          ∧ ((lockstep body map fuel rs).1 = passStatus.mapFailed → k < r.work.length)
          ∧ r' = (if (lockstep body map fuel rs).1 = passStatus.mapFailed
                  then (Run.enter body (Run.after body r received)).1
                  else Run.after body r received) := by
  induction fuel generalizing rs with
  | zero =>
    by_cases hall : rs.all (fun r => r.work.isEmpty) = true
    · rw [lockstep_done body map 0 rs (fun r hr => by
        simpa using (List.all_eq_true.1 hall) r hr)]
      exact lockstep_stopped body rs _ (by decide) (fun _ r hr => by
        simpa using (List.all_eq_true.1 hall) r hr)
    · rw [lockstep_blocked body map 0 rs hall (Or.inl rfl)]
      exact lockstep_stopped body rs _ (by decide) (fun h => by cases h)
  | succ n ih =>
    by_cases hall : rs.all (fun r => r.work.isEmpty) = true
    · rw [lockstep_done body map _ rs (fun r hr => by
        simpa using (List.all_eq_true.1 hall) r hr)]
      exact lockstep_stopped body rs _ (by decide) (fun _ r hr => by
        simpa using (List.all_eq_true.1 hall) r hr)
    · by_cases hany : rs.any (fun r => r.work.isEmpty) = true
      · rw [lockstep_blocked body map _ rs hall (Or.inr hany)]
        exact lockstep_stopped body rs _ (by decide) (fun h => by cases h)
      · have hne : ∀ r ∈ rs, r.work ≠ [] := by
          intro r hr hw
          apply hany
          rw [List.any_eq_true]
          exact ⟨r, hr, by rw [hw]; rfl⟩
        have hrs : rs ≠ [] := by
          intro h
          apply hall
          rw [h]
          rfl
        rw [lockstep_round body map n rs hrs hne]
        cases hout : map.distribute (List.map Prod.snd (List.map (Run.enter body) rs)) with
        | none =>
          dsimp only
          refine ⟨0, fun i r hr => ⟨[], (Run.enter body r).1, ?_, rfl, Nat.zero_le _,
            (fun h => by cases h), fun _ => ?_, ?_⟩⟩
          · simp [List.getElem?_map, hr]
          · exact List.length_pos.2 (hne r (List.mem_iff_getElem?.2 ⟨i, hr⟩))
          · simp [Run.after]
        | some out =>
          dsimp only
          obtain ⟨k, hk⟩ := ih
            (List.mapIdx (fun rank e => Run.leave body e.1 e.2 (out rank))
              (List.map (Run.enter body) rs))
          refine ⟨k + 1, fun i r hr => ?_⟩
          obtain ⟨received, r', hr', hlen, hle, hdone, hfail, heq⟩ := hk i
            (Run.iterate body r (out i))
            (by simp [List.getElem?_mapIdx, List.getElem?_map, hr, Run.iterate])
          have hwork := Run.iterate_work body henter r (out i)
          have hpos : 0 < r.work.length :=
            List.length_pos.2 (hne r (List.mem_iff_getElem?.2 ⟨i, hr⟩))
          rw [hwork, List.length_tail] at hle hdone hfail
          refine ⟨out i :: received, r', hr', by simp [hlen], by omega,
            (fun h => by have := hdone h; omega), (fun h => by have := hfail h; omega), ?_⟩
          rw [heq]
          rfl

/-- When the map never fails and every process has as many items to visit as
the others, the lock-step execution completes. -/
theorem lockstep_completes {ι α : Type} (body : loopBody ι α)
    (henter : ∀ x r, (body.toCollective x r).1.work = r.work) (map : mapDistributeBase α)
    (hmap : ∀ fields, (map.distribute fields).isSome = true) (n : Nat) :
    ∀ (rs : List (Run ι α)) (fuel : Nat), (∀ r ∈ rs, r.work.length = n) → n ≤ fuel →
      (lockstep body map fuel rs).1 = passStatus.completed := by
  induction n with
  | zero =>
    intro rs fuel hlen _
    rw [lockstep_done body map fuel rs (fun r hr => List.length_eq_zero.1 (hlen r hr))]
  | succ n ih =>
    intro rs fuel hlen hfuel
    obtain ⟨m, rfl⟩ : ∃ m, fuel = m + 1 := ⟨fuel - 1, by omega⟩
    by_cases hrs : rs = []
    · rw [hrs, lockstep_done body map _ [] (fun r hr => by simp at hr)]
    · have hne : ∀ r ∈ rs, r.work ≠ [] := by
        intro r hr hw
        have := hlen r hr
        rw [hw] at this
        simp at this
      rw [lockstep_round body map m rs hrs hne]
      cases hout : map.distribute (List.map Prod.snd (List.map (Run.enter body) rs)) with
      | none =>
        have := hmap (List.map Prod.snd (List.map (Run.enter body) rs))
        rw [hout] at this
        cases this
      | some out =>
        dsimp only
        apply ih _ m _ (by omega)
        intro r1 hr1
        obtain ⟨i, hi⟩ := List.mem_iff_getElem?.1 hr1
        rw [List.getElem?_mapIdx, List.getElem?_map] at hi
        cases hri : rs[i]? with
        | none => rw [hri] at hi; cases hi
        | some r =>
          rw [hri] at hi
          simp only [Option.map_some', Option.some.injEq] at hi
          have hw := Run.iterate_work body henter r (out i)
          unfold Run.iterate at hw
          rw [← hi, hw, List.length_tail, hlen r (List.mem_iff_getElem?.2 ⟨i, hri⟩)]
          rfl

theorem distributeFields_iterate {α : Type} (typeName cloudName : word) (r : Run word α)
    (X : word) (xs : List word) (hw : r.work = X :: xs) (received : List α) :
    Run.iterate (distributeFields.body typeName cloudName) r received
      = { proc := { r.proc with
            files := persist (tgtPath cloudName r.proc X) received r.proc.files
            info := r.proc.info ++ (if r.nFields = 0 then [distributeHeader typeName] else [])
              ++ [nameLine X]
            calls := r.proc.calls
              ++ [⟨X, readIfPresent (srcObject r.proc cloudName X) r.proc.files, received⟩] }
          work := xs
          nFields := r.nFields } := by
  unfold Run.iterate Run.enter Run.leave
  rw [hw]
  simp only [distributeFields.body, Proc.print, persistOrRemove_eq_persist, hw, id]
  split <;> simp [tgtPath, tgtObject, srcObject, distributeHeader, nameLine]

theorem distributeFieldFields_iterate {α : Type} (typeName cloudName : word) (r : Run word α)
    (X : word) (xs : List word) (hw : r.work = X :: xs) (received : List α) :
    Run.iterate (distributeFieldFields.body typeName cloudName) r received
      = { proc := { r.proc with
            files := persist (tgtPath cloudName r.proc X) received r.proc.files
            info := r.proc.info ++ (if r.nFields = 0 then [distributeHeader typeName] else [])
              ++ [nameLine X]
            calls := r.proc.calls
              ++ [⟨X, readIfPresent (srcObject r.proc cloudName X) r.proc.files, received⟩] }
          work := xs
          nFields := r.nFields + 1 } := by
  unfold Run.iterate Run.enter Run.leave
  rw [hw]
  simp only [distributeFieldFields.body, Proc.print, persistOrRemove_eq_persist, hw, id]
  split <;> simp [tgtPath, tgtObject, srcObject, distributeHeader, nameLine]

theorem distributeStoredFields_iterate {α : Type} (typeName : word)
    (r : Run (storedField α) α) (f : storedField α) (fs : List (storedField α))
    (hw : r.work = f :: fs) (received : List α) :
    Run.iterate (distributeStoredFields.body typeName) r received
      = { proc := { r.proc with
            cloud := r.proc.cloud.release f
            files := persist (tgtPathStored r.proc f.name) received r.proc.files
            info := r.proc.info ++ (if r.nFields = 0 then [distributeHeader typeName] else [])
              ++ [nameLine f.name]
            calls := r.proc.calls ++ [⟨f.name, f.content, received⟩] }
          work := fs
          nFields := r.nFields + 1 } := by
  unfold Run.iterate Run.enter Run.leave
  rw [hw]
  simp only [distributeStoredFields.body, Proc.print, persistOrRemove_eq_persist, hw]
  split <;> simp [tgtPathStored, tgtObject, distributeHeader, nameLine]

theorem diskCalls_nil_right {α : Type} (src : word → IOobject) (dest : word → fileName)
    (names : List word) (files : fileSystem α) : diskCalls src dest names [] files = [] := by
  cases names <;> rfl

/-- What `distributeFields` has done on one process after its first iterations,
given the fields the map left to the process. -/
theorem distributeFields_after {α : Type} (typeName cloudName : word)
    (src : word → IOobject) (dest : word → fileName) (received : List (List α)) :
    ∀ r : Run word α, received.length ≤ r.work.length →
      srcObject r.proc cloudName = src → tgtPath cloudName r.proc = dest →
      Run.after (distributeFields.body typeName cloudName) r received
        = { proc := { r.proc with
              files := replay dest (diskCalls src dest r.work received r.proc.files)
                r.proc.files
              info := r.proc.info
                ++ progressLines typeName id r.nFields (r.work.take received.length)
              calls := r.proc.calls ++ diskCalls src dest r.work received r.proc.files }
            work := r.work.drop received.length
            nFields := r.nFields } := by
  induction received with
  | nil =>
    intro r _ _ _
    simp [Run.after, diskCalls_nil_right, replay, progressLines]
  | cons recv rest ih =>
    intro r hlen hsrc hdest
    cases hw : r.work with
    | nil => rw [hw] at hlen; simp at hlen
    | cons X xs =>
      rw [hw] at hlen
      simp only [List.length_cons, Nat.add_le_add_iff_right] at hlen
      show Run.after _ (Run.iterate _ r recv) rest = _
      rw [distributeFields_iterate typeName cloudName r X xs hw recv,
        ih _ (by exact hlen) (by exact hsrc) (by exact hdest), hsrc, hdest]
      simp only [diskCalls, replay, List.foldl_cons, List.take_succ_cons, progressLines,
        List.length_cons, List.drop_succ_cons, id, List.append_assoc, List.cons_append,
        List.nil_append]

/-- What `distributeFieldFields` has done on one process after its first
iterations, given the fields the map left to the process. -/
theorem distributeFieldFields_after {α : Type} (typeName cloudName : word)
    (src : word → IOobject) (dest : word → fileName) (received : List (List α)) :
    ∀ r : Run word α, received.length ≤ r.work.length →
      srcObject r.proc cloudName = src → tgtPath cloudName r.proc = dest →
      Run.after (distributeFieldFields.body typeName cloudName) r received
        = { proc := { r.proc with
              files := replay dest (diskCalls src dest r.work received r.proc.files)
                r.proc.files
              info := r.proc.info
                ++ progressLines typeName (· + 1) r.nFields (r.work.take received.length)
              calls := r.proc.calls ++ diskCalls src dest r.work received r.proc.files }
            work := r.work.drop received.length
            nFields := r.nFields + received.length } := by
  induction received with
  | nil =>
    intro r _ _ _
    simp [Run.after, diskCalls_nil_right, replay, progressLines]
  | cons recv rest ih =>
    intro r hlen hsrc hdest
    cases hw : r.work with
    | nil => rw [hw] at hlen; simp at hlen
    | cons X xs =>
      rw [hw] at hlen
      simp only [List.length_cons, Nat.add_le_add_iff_right] at hlen
      show Run.after _ (Run.iterate _ r recv) rest = _
      rw [distributeFieldFields_iterate typeName cloudName r X xs hw recv,
        ih _ (by exact hlen) (by exact hsrc) (by exact hdest), hsrc, hdest]
      simp only [diskCalls, replay, List.foldl_cons, List.take_succ_cons, progressLines,
        List.length_cons, List.drop_succ_cons, List.append_assoc, List.cons_append,
        List.nil_append, Nat.cast_add, Nat.cast_one]
      congr 1
      ring

theorem release_name {α : Type} (cloud : passivePositionParticleCloud α)
    (f : storedField α) : (cloud.release f).name = cloud.name := rfl

/-- What `distributeStoredFields` has done on one process after its first
iterations, given the fields the map left to the process. -/
theorem distributeStoredFields_after {α : Type} (typeName : word)
    (dest : word → fileName) (received : List (List α)) :
    ∀ r : Run (storedField α) α, received.length ≤ r.work.length →
      tgtPathStored r.proc = dest →
      Run.after (distributeStoredFields.body typeName) r received
        = { proc := { r.proc with
              cloud := (r.work.take received.length).foldl
                passivePositionParticleCloud.release r.proc.cloud
              files := replay dest (storedCalls r.work received) r.proc.files
              info := r.proc.info
                ++ progressLines typeName (· + 1) r.nFields
                    ((r.work.take received.length).map storedField.name)
              calls := r.proc.calls ++ storedCalls r.work received }
            work := r.work.drop received.length
            nFields := r.nFields + received.length } := by
  induction received with
  | nil =>
    intro r _ _
    simp [Run.after, storedCalls, replay, progressLines]
  | cons recv rest ih =>
    intro r hlen hdest
    cases hw : r.work with
    | nil => rw [hw] at hlen; simp at hlen
    | cons f fs =>
      rw [hw] at hlen
      simp only [List.length_cons, Nat.add_le_add_iff_right] at hlen
      show Run.after _ (Run.iterate _ r recv) rest = _
      rw [distributeStoredFields_iterate typeName r f fs hw recv,
        ih _ (by exact hlen) (by exact hdest), hdest]
      simp only [storedCalls, List.zipWith_cons_cons, replay, List.foldl_cons,
        List.take_succ_cons, progressLines, List.map_cons,
        List.length_cons, List.drop_succ_cons, List.append_assoc, List.cons_append,
        List.nil_append, Nat.cast_add, Nat.cast_one]
      congr 1
      ring

theorem diskCalls_names {α : Type} (src : word → IOobject) (dest : word → fileName)
    (names : List word) (received : List (List α)) (files : fileSystem α) :
    (diskCalls src dest names received files).map distributeCall.objectName
      = names.take received.length := by
  induction names generalizing received files with
  | nil => cases received <;> simp [diskCalls]
  | cons X names ih =>
    cases received with
    | nil => simp [diskCalls]
    | cons recv rest => simp [diskCalls, ih]

theorem diskCalls_sentFromDisk {α : Type} (src : word → IOobject) (dest : word → fileName)
    (names : List word) (received : List (List α)) (files : fileSystem α) :
    sentFromDisk src dest (diskCalls src dest names received files) files := by
  induction names generalizing received files with
  | nil => cases received <;> simp [diskCalls, sentFromDisk]
  | cons X names ih =>
    cases received with
    | nil => simp [diskCalls, sentFromDisk]
    | cons recv rest => exact ⟨rfl, ih rest _⟩

theorem Run.enter_keeps {ι α : Type} {body : loopBody ι α} {dest : Proc α → word → fileName}
    (hb : body.Persists dest) (r : Run ι α) :
    (Run.enter body r).1.proc.calls = r.proc.calls
      ∧ (Run.enter body r).1.proc.files = r.proc.files := by
  unfold Run.enter
  split
  · exact ⟨rfl, rfl⟩
  · exact ⟨hb.enter_calls _ _, hb.enter_files _ _⟩

/-- What `distributeFields` does on the process of rank `i`: every process runs
the same number `k` of complete iterations, and the calls, the files and the
output of the process are those of its own first `k` iterations. -/
theorem distributeFields_local {α : Type} (map : mapDistributeBase α)
    (typeName cloudName : word) (procs : List (Proc α)) :
    ∃ k : Nat, k ≤ (filterObjects.reconciled typeName (groupOf procs)).length
      ∧ ((distributeFields map typeName cloudName procs).status = passStatus.completed →
          k = (filterObjects.reconciled typeName (groupOf procs)).length)
      ∧ ∀ (i : Nat) (p : Proc α), procs[i]? = some p →
        ∃ (received : List (List α)) (p' : Proc α), received.length = k
          ∧ (distributeFields map typeName cloudName procs).procs[i]? = some p'
          ∧ p'.calls = p.calls
              ++ diskCalls (srcObject p cloudName) (tgtPath cloudName p)
                  (filterObjects.reconciled typeName (groupOf procs)) received p.files
          ∧ p'.files = replay (tgtPath cloudName p)
              (diskCalls (srcObject p cloudName) (tgtPath cloudName p)
                (filterObjects.reconciled typeName (groupOf procs)) received p.files) p.files
          ∧ ((distributeFields map typeName cloudName procs).status ≠ passStatus.mapFailed →
              p'.info = p.info ++ progressLines typeName id 0
                ((filterObjects.reconciled typeName (groupOf procs)).take k)) := by
  unfold distributeFields
  simp only [distributeFields_runs]
  obtain ⟨k, hk⟩ := lockstep_local (distributeFields.body typeName cloudName)
    (distributeFields_body_persists typeName cloudName).enter_work map
    (roundsOf (procs.map (fun p =>
      (⟨p, filterObjects.reconciled typeName (groupOf procs), 0⟩ : Run word α))))
    (procs.map (fun p =>
      (⟨p, filterObjects.reconciled typeName (groupOf procs), 0⟩ : Run word α)))
  cases procs with
  | nil => exact ⟨0, Nat.zero_le _, fun _ => rfl, fun i p hp => by simp at hp⟩
  | cons p0 procs =>
    obtain ⟨_, r0, _, _, hle0, hdone0, _, _⟩ := hk 0
      ⟨p0, filterObjects.reconciled typeName (groupOf (p0 :: procs)), 0⟩ (by simp)
    refine ⟨k, hle0, hdone0, fun i p hp => ?_⟩
    obtain ⟨received, r', hr', hlen, hle, _, _, heq⟩ := hk i
      ⟨p, filterObjects.reconciled typeName (groupOf (p0 :: procs)), 0⟩
      (by rw [List.getElem?_map, hp]; rfl)
    have hafter := distributeFields_after typeName cloudName (srcObject p cloudName)
      (tgtPath cloudName p) received
      ⟨p, filterObjects.reconciled typeName (groupOf (p0 :: procs)), 0⟩
      (by rw [hlen]; exact hle) rfl rfl
    refine ⟨received, r'.proc, hlen, by rw [List.getElem?_map, hr']; rfl, ?_, ?_, ?_⟩
    · rw [heq]
      split
      · rw [(Run.enter_keeps (distributeFields_body_persists typeName cloudName) _).1, hafter]
      · rw [hafter]
    · rw [heq]
      split
      · rw [(Run.enter_keeps (distributeFields_body_persists typeName cloudName) _).2, hafter]
      · rw [hafter]
    · intro hst
      rw [heq, if_neg hst, hafter, hlen]

theorem Run.finish_nFields {ι α : Type} (r : Run ι α) : (Run.finish r).nFields = r.nFields := by
  unfold Run.finish
  split <;> rfl

/-- What a pass does to the process of rank `i`, whether or not the statement
after the loop is run: every process runs the same number `k` of complete
iterations and ends in the state its own iterations lead to. -/
theorem pass_local {ι α : Type} (body : loopBody ι α)
    (henter : ∀ x r, (body.toCollective x r).1.work = r.work) (map : mapDistributeBase α)
    (rs : List (Run ι α)) (withFinish : Bool) :
    ∃ k : Nat, ∀ (i : Nat) (r : Run ι α), rs[i]? = some r →
      k ≤ r.work.length
        ∧ ((lockstep body map (roundsOf rs) rs).1 = passStatus.completed → k = r.work.length)
        ∧ ∃ (received : List (List α)) (r' : Run ι α), received.length = k
          ∧ (if withFinish = true ∧ (lockstep body map (roundsOf rs) rs).1 = passStatus.completed
              then (lockstep body map (roundsOf rs) rs).2.map Run.finish
              else (lockstep body map (roundsOf rs) rs).2)[i]? = some r'
          ∧ r' = (if (lockstep body map (roundsOf rs) rs).1 = passStatus.completed
                  then (if withFinish = true then Run.finish (Run.after body r received)
                        else Run.after body r received)
                  else if (lockstep body map (roundsOf rs) rs).1 = passStatus.mapFailed
                  then (Run.enter body (Run.after body r received)).1
                  else Run.after body r received) := by
  obtain ⟨k, hk⟩ := lockstep_local body henter map (roundsOf rs) rs
  refine ⟨k, fun i r hr => ?_⟩
  obtain ⟨received, r', hr', hlen, hle, hdone, _, heq⟩ := hk i r hr
  generalize lockstep body map (roundsOf rs) rs = res at hr' hdone heq ⊢
  refine ⟨hle, hdone, received, ?_⟩
  by_cases hst : res.1 = passStatus.completed
  · have hnf : ¬ res.1 = passStatus.mapFailed := by rw [hst]; decide
    rw [if_neg hnf] at heq
    cases withFinish with
    | false =>
      refine ⟨r', hlen, by simpa using hr', ?_⟩
      simp [hst, heq]
    | true =>
      refine ⟨Run.finish r', hlen, by simp [hst, List.getElem?_map, hr'], ?_⟩
      simp [hst, heq]
  · refine ⟨r', hlen, by simp [hst, hr'], ?_⟩
    rw [if_neg hst]
    exact heq

/-- What `distributeFieldFields` does on the process of rank `i`: every process
runs the same number `k` of complete iterations, and the calls, the files and
the returned value of the process are those of its own first `k` iterations. -/
theorem distributeFieldFields_local {α : Type} (map : mapDistributeBase α)
    (typeName fieldFieldTypeName cloudName : word) (procs : List (Proc α)) :
    ∃ k : Nat, k ≤ (distributeFieldFields.workList typeName fieldFieldTypeName procs).length
      ∧ ((distributeFieldFields map typeName fieldFieldTypeName cloudName procs).status
            = passStatus.completed →
          k = (distributeFieldFields.workList typeName fieldFieldTypeName procs).length)
      ∧ ∀ (i : Nat) (p : Proc α), procs[i]? = some p →
        ∃ (received : List (List α)) (p' : Proc α), received.length = k
          ∧ (distributeFieldFields map typeName fieldFieldTypeName cloudName procs).procs[i]?
              = some p'
          ∧ p'.calls = p.calls
              ++ diskCalls (srcObject p cloudName) (tgtPath cloudName p)
                  (distributeFieldFields.workList typeName fieldFieldTypeName procs)
                  received p.files
          ∧ p'.files = replay (tgtPath cloudName p)
              (diskCalls (srcObject p cloudName) (tgtPath cloudName p)
                (distributeFieldFields.workList typeName fieldFieldTypeName procs)
                received p.files) p.files
          ∧ ((distributeFieldFields map typeName fieldFieldTypeName cloudName procs).status
                = passStatus.completed →
              (distributeFieldFields map typeName fieldFieldTypeName cloudName
                procs).returned[i]? = some (k : label)) := by
  obtain ⟨k, hk⟩ := pass_local (distributeFieldFields.body typeName cloudName)
    (distributeFieldFields_body_persists typeName cloudName).enter_work map
    (procs.map (fun p =>
      (⟨p, distributeFieldFields.workList typeName fieldFieldTypeName procs, 0⟩ :
        Run word α))) true
  unfold distributeFieldFields
  simp only [distributeFieldFields_runs]
  simp only [true_and] at hk
  generalize lockstep (distributeFieldFields.body typeName cloudName) map _ _ = res at hk ⊢
  cases procs with
  | nil => exact ⟨0, Nat.zero_le _, fun _ => rfl, fun i p hp => by simp at hp⟩
  | cons p0 procs =>
    obtain ⟨hle0, hdone0, _⟩ := hk 0
      ⟨p0, distributeFieldFields.workList typeName fieldFieldTypeName (p0 :: procs), 0⟩
      (by simp)
    refine ⟨k, hle0, hdone0, fun i p hp => ?_⟩
    obtain ⟨hle, _, received, r', hlen, hr', heq⟩ := hk i
      ⟨p, distributeFieldFields.workList typeName fieldFieldTypeName (p0 :: procs), 0⟩
      (by rw [List.getElem?_map, hp]; rfl)
    have hafter := distributeFieldFields_after typeName cloudName (srcObject p cloudName)
      (tgtPath cloudName p) received
      ⟨p, distributeFieldFields.workList typeName fieldFieldTypeName (p0 :: procs), 0⟩
      (by rw [hlen]; exact hle) rfl rfl
    refine ⟨received, r'.proc, hlen, by rw [List.getElem?_map, hr']; rfl, ?_, ?_, ?_⟩
    · rw [heq]
      split
      · rw [if_pos trivial, (Run.finish_proc _).2.1, hafter]
      · split
        · rw [(Run.enter_keeps (distributeFieldFields_body_persists typeName cloudName) _).1,
            hafter]
        · rw [hafter]
    · rw [heq]
      split
      · rw [if_pos trivial, (Run.finish_proc _).2.2.1, hafter]
      · split
        · rw [(Run.enter_keeps (distributeFieldFields_body_persists typeName cloudName) _).2,
            hafter]
        · rw [hafter]
    · intro hst
      rw [List.getElem?_map, hr', heq, if_pos hst, if_pos trivial]
      simp only [Option.map_some', Run.finish_nFields, hafter, hlen]
      simp

/-- What `distributeStoredFields` does on the process of rank `i`: every
process runs the same number `k` of complete iterations, and the calls, the
files and the returned value of the process are those of its own first `k`
iterations over the fields of the kind stored on its cloud. -/
theorem distributeStoredFields_local {α : Type} (map : mapDistributeBase α)
    (typeName : word) (procs : List (Proc α)) :
    ∃ k : Nat, ∀ (i : Nat) (p : Proc α), procs[i]? = some p →
      k ≤ (p.cloud.lookupClass typeName).length
        ∧ ((distributeStoredFields map typeName procs).status = passStatus.completed →
            k = (p.cloud.lookupClass typeName).length)
        ∧ ∃ (received : List (List α)) (p' : Proc α), received.length = k
          ∧ (distributeStoredFields map typeName procs).procs[i]? = some p'
          ∧ p'.calls = p.calls ++ storedCalls (p.cloud.lookupClass typeName) received
          ∧ p'.files = replay (tgtPathStored p)
              (storedCalls (p.cloud.lookupClass typeName) received) p.files
          ∧ ((distributeStoredFields map typeName procs).status = passStatus.completed →
              (distributeStoredFields map typeName procs).returned[i]? = some (k : label)) := by
  obtain ⟨k, hk⟩ := pass_local (distributeStoredFields.body typeName)
    (distributeStoredFields_body_persists typeName).enter_work map
    (procs.map (fun p =>
      (⟨p, p.cloud.lookupClass typeName, 0⟩ : Run (storedField α) α))) true
  unfold distributeStoredFields
  dsimp only
  simp only [true_and] at hk
  generalize lockstep (distributeStoredFields.body typeName) map _ _ = res at hk ⊢
  refine ⟨k, fun i p hp => ?_⟩
  obtain ⟨hle, hdone, received, r', hlen, hr', heq⟩ := hk i
    ⟨p, p.cloud.lookupClass typeName, 0⟩ (by rw [List.getElem?_map, hp]; rfl)
  have hafter := distributeStoredFields_after typeName (tgtPathStored p) received
    ⟨p, p.cloud.lookupClass typeName, 0⟩ (by rw [hlen]; exact hle) rfl
  refine ⟨hle, hdone, received, r'.proc, hlen, by rw [List.getElem?_map, hr']; rfl, ?_, ?_, ?_⟩
  · rw [heq]
    split
    · rw [if_pos trivial, (Run.finish_proc _).2.1, hafter]
    · split
      · rw [(Run.enter_keeps (distributeStoredFields_body_persists typeName) _).1, hafter]
      · rw [hafter]
  · rw [heq]
    split
    · rw [if_pos trivial, (Run.finish_proc _).2.2.1, hafter]
    · split
      · rw [(Run.enter_keeps (distributeStoredFields_body_persists typeName) _).2, hafter]
      · rw [hafter]
  · intro hst
    rw [List.getElem?_map, hr', heq, if_pos hst, if_pos trivial]
    simp only [Option.map_some', Run.finish_nFields, hafter, hlen]
    simp

theorem callsMade_eq {α : Type} (p p' : Proc α) (made : List (distributeCall α))
    (h : p'.calls = p.calls ++ made) : callsMade p p' = made := by
  unfold callsMade
  rw [h, List.drop_left]

theorem lockStepCalls_diskCalls {α : Type} (src : word → IOobject) (dest : word → fileName)
    (workList : List word) (completed : Prop) (p p' : Proc α) (received : List (List α))
    (hcalls : p'.calls = p.calls ++ diskCalls src dest workList received p.files)
    (hdone : completed → received.length = workList.length) :
    lockStepCalls src dest workList completed p p' := by
  unfold lockStepCalls
  rw [callsMade_eq p p' _ hcalls, diskCalls_names]
  refine ⟨List.take_prefix _ _, fun h => ?_, diskCalls_sentFromDisk _ _ _ _ _⟩
  rw [hdone h, List.take_length]

/-- When every process has as many items to visit as the others, the lock-step
execution never blocks: it completes or the map fails. -/
theorem lockstep_never_blocks {ι α : Type} (body : loopBody ι α)
    (henter : ∀ x r, (body.toCollective x r).1.work = r.work) (map : mapDistributeBase α)
    (n : Nat) :
    ∀ (rs : List (Run ι α)) (fuel : Nat), (∀ r ∈ rs, r.work.length = n) → n ≤ fuel →
      (lockstep body map fuel rs).1 ≠ passStatus.blocked := by
  induction n with
  | zero =>
    intro rs fuel hlen _
    rw [lockstep_done body map fuel rs (fun r hr => List.length_eq_zero.1 (hlen r hr))]
    exact fun h => (by cases h)
  | succ n ih =>
    intro rs fuel hlen hfuel
    obtain ⟨m, rfl⟩ : ∃ m, fuel = m + 1 := ⟨fuel - 1, by omega⟩
    by_cases hrs : rs = []
    · rw [hrs, lockstep_done body map _ [] (fun r hr => by simp at hr)]
      exact fun h => (by cases h)
    · have hne : ∀ r ∈ rs, r.work ≠ [] := by
        intro r hr hw
        have := hlen r hr
        rw [hw] at this
        simp at this
      rw [lockstep_round body map m rs hrs hne]
      cases hout : map.distribute (List.map Prod.snd (List.map (Run.enter body) rs)) with
      | none =>
        dsimp only
        exact fun h => (by cases h)
      | some out =>
        dsimp only
        apply ih _ m _ (by omega)
        intro r1 hr1
        obtain ⟨i, hi⟩ := List.mem_iff_getElem?.1 hr1
        rw [List.getElem?_mapIdx, List.getElem?_map] at hi
        cases hri : rs[i]? with
        | none => rw [hri] at hi; cases hi
        | some r =>
          rw [hri] at hi
          simp only [Option.map_some', Option.some.injEq] at hi
          have hw := Run.iterate_work body henter r (out i)
          unfold Run.iterate at hw
          rw [← hi, hw, List.length_tail, hlen r (List.mem_iff_getElem?.2 ⟨i, hri⟩)]
          rfl

/-- A pass in which every process visits the same list of names never blocks,
and completes when the map never fails. -/
theorem lockstep_same_names {α : Type} (body : loopBody word α)
    (henter : ∀ x r, (body.toCollective x r).1.work = r.work) (map : mapDistributeBase α)
    (procs : List (Proc α)) (names : wordList) :
    (lockstep body map (roundsOf (procs.map (fun p => (⟨p, names, 0⟩ : Run word α))))
        (procs.map (fun p => (⟨p, names, 0⟩ : Run word α)))).1 ≠ passStatus.blocked
      ∧ ((∀ fields, (map.distribute fields).isSome = true) →
        (lockstep body map (roundsOf (procs.map (fun p => (⟨p, names, 0⟩ : Run word α))))
          (procs.map (fun p => (⟨p, names, 0⟩ : Run word α)))).1 = passStatus.completed) := by
  cases procs with
  | nil => exact ⟨fun h => (by cases h), fun _ => rfl⟩
  | cons p0 procs =>
    have hlen : ∀ r ∈ (p0 :: procs).map (fun p => (⟨p, names, 0⟩ : Run word α)),
        r.work.length = names.length := by
      intro r hr
      obtain ⟨p, _, rfl⟩ := List.mem_map.1 hr
      rfl
    exact ⟨lockstep_never_blocks body henter map names.length _ _ hlen le_rfl,
      fun hmap => lockstep_completes body henter map hmap names.length _ _ hlen le_rfl⟩

theorem distributeFields_never_blocks {α : Type} (map : mapDistributeBase α)
    (typeName cloudName : word) (procs : List (Proc α)) :
    (distributeFields map typeName cloudName procs).status ≠ passStatus.blocked
      ∧ ((∀ fields, (map.distribute fields).isSome = true) →
        (distributeFields map typeName cloudName procs).status = passStatus.completed) := by
  unfold distributeFields
  simp only [distributeFields_runs]
  exact lockstep_same_names _ (distributeFields_body_persists typeName cloudName).enter_work
    map procs _

theorem distributeFieldFields_never_blocks {α : Type} (map : mapDistributeBase α)
    (typeName fieldFieldTypeName cloudName : word) (procs : List (Proc α)) :
    (distributeFieldFields map typeName fieldFieldTypeName cloudName procs).status
        ≠ passStatus.blocked
      ∧ ((∀ fields, (map.distribute fields).isSome = true) →
        (distributeFieldFields map typeName fieldFieldTypeName cloudName procs).status
          = passStatus.completed) := by
  unfold distributeFieldFields
  simp only [distributeFieldFields_runs]
  exact lockstep_same_names _
    (distributeFieldFields_body_persists typeName cloudName).enter_work map procs _

/-- C11 (lock-step of the dispatcher): `distributeFields` and
`distributeFieldFields` never block, and complete when `map.distribute` never
fails; the calls of `map.distribute` a process makes are then exactly one call
per name of its work list, in list order, and in any case one call per name
for the leading names of the list (the names before the one on which the map
fails); each call hands over the source object as found on disk, a field
without entities when the object is absent locally; and any two processes of
the group make their calls for the same sequence of names, whatever their
local registries and files hold. -/
theorem dispatcher_lock_step {α : Type} (map : mapDistributeBase α)
    (typeName fieldFieldTypeName cloudName : word) (procs : List (Proc α)) (i j : Nat)
    (p q : Proc α) (hp : procs[i]? = some p) (hq : procs[j]? = some q) :
    ((distributeFields map typeName cloudName procs).status ≠ passStatus.blocked
        ∧ ((∀ fields, (map.distribute fields).isSome = true) →
            (distributeFields map typeName cloudName procs).status = passStatus.completed)
        ∧ ∃ p' q', (distributeFields map typeName cloudName procs).procs[i]? = some p'
          ∧ (distributeFields map typeName cloudName procs).procs[j]? = some q'
          ∧ lockStepCalls (srcObject p cloudName) (tgtPath cloudName p)
              (filterObjects.reconciled typeName (groupOf procs))
              ((distributeFields map typeName cloudName procs).status = passStatus.completed)
              p p'
          ∧ ((∀ fields, (map.distribute fields).isSome = true) →
              (callsMade p p').map distributeCall.objectName
                = filterObjects.reconciled typeName (groupOf procs))
          ∧ (callsMade q q').map distributeCall.objectName
              = (callsMade p p').map distributeCall.objectName)
      ∧ ((distributeFieldFields map typeName fieldFieldTypeName cloudName procs).status
          ≠ passStatus.blocked
        ∧ ((∀ fields, (map.distribute fields).isSome = true) →
            (distributeFieldFields map typeName fieldFieldTypeName cloudName procs).status
              = passStatus.completed)
        ∧ ∃ p' q', (distributeFieldFields map typeName fieldFieldTypeName cloudName
                    procs).procs[i]? = some p'
          ∧ (distributeFieldFields map typeName fieldFieldTypeName cloudName procs).procs[j]?
              = some q'
          ∧ lockStepCalls (srcObject p cloudName) (tgtPath cloudName p)
              (distributeFieldFields.workList typeName fieldFieldTypeName procs)
              ((distributeFieldFields map typeName fieldFieldTypeName cloudName procs).status
                = passStatus.completed) p p'
          ∧ ((∀ fields, (map.distribute fields).isSome = true) →
              (callsMade p p').map distributeCall.objectName
                = distributeFieldFields.workList typeName fieldFieldTypeName procs)
          ∧ (callsMade q q').map distributeCall.objectName
              = (callsMade p p').map distributeCall.objectName) := by
  constructor
  · obtain ⟨hnb, hcomp⟩ := distributeFields_never_blocks map typeName cloudName procs
    obtain ⟨k, _, hdone, hk⟩ := distributeFields_local map typeName cloudName procs
    obtain ⟨rp, p', hlp, hp', hcp, _, _⟩ := hk i p hp
    obtain ⟨rq, q', hlq, hq', hcq, _, _⟩ := hk j q hq
    have hlock := lockStepCalls_diskCalls (srcObject p cloudName) (tgtPath cloudName p)
      (filterObjects.reconciled typeName (groupOf procs))
      ((distributeFields map typeName cloudName procs).status = passStatus.completed)
      p p' rp hcp (fun h => by rw [hlp]; exact hdone h)
    refine ⟨hnb, hcomp, p', q', hp', hq', hlock, fun hmap => hlock.2.1 (hcomp hmap), ?_⟩
    rw [callsMade_eq p p' _ hcp, callsMade_eq q q' _ hcq, diskCalls_names, diskCalls_names,
      hlp, hlq]
  · obtain ⟨hnb, hcomp⟩ :=
      distributeFieldFields_never_blocks map typeName fieldFieldTypeName cloudName procs
    obtain ⟨k, _, hdone, hk⟩ :=
      distributeFieldFields_local map typeName fieldFieldTypeName cloudName procs
    obtain ⟨rp, p', hlp, hp', hcp, _, _⟩ := hk i p hp
    obtain ⟨rq, q', hlq, hq', hcq, _, _⟩ := hk j q hq
    have hlock := lockStepCalls_diskCalls (srcObject p cloudName) (tgtPath cloudName p)
      (distributeFieldFields.workList typeName fieldFieldTypeName procs)
      ((distributeFieldFields map typeName fieldFieldTypeName cloudName procs).status
        = passStatus.completed)
      p p' rp hcp (fun h => by rw [hlp]; exact hdone h)
    refine ⟨hnb, hcomp, p', q', hp', hq', hlock, fun hmap => hlock.2.1 (hcomp hmap), ?_⟩
    rw [callsMade_eq p p' _ hcp, callsMade_eq q q' _ hcq, diskCalls_names, diskCalls_names,
      hlp, hlq]

/-- Witness of C11 on the scenario, whose map never fails: both passes complete
with one call for the one name `T`, and process 1, which has no object `T`,
makes the call all the same and hands over a field without entities; on the
two processes that report `X` under the two kinds, `distributeFieldFields`
makes its two calls for the work list `[X, X]`. -/
theorem dispatcher_lock_step_witness :
    ([scenario.proc0, scenario.proc1][0]? = some scenario.proc0
        ∧ [scenario.proc0, scenario.proc1][1]? = some scenario.proc1
        ∧ ∀ fields, (scenario.map.distribute fields).isSome = true)
      ∧ (((distributeFields scenario.map "scalarField" "cloud1"
              [scenario.proc0, scenario.proc1]).status ≠ passStatus.blocked
          ∧ ((∀ fields, (scenario.map.distribute fields).isSome = true) →
              (distributeFields scenario.map "scalarField" "cloud1"
                [scenario.proc0, scenario.proc1]).status = passStatus.completed)
          ∧ ∃ p' q', (distributeFields scenario.map "scalarField" "cloud1"
                    [scenario.proc0, scenario.proc1]).procs[0]? = some p'
            ∧ (distributeFields scenario.map "scalarField" "cloud1"
                [scenario.proc0, scenario.proc1]).procs[1]? = some q'
            ∧ lockStepCalls (srcObject scenario.proc0 "cloud1")
                (tgtPath "cloud1" scenario.proc0)
                (filterObjects.reconciled "scalarField"
                  (groupOf [scenario.proc0, scenario.proc1]))
                ((distributeFields scenario.map "scalarField" "cloud1"
                  [scenario.proc0, scenario.proc1]).status = passStatus.completed)
                scenario.proc0 p'
            ∧ ((∀ fields, (scenario.map.distribute fields).isSome = true) →
                (callsMade scenario.proc0 p').map distributeCall.objectName
                  = filterObjects.reconciled "scalarField"
                      (groupOf [scenario.proc0, scenario.proc1]))
            ∧ (callsMade scenario.proc1 q').map distributeCall.objectName
                = (callsMade scenario.proc0 p').map distributeCall.objectName)
        ∧ ((distributeFieldFields scenario.map "scalarField" "scalarFieldField" "cloud1"
              [scenario.proc0, scenario.proc1]).status ≠ passStatus.blocked
          ∧ ((∀ fields, (scenario.map.distribute fields).isSome = true) →
              (distributeFieldFields scenario.map "scalarField" "scalarFieldField" "cloud1"
                [scenario.proc0, scenario.proc1]).status = passStatus.completed)
          ∧ ∃ p' q', (distributeFieldFields scenario.map "scalarField" "scalarFieldField"
                    "cloud1" [scenario.proc0, scenario.proc1]).procs[0]? = some p'
            ∧ (distributeFieldFields scenario.map "scalarField" "scalarFieldField" "cloud1"
                [scenario.proc0, scenario.proc1]).procs[1]? = some q'
            ∧ lockStepCalls (srcObject scenario.proc0 "cloud1")
                (tgtPath "cloud1" scenario.proc0)
                (distributeFieldFields.workList "scalarField" "scalarFieldField"
                  [scenario.proc0, scenario.proc1])
                ((distributeFieldFields scenario.map "scalarField" "scalarFieldField"
                  "cloud1" [scenario.proc0, scenario.proc1]).status = passStatus.completed)
                scenario.proc0 p'
            ∧ ((∀ fields, (scenario.map.distribute fields).isSome = true) →
                (callsMade scenario.proc0 p').map distributeCall.objectName
                  = distributeFieldFields.workList "scalarField" "scalarFieldField"
                      [scenario.proc0, scenario.proc1])
            ∧ (callsMade scenario.proc1 q').map distributeCall.objectName
                = (callsMade scenario.proc0 p').map distributeCall.objectName))
      ∧ ((distributeFields scenario.map "scalarField" "cloud1"
            [scenario.proc0, scenario.proc1]).status = passStatus.completed
        ∧ (distributeFields scenario.map "scalarField" "cloud1"
            [scenario.proc0, scenario.proc1]).procs.map
              (fun p => p.calls.map (fun c => (c.objectName, c.sent)))
            = [[("T", [10, 20, 30])], [("T", [])]])
      ∧ ((distributeFieldFields scenario.map "scalarField" "scalarFieldField" "cloud1"
            [scenario.proc0, scenario.proc1]).status = passStatus.completed
        ∧ (distributeFieldFields scenario.map "scalarField" "scalarFieldField" "cloud1"
            [scenario.proc0, scenario.proc1]).procs.map
              (fun p => p.calls.map (fun c => (c.objectName, c.sent)))
            = [[("T", [10, 20, 30])], [("T", [])]])
      ∧ (distributeFieldFields.workList "scalarFieldCompactField" "scalarFieldField"
            [synonym.proc0, synonym.proc1] = ["X", "X"]
        ∧ (distributeFieldFields scenario.keep "scalarFieldCompactField" "scalarFieldField"
            "cloud1" [synonym.proc0, synonym.proc1]).status = passStatus.completed
        ∧ (distributeFieldFields scenario.keep "scalarFieldCompactField" "scalarFieldField"
            "cloud1" [synonym.proc0, synonym.proc1]).procs.map
              (fun p => p.calls.map (fun c => (c.objectName, c.sent)))
            = [[("X", [1, 2]), ("X", [1, 2])], [("X", [3]), ("X", [3])]]) :=
  ⟨⟨rfl, rfl, fun _ => rfl⟩,
    dispatcher_lock_step scenario.map "scalarField" "scalarFieldField" "cloud1"
      [scenario.proc0, scenario.proc1] 0 1 scenario.proc0 scenario.proc1 rfl rfl,
    ⟨by decide, by decide⟩, ⟨by decide, by decide⟩, ⟨by decide, by decide, by decide⟩⟩

theorem two_names : filterObjects.reconciled "scalarField" (groupOf [two.proc]) = ["T", "U"] := by
  simp [filterObjects.reconciled, groupOf, two.proc, two.objects, scenario.noSelection,
    filterObjects.localNames, wordRes.empty, IOobjectList.names, sort, List.insertionSort,
    List.orderedInsert]
  decide

theorem takeWhile_append_of_fail {β : Type} (f : β → Bool) (pre post : List β) (x : β)
    (hpre : ∀ y ∈ pre, f y = true) (hx : f x = false) :
    (pre ++ x :: post).takeWhile f = pre := by
  induction pre with
  | nil => simp [List.takeWhile_cons, hx]
  | cons y pre ih =>
    rw [List.cons_append, List.takeWhile_cons, hpre y (List.mem_cons_self _ _),
      ih (fun z hz => hpre z (List.mem_cons_of_mem _ hz))]
    rfl

/-- C12 (failure of the map is fatal, no partial write): when `map.distribute`
fails on the name `X` of the work list of `distributeFields` after succeeding
on the names `pre` before it, the pass ends with the failure of the map; on
every process the files are exactly those left by persisting-or-removing the
fields of the names of `pre`, and the destination objects of `X` and of the
names after it are as they were before the pass. -/
theorem distributeFields_map_failure {α : Type} (map : mapDistributeBase α)
    (typeName cloudName : word) (procs : List (Proc α)) (pre post : List word) (X : word)
    (hnames : filterObjects.reconciled typeName (groupOf procs) = pre ++ X :: post)
    (hpre : ∀ Y ∈ pre, (map.distribute (distributeFields.sent cloudName Y procs)).isSome = true)
    (hfail : map.distribute (distributeFields.sent cloudName X procs) = none) :
    (distributeFields map typeName cloudName procs).status = passStatus.mapFailed
      ∧ ∀ (i : Nat) (p : Proc α), procs[i]? = some p →
          ∃ p', (distributeFields map typeName cloudName procs).procs[i]? = some p'
            ∧ p'.files = pre.foldl (fun fs Y => persist (tgtPath cloudName p Y)
                (distributeFields.received map cloudName procs i Y) fs) p.files
            ∧ ∀ Y ∈ X :: post, p'.files (tgtPath cloudName p Y) = p.files (tgtPath cloudName p Y) := by
  have hprocessed : distributeFields.processed map cloudName procs
      (filterObjects.reconciled typeName (groupOf procs)) = pre := by
    unfold distributeFields.processed
    rw [hnames]
    exact takeWhile_append_of_fail _ pre post X hpre (by rw [hfail]; rfl)
  have hnd : (pre ++ X :: post).Nodup := hnames ▸ filterObjects.nodup_reconciled _ _
  obtain ⟨hst, _, hrel⟩ := distributeFields_spec map typeName cloudName procs
  rw [hprocessed] at hst hrel
  constructor
  · rw [hst, if_neg]
    rw [hnames]
    intro h
    have := congrArg List.length h
    simp at this
  · intro i p hp
    obtain ⟨p', hp', _, _, _, hf⟩ := hrel i p hp
    refine ⟨p', hp', hf, fun Y hY => ?_⟩
    rw [hf]
    apply foldl_persist_frame
    intro Z hZ heq
    have hZY : Z = Y := tgtPath_injective cloudName p heq
    exact (List.nodup_append.1 hnd).2.2 hZ (hZY ▸ hY)

/-- Witness of C12: the map fails on `U`, the second name of the work list;
the destination object `T` is written and the stale destination object `U` is
left as it was. -/
theorem distributeFields_map_failure_witness :
    (filterObjects.reconciled "scalarField" (groupOf [two.proc]) = ["T"] ++ "U" :: []
        ∧ (∀ Y ∈ ["T"],
            (two.failing.distribute (distributeFields.sent "cloud1" Y [two.proc])).isSome = true)
        ∧ two.failing.distribute (distributeFields.sent "cloud1" "U" [two.proc]) = none)
      ∧ ((distributeFields two.failing "scalarField" "cloud1" [two.proc]).status
            = passStatus.mapFailed
        ∧ ∀ (i : Nat) (p : Proc Nat), [two.proc][i]? = some p →
            ∃ p', (distributeFields two.failing "scalarField" "cloud1" [two.proc]).procs[i]?
                = some p'
              ∧ p'.files = ["T"].foldl (fun fs Y => persist (tgtPath "cloud1" p Y)
                  (distributeFields.received two.failing "cloud1" [two.proc] i Y) fs) p.files
              ∧ ∀ Y ∈ "U" :: [],
                  p'.files (tgtPath "cloud1" p Y) = p.files (tgtPath "cloud1" p Y))
      ∧ (distributeFields two.failing "scalarField" "cloud1" [two.proc]).procs.map
          (fun p => (p.calls.map distributeCall.objectName,
            p.files (tgtPath "cloud1" p "T"), p.files (tgtPath "cloud1" p "U")))
          = [(["T"], some [1], some [8])] :=
  ⟨⟨two_names, by decide, rfl⟩,
    distributeFields_map_failure two.failing "scalarField" "cloud1" [two.proc] ["T"] []
      "U" two_names (by decide) rfl,
    by
      unfold distributeFields
      simp only [distributeFields_runs]
      rw [two_names]
      decide⟩

theorem storedCalls_names {α : Type} (fields : List (storedField α))
    (received : List (List α)) :
    (storedCalls fields received).map distributeCall.objectName
      = (fields.take received.length).map storedField.name := by
  unfold storedCalls
  induction fields generalizing received with
  | nil => simp
  | cons f fields ih =>
    cases received with
    | nil => simp
    | cons recv rest => simp [ih]

/-- C14 as stated fails: the clouds of the two processes store the same two
fields `a` and `b`, which their tables list in different orders; process 0
visits `a` then `b`, process 1 visits `b` then `a` (so in the same round the
two processes call the map for different fields), and the order of process 1
is not the order of the names. -/
theorem distributeStoredFields_table_order :
    (order.proc0.cloud.lookupClass "scalarField").map storedField.name = ["a", "b"]
      ∧ (order.proc1.cloud.lookupClass "scalarField").map storedField.name = ["b", "a"]
      ∧ (distributeStoredFields scenario.keep "scalarField"
          [order.proc0, order.proc1]).status = passStatus.completed
      ∧ (distributeStoredFields scenario.keep "scalarField"
          [order.proc0, order.proc1]).procs.map
            (fun p => p.calls.map distributeCall.objectName) = [["a", "b"], ["b", "a"]]
      ∧ ¬ List.Sorted (· ≤ ·) (["b", "a"] : wordList) := by
  refine ⟨by decide, by decide, by decide, by decide, ?_⟩
  simp
  decide

/-- C14 as amended: `distributeStoredFields` visits the stored fields of the
kind in the order in which the table of the cloud lists them: the calls of the
map a process makes are made for the leading names of that list, for all of
them when the pass completes; so two processes whose tables list the same
names in the same order make their calls for the same sequence of names. -/
theorem distributeStoredFields_visiting_order {α : Type} (map : mapDistributeBase α)
    (typeName : word) (procs : List (Proc α)) (i j : Nat) (p q : Proc α)
    (hp : procs[i]? = some p) (hq : procs[j]? = some q) :
    ∃ p' q', (distributeStoredFields map typeName procs).procs[i]? = some p'
      ∧ (distributeStoredFields map typeName procs).procs[j]? = some q'
      ∧ (callsMade p p').map distributeCall.objectName
          <+: (p.cloud.lookupClass typeName).map storedField.name
      ∧ ((distributeStoredFields map typeName procs).status = passStatus.completed →
          (callsMade p p').map distributeCall.objectName
            = (p.cloud.lookupClass typeName).map storedField.name)
      ∧ ((p.cloud.lookupClass typeName).map storedField.name
            = (q.cloud.lookupClass typeName).map storedField.name →
          (callsMade q q').map distributeCall.objectName
            = (callsMade p p').map distributeCall.objectName) := by
  obtain ⟨k, hk⟩ := distributeStoredFields_local map typeName procs
  obtain ⟨_, hpdone, rp, p', hlp, hp', hcp, _, _⟩ := hk i p hp
  obtain ⟨_, _, rq, q', hlq, hq', hcq, _, _⟩ := hk j q hq
  refine ⟨p', q', hp', hq', ?_, ?_, ?_⟩
  · rw [callsMade_eq p p' _ hcp, storedCalls_names, List.map_take]
    exact List.take_prefix _ _
  · intro hdone
    rw [callsMade_eq p p' _ hcp, storedCalls_names, hlp, hpdone hdone, List.take_length]
  · intro hsame
    rw [callsMade_eq p p' _ hcp, callsMade_eq q q' _ hcq, storedCalls_names,
      storedCalls_names, hlp, hlq, List.map_take, List.map_take, hsame]

/-- Witness of the amended C14 on the scenario, whose two clouds list the one
field `age`. -/
theorem distributeStoredFields_visiting_order_witness :
    ([scenario.proc0, scenario.proc1][0]? = some scenario.proc0
        ∧ [scenario.proc0, scenario.proc1][1]? = some scenario.proc1)
      ∧ ((distributeStoredFields scenario.keep "scalarField"
            [scenario.proc0, scenario.proc1]).status = passStatus.completed
        ∧ (scenario.proc0.cloud.lookupClass "scalarField").map storedField.name
            = (scenario.proc1.cloud.lookupClass "scalarField").map storedField.name)
      ∧ ∃ p' q', (distributeStoredFields scenario.keep "scalarField"
            [scenario.proc0, scenario.proc1]).procs[0]? = some p'
        ∧ (distributeStoredFields scenario.keep "scalarField"
            [scenario.proc0, scenario.proc1]).procs[1]? = some q'
        ∧ (callsMade scenario.proc0 p').map distributeCall.objectName
            <+: (scenario.proc0.cloud.lookupClass "scalarField").map storedField.name
        ∧ ((distributeStoredFields scenario.keep "scalarField"
              [scenario.proc0, scenario.proc1]).status = passStatus.completed →
            (callsMade scenario.proc0 p').map distributeCall.objectName
              = (scenario.proc0.cloud.lookupClass "scalarField").map storedField.name)
        ∧ ((scenario.proc0.cloud.lookupClass "scalarField").map storedField.name
              = (scenario.proc1.cloud.lookupClass "scalarField").map storedField.name →
            (callsMade scenario.proc1 q').map distributeCall.objectName
              = (callsMade scenario.proc0 p').map distributeCall.objectName) :=
  ⟨⟨rfl, rfl⟩, ⟨by decide, by decide⟩,
    distributeStoredFields_visiting_order scenario.keep "scalarField"
      [scenario.proc0, scenario.proc1] 0 1 scenario.proc0 scenario.proc1 rfl rfl⟩

theorem distributeFieldFields_completes {α : Type} (map : mapDistributeBase α)
    (typeName fieldFieldTypeName cloudName : word) (procs : List (Proc α))
    (hmap : ∀ fields, (map.distribute fields).isSome = true) :
    (distributeFieldFields map typeName fieldFieldTypeName cloudName procs).status
      = passStatus.completed := by
  unfold distributeFieldFields
  simp only [distributeFieldFields_runs]
  cases procs with
  | nil => rfl
  | cons p0 procs =>
    apply lockstep_completes _ (distributeFieldFields_body_persists typeName cloudName).enter_work
      map hmap (distributeFieldFields.workList typeName fieldFieldTypeName (p0 :: procs)).length
    · intro r hr
      obtain ⟨p, _, rfl⟩ := List.mem_map.1 hr
      rfl
    · exact le_rfl

/-- C15: when `distributeFieldFields` completes, the value it returns on a
process is the number of entries of the work list, which is the number of
calls of `map.distribute` the process has made, each followed by its
persist-or-remove step; it is zero exactly when the work list is empty.  The
pass completes when the map never fails. -/
theorem distributeFieldFields_returns_count {α : Type} (map : mapDistributeBase α)
    (typeName fieldFieldTypeName cloudName : word) (procs : List (Proc α)) :
    ((distributeFieldFields map typeName fieldFieldTypeName cloudName procs).status
          = passStatus.completed →
        ∀ (i : Nat) (p : Proc α), procs[i]? = some p →
          ∃ p', (distributeFieldFields map typeName fieldFieldTypeName cloudName
                  procs).procs[i]? = some p'
            ∧ (distributeFieldFields map typeName fieldFieldTypeName cloudName
                procs).returned[i]?
                = some ((distributeFieldFields.workList typeName fieldFieldTypeName
                    procs).length : label)
            ∧ (callsMade p p').length
                = (distributeFieldFields.workList typeName fieldFieldTypeName procs).length
            ∧ p'.files = replay (tgtPath cloudName p) (callsMade p p') p.files
            ∧ (((distributeFieldFields.workList typeName fieldFieldTypeName
                  procs).length : label) = 0
                ↔ distributeFieldFields.workList typeName fieldFieldTypeName procs = []))
      ∧ ((∀ fields, (map.distribute fields).isSome = true) →
          (distributeFieldFields map typeName fieldFieldTypeName cloudName procs).status
            = passStatus.completed) := by
  refine ⟨fun hdone i p hp => ?_, fun hmap =>
    distributeFieldFields_completes map typeName fieldFieldTypeName cloudName procs hmap⟩
  obtain ⟨k, _, hkdone, hk⟩ :=
    distributeFieldFields_local map typeName fieldFieldTypeName cloudName procs
  obtain ⟨received, p', hlen, hp', hcalls, hfiles, hret⟩ := hk i p hp
  have hk' := hkdone hdone
  have hmade := callsMade_eq p p' _ hcalls
  refine ⟨p', hp', by rw [hret hdone, hk'], ?_, by rw [hmade, hfiles], ?_⟩
  · have := congrArg List.length (diskCalls_names (srcObject p cloudName)
      (tgtPath cloudName p)
      (distributeFieldFields.workList typeName fieldFieldTypeName procs) received p.files)
    rw [List.length_map, List.length_take, hlen, hk', min_self] at this
    rw [hmade, this]
  · rw [Int.natCast_eq_zero, List.length_eq_zero]

/-- Witness of C15 on the two processes that report `X` under the two kinds:
the work list is `[X, X]` and the pass returns `2` on both ranks. -/
theorem distributeFieldFields_returns_count_witness :
    ((distributeFieldFields scenario.keep "scalarFieldCompactField" "scalarFieldField"
          "cloud1" [synonym.proc0, synonym.proc1]).status = passStatus.completed
        ∧ [synonym.proc0, synonym.proc1][0]? = some synonym.proc0)
      ∧ (∃ p', (distributeFieldFields scenario.keep "scalarFieldCompactField"
                "scalarFieldField" "cloud1" [synonym.proc0, synonym.proc1]).procs[0]?
                  = some p'
          ∧ (distributeFieldFields scenario.keep "scalarFieldCompactField"
              "scalarFieldField" "cloud1" [synonym.proc0, synonym.proc1]).returned[0]?
              = some ((distributeFieldFields.workList "scalarFieldCompactField"
                  "scalarFieldField" [synonym.proc0, synonym.proc1]).length : label)
          ∧ (callsMade synonym.proc0 p').length
              = (distributeFieldFields.workList "scalarFieldCompactField"
                  "scalarFieldField" [synonym.proc0, synonym.proc1]).length
          ∧ p'.files = replay (tgtPath "cloud1" synonym.proc0) (callsMade synonym.proc0 p')
              synonym.proc0.files
          ∧ (((distributeFieldFields.workList "scalarFieldCompactField"
                "scalarFieldField" [synonym.proc0, synonym.proc1]).length : label) = 0
              ↔ distributeFieldFields.workList "scalarFieldCompactField"
                  "scalarFieldField" [synonym.proc0, synonym.proc1] = []))
      ∧ (distributeFieldFields scenario.keep "scalarFieldCompactField" "scalarFieldField"
          "cloud1" [synonym.proc0, synonym.proc1]).returned = [2, 2] :=
  ⟨⟨(distributeFieldFields_returns_count scenario.keep "scalarFieldCompactField"
      "scalarFieldField" "cloud1" [synonym.proc0, synonym.proc1]).2 (fun _ => rfl), rfl⟩,
    (distributeFieldFields_returns_count scenario.keep "scalarFieldCompactField"
      "scalarFieldField" "cloud1" [synonym.proc0, synonym.proc1]).1 (by decide) 0
      synonym.proc0 rfl,
    by decide⟩

/-- C19, at the failing input: a single process, the work list `[T, U]` and a
map that moves nothing; the pass completes and `distributeFields` has sent the
header to `Info` before each of the two object names, not once. -/
theorem distributeFields_header_repeated :
    filterObjects.reconciled "scalarField" (groupOf [two.proc]) = ["T", "U"]
      ∧ (distributeFields scenario.keep "scalarField" "cloud1" [two.proc]).status
          = passStatus.completed
      ∧ (distributeFields scenario.keep "scalarField" "cloud1" [two.proc]).procs.map Proc.info
          = [["    Distributing lagrangian scalarFields\n\n", "        T\n",
              "    Distributing lagrangian scalarFields\n\n", "        U\n"]] := by
  refine ⟨two_names, ?_, ?_⟩
  · unfold distributeFields
    simp only [distributeFields_runs]
    rw [two_names]
    decide
  · unfold distributeFields
    simp only [distributeFields_runs]
    rw [two_names]
    decide

theorem readFields_fold {α : Type} (typeName : word) (names : List word) :
    ∀ st : Proc α × label,
      (names.foldl (readFields.iteration typeName) st).1.files = st.1.files
        ∧ cloudObject (names.foldl (readFields.iteration typeName) st).1.cloud
            = cloudObject st.1.cloud
        ∧ (names.foldl (readFields.iteration typeName) st).1.cloud.stored
            = st.1.cloud.stored ++ names.map (fun X =>
                ⟨X, typeName, readIfPresent (cloudObject st.1.cloud X) st.1.files⟩)
        ∧ (names.foldl (readFields.iteration typeName) st).2 = st.2 + names.length := by
  induction names with
  | nil => intro st; simp
  | cons X names ih =>
    intro st
    rw [List.foldl_cons]
    obtain ⟨hf, hc, hs, hn⟩ := ih (readFields.iteration typeName st X)
    have hfiles : (readFields.iteration typeName st X).1.files = st.1.files := by
      simp only [readFields.iteration, Proc.print]
      split <;> rfl
    have hcloud : cloudObject (readFields.iteration typeName st X).1.cloud
        = cloudObject st.1.cloud := by
      funext Y
      simp only [readFields.iteration, Proc.print, cloudObject,
        passivePositionParticleCloud.store]
      split <;> rfl
    have hstored : (readFields.iteration typeName st X).1.cloud.stored
        = st.1.cloud.stored
          ++ [⟨X, typeName, readIfPresent (cloudObject st.1.cloud X) st.1.files⟩] := by
      simp only [readFields.iteration, Proc.print, cloudObject,
        passivePositionParticleCloud.store]
      split <;> rfl
    have hcount : (readFields.iteration typeName st X).2 = st.2 + 1 := rfl
    refine ⟨hf.trans hfiles, hc.trans hcloud, ?_, ?_⟩
    · rw [hs, hstored, hcloud, hfiles]
      simp
    · rw [hn, hcount]
      simp only [List.length_cons, Nat.cast_add, Nat.cast_one]
      ring

theorem readFields_loop {α : Type} (typeName : word) (names : List word) (p : Proc α) :
    (readFields.loop typeName names p).1.files = p.files
      ∧ (readFields.loop typeName names p).1.cloud.stored
          = p.cloud.stored ++ names.map (fun X =>
              ⟨X, typeName, readIfPresent (cloudObject p.cloud X) p.files⟩)
      ∧ (readFields.loop typeName names p).2 = (names.length : label) := by
  obtain ⟨hf, _, hs, hn⟩ := readFields_fold typeName names (p, 0)
  unfold readFields.loop
  simp only
  split
  · exact ⟨hf, hs, by rw [hn]; simp⟩
  · exact ⟨hf, hs, by rw [hn]; simp⟩

theorem lookupClass_names_append {α : Type} (cloud : passivePositionParticleCloud α)
    (typeName : word) (names : List word) (content : word → List α)
    (stored : List (storedField α))
    (h : stored = cloud.stored ++ names.map (fun X => ⟨X, typeName, content X⟩)) :
    (stored.filter (fun f => f.typeName == typeName)).map storedField.name
      = (cloud.lookupClass typeName).map storedField.name ++ names := by
  rw [h, List.filter_append, List.map_append]
  unfold passivePositionParticleCloud.lookupClass
  congr 1
  clear h
  induction names with
  | nil => rfl
  | cons X names ih => simp [ih]

theorem readFields_eq {α : Type} (typeName : word) (procs : List (Proc α)) :
    readFields typeName procs
      = { status := passStatus.completed
          procs := procs.map (fun p =>
            (readFields.loop typeName (filterObjects.reconciled typeName (groupOf procs)) p).1)
          returned := procs.map (fun p =>
            (readFields.loop typeName (filterObjects.reconciled typeName (groupOf procs)) p).2) } := by
  unfold readFields
  simp only [filterObjects_eq_replicate, List.length_map, zipWith_replicate_length,
    List.map_map]
  rfl

/-- C16, amended (`readFields` tolerates absence): `readFields` completes on
every input; on each process it leaves the disk as it was and hands to the
cloud, after the fields the cloud held, one field of the Container kind per
name of the reconciled list, in the order of the list, whose content is the
content of the object in the database of the cloud where the object is present
there and is of size zero where it is absent; it returns the length of the
reconciled list.  The names it registers are those of the reconciled list on
every process, and the names a cloud held before stay registered: two
processes whose clouds held the same names of the kind before the call hold
the same names after it. -/
theorem readFields_tolerates_absence {α : Type} (typeName : word) (procs : List (Proc α))
    (i j : Nat) (p q : Proc α) (hp : procs[i]? = some p) (hq : procs[j]? = some q) :
    (readFields typeName procs).status = passStatus.completed
      ∧ (readFields typeName procs).returned[i]?
          = some ((filterObjects.reconciled typeName (groupOf procs)).length : label)
      ∧ ∃ p' q', (readFields typeName procs).procs[i]? = some p'
          ∧ (readFields typeName procs).procs[j]? = some q'
          ∧ p'.files = p.files
          ∧ p'.cloud.stored = p.cloud.stored
              ++ (filterObjects.reconciled typeName (groupOf procs)).map (fun X =>
                  ⟨X, typeName, readIfPresent (cloudObject p.cloud X) p.files⟩)
          ∧ (∀ X content, p.files (cloudObject p.cloud X).objectPath = some content →
              readIfPresent (cloudObject p.cloud X) p.files = content)
          ∧ (∀ X, p.files (cloudObject p.cloud X).objectPath = none →
              readIfPresent (cloudObject p.cloud X) p.files = [])
          ∧ (p'.cloud.lookupClass typeName).map storedField.name
              = (p.cloud.lookupClass typeName).map storedField.name
                ++ filterObjects.reconciled typeName (groupOf procs)
          ∧ ((p.cloud.lookupClass typeName).map storedField.name
                = (q.cloud.lookupClass typeName).map storedField.name →
              (p'.cloud.lookupClass typeName).map storedField.name
                = (q'.cloud.lookupClass typeName).map storedField.name) := by
  rw [readFields_eq]
  obtain ⟨hpf, hps, hpn⟩ :=
    readFields_loop typeName (filterObjects.reconciled typeName (groupOf procs)) p
  obtain ⟨_, hqs, _⟩ :=
    readFields_loop typeName (filterObjects.reconciled typeName (groupOf procs)) q
  have hpl := lookupClass_names_append p.cloud typeName _ _ _ hps
  have hql := lookupClass_names_append q.cloud typeName _ _ _ hqs
  refine ⟨rfl, by simp [hp, hpn],
    (readFields.loop typeName (filterObjects.reconciled typeName (groupOf procs)) p).1,
    (readFields.loop typeName (filterObjects.reconciled typeName (groupOf procs)) q).1,
    by simp [hp], by simp [hq], hpf, hps, ?_, ?_, hpl, ?_⟩
  · intro X content h
    simp [readIfPresent, h]
  · intro X h
    simp [readIfPresent, h]
  · intro h
    exact hpl.trans (h ▸ hql.symm)

theorem readFields_tolerates_absence_witness :
    [reading.proc0, reading.proc1][0]? = some reading.proc0
      ∧ [reading.proc0, reading.proc1][1]? = some reading.proc1
      ∧ filterObjects.reconciled "scalarField" (groupOf [reading.proc0, reading.proc1]) = ["T"]
      ∧ ((readFields "scalarField" [reading.proc0, reading.proc1]).procs.map
          (fun p => p.cloud.stored.map (fun f => (f.name, f.typeName, f.content))))
          = [[("T", "scalarField", [10, 20, 30])], [("T", "scalarField", [])]]
      ∧ (readFields "scalarField" [reading.proc0, reading.proc1]).returned = [1, 1]
      ∧ ((readFields "scalarField" [reading.proc0, reading.proc1]).status = passStatus.completed
        ∧ (readFields "scalarField" [reading.proc0, reading.proc1]).returned[0]?
          = some ((filterObjects.reconciled "scalarField"
              (groupOf [reading.proc0, reading.proc1])).length : label)
        ∧ ∃ p' q', (readFields "scalarField" [reading.proc0, reading.proc1]).procs[0]? = some p'
          ∧ (readFields "scalarField" [reading.proc0, reading.proc1]).procs[1]? = some q'
          ∧ p'.files = reading.proc0.files
          ∧ p'.cloud.stored = reading.proc0.cloud.stored
              ++ (filterObjects.reconciled "scalarField"
                  (groupOf [reading.proc0, reading.proc1])).map (fun X =>
                  ⟨X, "scalarField",
                    readIfPresent (cloudObject reading.proc0.cloud X) reading.proc0.files⟩)
          ∧ (∀ X content,
              reading.proc0.files (cloudObject reading.proc0.cloud X).objectPath = some content →
              readIfPresent (cloudObject reading.proc0.cloud X) reading.proc0.files = content)
          ∧ (∀ X, reading.proc0.files (cloudObject reading.proc0.cloud X).objectPath = none →
              readIfPresent (cloudObject reading.proc0.cloud X) reading.proc0.files = [])
          ∧ (p'.cloud.lookupClass "scalarField").map storedField.name
              = (reading.proc0.cloud.lookupClass "scalarField").map storedField.name
                ++ filterObjects.reconciled "scalarField" (groupOf [reading.proc0, reading.proc1])
          ∧ ((reading.proc0.cloud.lookupClass "scalarField").map storedField.name
                = (reading.proc1.cloud.lookupClass "scalarField").map storedField.name →
              (p'.cloud.lookupClass "scalarField").map storedField.name
                = (q'.cloud.lookupClass "scalarField").map storedField.name)) :=
  ⟨rfl, rfl, by decide, by decide, by decide,
    readFields_tolerates_absence "scalarField" [reading.proc0, reading.proc1] 0 1
      reading.proc0 reading.proc1 rfl rfl⟩

/-- C16, the last clause fails: the cloud of process 0 stores the field `age`
before the call and the cloud of process 1 stores nothing; the reconciled list
is `[T]`, `readFields` stores `T` on both clouds, and after it the registered
names of the kind are `age, T` on process 0 and `T` on process 1: not the same
set. -/
theorem readFields_registered_names_differ :
    filterObjects.reconciled "scalarField" (groupOf [reading.aged, reading.proc1]) = ["T"]
      ∧ (readFields "scalarField" [reading.aged, reading.proc1]).status
          = passStatus.completed
      ∧ (readFields "scalarField" [reading.aged, reading.proc1]).returned = [1, 1]
      ∧ (readFields "scalarField" [reading.aged, reading.proc1]).procs.map
          (fun p => (p.cloud.lookupClass "scalarField").map storedField.name)
          = [["age", "T"], ["T"]]
      ∧ ¬ (∀ X : word, X ∈ (["age", "T"] : wordList) ↔ X ∈ (["T"] : wordList)) := by
  refine ⟨by decide, by decide, by decide, by decide, fun h => ?_⟩
  exact absurd ((h "age").1 (by decide)) (by decide)

/-! ## The finite-area mesh: lemmas -/

/-- C18 (`geometryOrder`): the setter `geometryOrder(order)` returns the value the
getter gave before the call and the getter gives `order` after it; of two
settings `a` then `b` in succession the second call returns `a`. -/
theorem geometryOrder_returns_previous (s : faMesh.statics) (a b : Int) :
    (faMesh.geometryOrder.set a s).1 = faMesh.geometryOrder s
      ∧ faMesh.geometryOrder (faMesh.geometryOrder.set a s).2 = a
      ∧ (faMesh.geometryOrder.set b (faMesh.geometryOrder.set a s).2).1 = a
      ∧ faMesh.geometryOrder (faMesh.geometryOrder.set b (faMesh.geometryOrder.set a s).2).2
          = b :=
  ⟨rfl, rfl, rfl, rfl⟩

theorem UList.get_out_of_range {T : Type} (fullDebug : Bool) (list : List T) (i : label)
    (h : ¬ (0 ≤ i ∧ i < list.length)) :
    UList.get fullDebug list i
      = if fullDebug then Outcome.fatalError else Outcome.uncheckedAccess := by
  unfold UList.get
  by_cases h0 : 0 ≤ i
  · have hlen : list.length ≤ i.toNat := by
      unfold label at *
      omega
    simp [h0, List.getElem?_eq_none hlen]
  · simp [h0]

theorem UList.get_in_range {T : Type} (fullDebug : Bool) (list : List T) (i : label)
    (h : 0 ≤ i ∧ i < list.length) :
    ∃ value, list[i.toNat]? = some value
      ∧ UList.get fullDebug list i = Outcome.returned value := by
  have hlen : i.toNat < list.length := by
    unfold label at *
    omega
  refine ⟨list[i.toNat], List.getElem?_eq_getElem hlen, ?_⟩
  unfold UList.get
  simp [h.1, List.getElem?_eq_getElem hlen]

theorem boundarySubset_loop_out_of_range {T : Type} (fullDebug : Bool) (mesh : faMesh)
    (bndField : List T) (edgeLabels : List label)
    (h : ∃ edgei ∈ edgeLabels,
      ¬ (mesh.nInternalEdges_ ≤ edgei ∧ edgei < mesh.nInternalEdges_ + bndField.length)) :
    faMesh.boundarySubset.loop fullDebug mesh bndField edgeLabels
      = if fullDebug then Outcome.fatalError else Outcome.uncheckedAccess := by
  induction edgeLabels with
  | nil => simp at h
  | cons e rest ih =>
    unfold faMesh.boundarySubset.loop
    by_cases he : mesh.nInternalEdges_ ≤ e ∧ e < mesh.nInternalEdges_ + bndField.length
    · obtain ⟨value, _, hget⟩ := UList.get_in_range fullDebug bndField
        (e - mesh.nInternalEdges_) (by unfold label at *; omega)
      have hrest : ∃ edgei ∈ rest, ¬ (mesh.nInternalEdges_ ≤ edgei
          ∧ edgei < mesh.nInternalEdges_ + bndField.length) := by
        obtain ⟨x, hx, hout⟩ := h
        rcases List.mem_cons.1 hx with rfl | hx
        · exact absurd he hout
        · exact ⟨x, hx, hout⟩
      rw [hget, ih hrest]
      cases fullDebug <;> rfl
    · rw [UList.get_out_of_range fullDebug bndField (e - mesh.nInternalEdges_)
        (by unfold label at *; omega)]
      cases fullDebug <;> rfl

/-- C17, the claim fails: in a build without `FULLDEBUG`, on the mesh of five edges
of which two are internal and a boundary field of size three, the label `7`
lies outside the boundary-edge range `[2, 5)` and `boundarySubset` does not
end in a fatal error: no check is made and the element is read outside the
storage of the field. -/
theorem boundarySubset_unchecked :
    ¬ (small.mesh.nInternalEdges_ ≤ (7 : label)
        ∧ (7 : label) < small.mesh.nInternalEdges_ + small.bndField.length)
      ∧ faMesh.boundarySubset false small.mesh small.bndField [4, 7] ≠ Outcome.fatalError
      ∧ faMesh.boundarySubset false small.mesh small.bndField [4, 7]
          = Outcome.uncheckedAccess := by
  decide

/-- C17, amended: when some `edgeLabels[i]` lies outside the range
`[nInternalEdges, nInternalEdges + bndField.size())`, `boundarySubset` ends in
a fatal error in a build with `FULLDEBUG`, and in a build without it makes no
check and reads outside the storage of `bndField`; in neither build does it
return a result. -/
theorem boundarySubset_out_of_range {T : Type} (fullDebug : Bool) (mesh : faMesh)
    (bndField : List T) (edgeLabels : List label)
    (h : ∃ edgei ∈ edgeLabels,
      ¬ (mesh.nInternalEdges_ ≤ edgei ∧ edgei < mesh.nInternalEdges_ + bndField.length)) :
    (fullDebug = true →
        faMesh.boundarySubset fullDebug mesh bndField edgeLabels = Outcome.fatalError)
      ∧ (fullDebug = false →
        faMesh.boundarySubset fullDebug mesh bndField edgeLabels = Outcome.uncheckedAccess)
      ∧ ∀ result, faMesh.boundarySubset fullDebug mesh bndField edgeLabels
          ≠ Outcome.returned result := by
  have hloop := boundarySubset_loop_out_of_range fullDebug mesh bndField edgeLabels h
  unfold faMesh.boundarySubset
  cases fullDebug
  · simp only [Bool.false_and, Bool.false_eq_true, if_false] at hloop ⊢
    rw [hloop]
    exact ⟨fun h => (by cases h), fun _ => rfl, fun _ h => (by cases h)⟩
  · simp only [if_true] at hloop
    rw [hloop]
    refine ⟨fun _ => (by split <;> rfl), fun h => (by cases h), fun _ h => ?_⟩
    split at h <;> cases h

theorem boundarySubset_out_of_range_witness :
    (∃ edgei ∈ ([4, 7] : List label),
        ¬ (small.mesh.nInternalEdges_ ≤ edgei
          ∧ edgei < small.mesh.nInternalEdges_ + small.bndField.length))
      ∧ faMesh.boundarySubset true small.mesh small.bndField [4, 7] = Outcome.fatalError
      ∧ ((true = true →
          faMesh.boundarySubset true small.mesh small.bndField [4, 7] = Outcome.fatalError)
        ∧ (true = false →
          faMesh.boundarySubset true small.mesh small.bndField [4, 7]
            = Outcome.uncheckedAccess)
        ∧ ∀ result, faMesh.boundarySubset true small.mesh small.bndField [4, 7]
            ≠ Outcome.returned result) :=
  ⟨⟨7, by decide, by decide⟩, by decide,
    boundarySubset_out_of_range true small.mesh small.bndField [4, 7]
      ⟨7, by decide, by decide⟩⟩

/-! ## `patchTuple::sort`: lemmas -/

theorem patchTuple_less_iff (a b : faMesh.patchTuple) :
    faMesh.patchTuple.less a b = true
      ↔ (a.procNo < b.procNo ∨ (a.procNo = b.procNo ∧ (a.patchi < b.patchi
          ∨ (a.patchi = b.patchi ∧ (a.patchEdgei < b.patchEdgei
            ∨ (a.patchEdgei = b.patchEdgei ∧ a.meshFacei < b.meshFacei)))))) := by
  unfold faMesh.patchTuple.less label at *
  split_ifs <;> simp <;> omega

theorem patchTuple_less_strictTotal : StrictTotal faMesh.patchTuple.less := by
  refine ⟨fun a => ?_, fun a b c hab hbc => ?_, fun a b hab hba => ?_⟩
  · rw [Bool.eq_false_iff, Ne, patchTuple_less_iff]
    unfold label at *
    omega
  · rw [patchTuple_less_iff] at hab hbc ⊢
    unfold label at *
    omega
  · rw [Bool.eq_false_iff, Ne, patchTuple_less_iff] at hab hba
    obtain ⟨a0, a1, a2, a3⟩ := a
    obtain ⟨b0, b1, b2, b3⟩ := b
    simp only [faMesh.patchTuple.mk.injEq]
    unfold label at *
    dsimp only at hab hba
    omega

theorem StrictTotal.asymm {T : Type} {less : T → T → Bool} (h : StrictTotal less) (a b : T)
    (hab : less a b = true) : less b a = false := by
  cases hba : less b a
  · rfl
  · have := h.trans a b a hab hba
    rw [h.irrefl a] at this
    cases this

theorem Pair.less_iff {T : Type} {less : T → T → Bool} (h : StrictTotal less) (a b : Pair T) :
    Pair.less less a b = true
      ↔ (less a.first b.first = true
          ∨ (a.first = b.first ∧ less a.second b.second = true)) := by
  unfold Pair.less
  cases h1 : less a.first b.first
  · cases h2 : less b.first a.first
    · have heq := h.total _ _ h1 h2
      cases h3 : less a.second b.second <;> simp [heq]
    · have hne : a.first ≠ b.first := by
        intro heq
        rw [heq, h.irrefl] at h2
        cases h2
      simp [hne]
  · simp

theorem Pair.less_strictTotal {T : Type} {less : T → T → Bool} (h : StrictTotal less) :
    StrictTotal (Pair.less less) := by
  refine ⟨fun a => ?_, fun a b c hab hbc => ?_, fun a b hab hba => ?_⟩
  · rw [Bool.eq_false_iff, Ne, Pair.less_iff h]
    simp [h.irrefl]
  · rw [Pair.less_iff h] at hab hbc ⊢
    rcases hab with hab | ⟨hab, hab2⟩
    · rcases hbc with hbc | ⟨hbc, _⟩
      · exact Or.inl (h.trans _ _ _ hab hbc)
      · exact Or.inl (hbc ▸ hab)
    · rcases hbc with hbc | ⟨hbc, hbc2⟩
      · exact Or.inl (hab ▸ hbc)
      · exact Or.inr ⟨hab.trans hbc, h.trans _ _ _ hab2 hbc2⟩
  · rw [Bool.eq_false_iff, Ne, Pair.less_iff h] at hab hba
    have h1 : a.first = b.first := by
      apply h.total
      · cases hl : less a.first b.first
        · rfl
        · exact absurd (Or.inl hl) hab
      · cases hl : less b.first a.first
        · rfl
        · exact absurd (Or.inl hl) hba
    have h2 : a.second = b.second := by
      apply h.total
      · cases hl : less a.second b.second
        · rfl
        · exact absurd (Or.inr ⟨h1, hl⟩) hab
      · cases hl : less b.second a.second
        · rfl
        · exact absurd (Or.inr ⟨h1.symm, hl⟩) hba
    obtain ⟨a1, a2⟩ := a
    obtain ⟨b1, b2⟩ := b
    cases h1
    cases h2
    rfl

theorem StrictTotal.isTotal {T : Type} {less : T → T → Bool} (h : StrictTotal less) :
    IsTotal T (fun a b => less b a = false) :=
  ⟨fun a b => by
    cases hba : less b a
    · exact Or.inl rfl
    · exact Or.inr (h.asymm b a hba)⟩

theorem StrictTotal.isTrans {T : Type} {less : T → T → Bool} (h : StrictTotal less) :
    IsTrans T (fun a b => less b a = false) :=
  ⟨fun a b c hab hbc => by
    cases hca : less c a
    · rfl
    · cases hlab : less a b
      · have heq := h.total a b hlab hab
        rw [heq] at hca
        rw [hca] at hbc
        cases hbc
      · have := h.trans c a b hca hlab
        rw [this] at hbc
        cases hbc⟩

theorem StrictTotal.isAntisymm {T : Type} {less : T → T → Bool} (h : StrictTotal less) :
    IsAntisymm T (fun a b => less b a = false) :=
  ⟨fun a b hab hba => h.total a b hba hab⟩

theorem stableSort_perm {T : Type} (less : T → T → Bool) (list : List T) :
    (stableSort less list).Perm list :=
  List.perm_insertionSort _ list

theorem stableSort_sorted {T : Type} {less : T → T → Bool} (h : StrictTotal less)
    (list : List T) : (stableSort less list).Sorted (fun a b => less b a = false) :=
  haveI := h.isTotal
  haveI := h.isTrans
  List.sorted_insertionSort _ list

theorem stableSort_eq_of_perm {T : Type} {less : T → T → Bool} (h : StrictTotal less)
    (l₁ l₂ : List T) (hp : l₁.Perm l₂) : stableSort less l₁ = stableSort less l₂ :=
  haveI := h.isAntisymm
  List.eq_of_perm_of_sorted
    (((stableSort_perm less l₁).trans hp).trans (stableSort_perm less l₂).symm)
    (stableSort_sorted h l₁) (stableSort_sorted h l₂)

theorem stableSort_of_sorted {T : Type} (less : T → T → Bool) (list : List T)
    (hs : list.Sorted (fun a b => less b a = false)) : stableSort less list = list :=
  List.Sorted.insertionSort_eq hs

theorem Pair.sort_ordered {T : Type} {less : T → T → Bool} (h : StrictTotal less) (p : Pair T) :
    less (Pair.sort less p).second (Pair.sort less p).first = false := by
  unfold Pair.sort
  cases hp : less p.second p.first
  · simpa using hp
  · simpa [Pair.flip] using h.asymm _ _ hp

theorem Pair.sort_of_ordered {T : Type} (less : T → T → Bool) (p : Pair T)
    (hp : less p.second p.first = false) : Pair.sort less p = p := by
  unfold Pair.sort
  simp [hp]

theorem Pair.unordered_sort {T : Type} (less : T → T → Bool) (p : Pair T) :
    (Pair.sort less p).unordered = p.unordered := by
  unfold Pair.sort
  split
  · exact Sym2.eq_swap
  · rfl

theorem Pair.sort_flip {T : Type} {less : T → T → Bool} (h : StrictTotal less) (a b : T) :
    Pair.sort less ⟨a, b⟩ = Pair.sort less ⟨b, a⟩ := by
  unfold Pair.sort Pair.flip
  cases hab : less a b
  · cases hba : less b a
    · cases h.total a b hab hba
      rfl
    · simp
  · simp [h.asymm a b hab]

theorem Pair.sort_of_unordered {T : Type} {less : T → T → Bool} (h : StrictTotal less)
    (l₁ l₂ : List (Pair T)) (hp : (l₁.map Pair.unordered).Perm (l₂.map Pair.unordered)) :
    (l₁.map (Pair.sort less)).Perm (l₂.map (Pair.sort less)) := by
  have hnorm : ∀ l : List (Pair T),
      l.map (Pair.sort less)
        = (l.map Pair.unordered).map
            (Sym2.lift ⟨fun a b => Pair.sort less ⟨a, b⟩, fun a b => Pair.sort_flip h a b⟩) := by
    intro l
    rw [List.map_map]
    apply List.map_congr_left
    intro p _
    rfl
  rw [hnorm l₁, hnorm l₂]
  exact hp.map _

/-- C20 (`patchTuple::sort`, a globally consistent ordering): after the sort every
pair has its second tuple not less than its first, the list is non-decreasing
in the lexicographic order of its pairs, and it holds the same unordered pairs
as the input; two inputs that hold the same unordered pairs, whatever the order
of the list and of the two tuples inside each pair, give the same result; and
sorting a sorted list leaves it as it is. -/
theorem patchTuple_sort_consistent (list list' : List (Pair faMesh.patchTuple))
    (h : (list.map Pair.unordered).Perm (list'.map Pair.unordered)) :
    (∀ p ∈ faMesh.patchTuple.sort list, faMesh.patchTuple.less p.second p.first = false)
      ∧ (faMesh.patchTuple.sort list).Sorted
          (fun p q => Pair.less faMesh.patchTuple.less q p = false)
      ∧ ((faMesh.patchTuple.sort list).map Pair.unordered).Perm (list.map Pair.unordered)
      ∧ faMesh.patchTuple.sort list = faMesh.patchTuple.sort list'
      ∧ faMesh.patchTuple.sort (faMesh.patchTuple.sort list) = faMesh.patchTuple.sort list := by
  have ht := patchTuple_less_strictTotal
  have hP := Pair.less_strictTotal ht
  have hordered : ∀ p ∈ faMesh.patchTuple.sort list,
      faMesh.patchTuple.less p.second p.first = false := by
    intro p hp
    have hp' := (stableSort_perm _ _).mem_iff.1 hp
    obtain ⟨q, _, rfl⟩ := List.mem_map.1 hp'
    exact Pair.sort_ordered ht q
  have hsorted : (faMesh.patchTuple.sort list).Sorted
      (fun p q => Pair.less faMesh.patchTuple.less q p = false) := stableSort_sorted hP _
  refine ⟨hordered, hsorted, ?_, ?_, ?_⟩
  · refine ((stableSort_perm _ _).map _).trans ?_
    rw [List.map_map]
    exact List.Perm.of_eq (List.map_congr_left (fun p _ => Pair.unordered_sort _ p))
  · exact stableSort_eq_of_perm hP _ _ (Pair.sort_of_unordered ht list list' h)
  · have hid : (faMesh.patchTuple.sort list).map (Pair.sort faMesh.patchTuple.less)
        = faMesh.patchTuple.sort list := by
      conv_rhs => rw [← List.map_id (faMesh.patchTuple.sort list)]
      exact List.map_congr_left (fun p hp => Pair.sort_of_ordered _ p (hordered p hp))
    show stableSort _ ((faMesh.patchTuple.sort list).map (Pair.sort faMesh.patchTuple.less))
      = faMesh.patchTuple.sort list
    rw [hid]
    exact stableSort_of_sorted _ _ hsorted

theorem patchTuple_sort_consistent_witness :
    (links.given.map Pair.unordered).Perm (links.swapped.map Pair.unordered)
      ∧ faMesh.patchTuple.sort links.given
          = [⟨⟨0, -1, 0, 3⟩, ⟨0, 1, 0, 0⟩⟩, ⟨⟨0, 2, 1, 5⟩, ⟨1, 0, 0, 0⟩⟩]
      ∧ ((∀ p ∈ faMesh.patchTuple.sort links.given,
            faMesh.patchTuple.less p.second p.first = false)
        ∧ (faMesh.patchTuple.sort links.given).Sorted
            (fun p q => Pair.less faMesh.patchTuple.less q p = false)
        ∧ ((faMesh.patchTuple.sort links.given).map Pair.unordered).Perm
            (links.given.map Pair.unordered)
        ∧ faMesh.patchTuple.sort links.given = faMesh.patchTuple.sort links.swapped
        ∧ faMesh.patchTuple.sort (faMesh.patchTuple.sort links.given)
            = faMesh.patchTuple.sort links.given) :=
  ⟨by decide, by decide, patchTuple_sort_consistent links.given links.swapped (by decide)⟩

/-! ## Labels as machine integers: lemmas -/

theorem two_pow_label (w : Nat) (hw : 0 < w) :
    (2 : Int) ^ w = 2 * 2 ^ (w - 1) ∧ (1 : Int) ≤ 2 ^ (w - 1) := by
  constructor
  · obtain ⟨n, rfl⟩ : ∃ n, w = n + 1 := ⟨w - 1, by omega⟩
    simp [pow_succ, mul_comm]
  · exact one_le_pow₀ (by norm_num)

theorem label.wrap_of_mem (w : Nat) (hw : 0 < w) (x : Int)
    (h : -(labelMax w + 1) ≤ x ∧ x ≤ labelMax w) : label.wrap w x = x := by
  obtain ⟨h2, h1⟩ := two_pow_label w hw
  unfold label.wrap
  unfold labelMax label at *
  rw [h2, Int.emod_eq_of_lt (by omega) (by omega)]
  omega

theorem label.wrap_succ_max (w : Nat) (hw : 0 < w) :
    label.wrap w (labelMax w + 1) = -(labelMax w + 1) := by
  obtain ⟨h2, h1⟩ := two_pow_label w hw
  unfold label.wrap labelMax
  unfold label at *
  have : (2 : Int) ^ (w - 1) - 1 + 1 + 2 ^ (w - 1) = 2 * 2 ^ (w - 1) := by ring
  rw [this, h2, Int.emod_self]
  omega

theorem label.wrap_faPatchi (w : Nat) (hw : 0 < w) (v : label)
    (hv : 0 ≤ v ∧ v ≤ labelMax w) :
    label.wrap w (-(label.wrap w (v + 1))) = -(v + 1) := by
  obtain ⟨_, h1⟩ := two_pow_label w hw
  by_cases hmax : v = labelMax w
  · subst hmax
    rw [label.wrap_succ_max w hw, neg_neg, label.wrap_succ_max w hw]
  · have hlt : v < labelMax w := lt_of_le_of_ne hv.2 hmax
    rw [label.wrap_of_mem w hw (v + 1) (by unfold label at *; omega)]
    exact label.wrap_of_mem w hw _ (by unfold label at *; omega)

theorem label.wrap_realPatchi (w : Nat) (hw : 0 < w) (id : label)
    (hid : -(labelMax w + 1) ≤ id ∧ id < 0) :
    label.wrap w (-(label.wrap w (id + 1))) = -(id + 1) := by
  rw [label.wrap_of_mem w hw (id + 1) (by unfold label at *; omega)]
  exact label.wrap_of_mem w hw _ (by unfold label at *; omega)

theorem labelMax_nonneg (w : Nat) (hw : 0 < w) : 0 ≤ labelMax w := by
  obtain ⟨_, h1⟩ := two_pow_label w hw
  unfold labelMax
  unfold label at *
  omega

theorem faPatchi_eq (w : Nat) (hw : 0 < w) (v : label) (hv : 0 ≤ v ∧ v ≤ labelMax w)
    (t : faMesh.patchTuple) :
    faMesh.patchTuple.faPatchi w v t = ⟨t.procNo, -(v + 1), t.patchEdgei, t.meshFacei⟩ := by
  unfold faMesh.patchTuple.faPatchi faMesh.patchTuple.patchi.set
  rw [label.wrap_faPatchi w hw v hv]

/-! ## The patch id of a `patchTuple` and its place in the order -/

/-- C21, the claim fails: the tuple of processor 1 whose patch id was set with
`faPatchi(0)` does not compare less than the tuple of processor 0 whose patch id
is the normal `patchi(0)`; it compares greater, the processor being the first
sort index. -/
theorem patchTuple_area_after_normal :
    links.areaOnProc1 = faMesh.patchTuple.faPatchi 32 0 ⟨1, 0, 0, 0⟩
      ∧ links.normalOnProc0 = faMesh.patchTuple.patchi.set 0 ⟨0, 0, 0, 0⟩
      ∧ faMesh.patchTuple.less links.areaOnProc1 links.normalOnProc0 = false
      ∧ faMesh.patchTuple.less links.normalOnProc0 links.areaOnProc1 = true := by
  decide

/-- C21, amended: a tuple whose patch id was set with `faPatchi(v)`, `v >= 0`, and
a tuple whose patch id is a normal `patchi(u)`, `u >= 0`, compare by their
processors first: the finite-area tuple is strictly less than the normal one
exactly when its processor is not the greater one; so on the same processor
the finite-area tuple always sorts before the normal one. -/
theorem patchTuple_area_before_normal (w : Nat) (hw : 0 < w) (v u : label)
    (hv : 0 ≤ v ∧ v ≤ labelMax w) (hu : 0 ≤ u) (a b : faMesh.patchTuple) :
    (faMesh.patchTuple.less (faMesh.patchTuple.faPatchi w v a)
          (faMesh.patchTuple.patchi.set u b) = true ↔ a.procNo ≤ b.procNo)
      ∧ (a.procNo = b.procNo →
          faMesh.patchTuple.less (faMesh.patchTuple.faPatchi w v a)
              (faMesh.patchTuple.patchi.set u b) = true
            ∧ faMesh.patchTuple.less (faMesh.patchTuple.patchi.set u b)
              (faMesh.patchTuple.faPatchi w v a) = false) := by
  rw [faPatchi_eq w hw v hv a]
  have hiff : faMesh.patchTuple.less ⟨a.procNo, -(v + 1), a.patchEdgei, a.meshFacei⟩
      (faMesh.patchTuple.patchi.set u b) = true ↔ a.procNo ≤ b.procNo := by
    rw [patchTuple_less_iff]
    unfold faMesh.patchTuple.patchi.set
    unfold label at *
    dsimp only
    omega
  refine ⟨hiff, fun heq => ⟨hiff.2 (le_of_eq heq), ?_⟩⟩
  rw [Bool.eq_false_iff, Ne, patchTuple_less_iff]
  unfold faMesh.patchTuple.patchi.set
  unfold label at *
  dsimp only
  omega

theorem patchTuple_area_before_normal_witness :
    ((0 : Nat) < 32 ∧ ((0 : label) ≤ 3 ∧ (3 : label) ≤ labelMax 32) ∧ (0 : label) ≤ 0)
      ∧ faMesh.patchTuple.less (faMesh.patchTuple.faPatchi 32 3 ⟨1, 0, 7, 2⟩)
          (faMesh.patchTuple.patchi.set 0 ⟨1, 5, 0, 0⟩) = true
      ∧ ((faMesh.patchTuple.less (faMesh.patchTuple.faPatchi 32 3 ⟨1, 0, 7, 2⟩)
            (faMesh.patchTuple.patchi.set 0 ⟨1, 5, 0, 0⟩) = true
          ↔ (⟨1, 0, 7, 2⟩ : faMesh.patchTuple).procNo
              ≤ (⟨1, 5, 0, 0⟩ : faMesh.patchTuple).procNo)
        ∧ ((⟨1, 0, 7, 2⟩ : faMesh.patchTuple).procNo
              = (⟨1, 5, 0, 0⟩ : faMesh.patchTuple).procNo →
            faMesh.patchTuple.less (faMesh.patchTuple.faPatchi 32 3 ⟨1, 0, 7, 2⟩)
                (faMesh.patchTuple.patchi.set 0 ⟨1, 5, 0, 0⟩) = true
              ∧ faMesh.patchTuple.less (faMesh.patchTuple.patchi.set 0 ⟨1, 5, 0, 0⟩)
                (faMesh.patchTuple.faPatchi 32 3 ⟨1, 0, 7, 2⟩) = false)) :=
  ⟨by decide, by decide,
    patchTuple_area_before_normal 32 (by decide) 3 0 (by decide) (by decide)
      ⟨1, 0, 7, 2⟩ ⟨1, 5, 0, 0⟩⟩

/-- C22 (patch-id encoding round trip): for every label `v >= 0`, after
`faPatchi(v)` the tuple is finite-area and its real patch id is `v`; after
`patchi(v)` it is not finite-area and its real patch id is `v`; either setter
leaves the other three components as they were; and the patch id stored by
`faPatchi(v)` differs from the one stored by `patchi(u)` for every `u >= 0`. -/
theorem patchTuple_patchi_round_trip (w : Nat) (hw : 0 < w) (v : label)
    (hv : 0 ≤ v ∧ v ≤ labelMax w) (t : faMesh.patchTuple) :
    ((faMesh.patchTuple.faPatchi w v t).is_finiteArea = true
        ∧ (faMesh.patchTuple.faPatchi w v t).realPatchi w = v)
      ∧ ((faMesh.patchTuple.patchi.set v t).is_finiteArea = false
        ∧ (faMesh.patchTuple.patchi.set v t).realPatchi w = v)
      ∧ ((faMesh.patchTuple.faPatchi w v t).procNo = t.procNo
        ∧ (faMesh.patchTuple.faPatchi w v t).patchEdgei = t.patchEdgei
        ∧ (faMesh.patchTuple.faPatchi w v t).meshFacei = t.meshFacei)
      ∧ ∀ (u : label) (t' : faMesh.patchTuple), 0 ≤ u →
          (faMesh.patchTuple.faPatchi w v t).patchi
            ≠ (faMesh.patchTuple.patchi.set u t').patchi := by
  rw [faPatchi_eq w hw v hv t]
  refine ⟨⟨?_, ?_⟩, ⟨?_, ?_⟩, ⟨rfl, rfl, rfl⟩, fun u t' hu => ?_⟩
  · unfold faMesh.patchTuple.is_finiteArea
    unfold label at *
    simp only [decide_eq_true_eq]
    omega
  · unfold faMesh.patchTuple.realPatchi
    dsimp only
    have hneg : -(v + 1) < 0 := by unfold label at *; omega
    rw [if_pos hneg, label.wrap_realPatchi w hw _ ⟨by unfold label at *; omega, hneg⟩]
    unfold label at *
    omega
  · unfold faMesh.patchTuple.is_finiteArea faMesh.patchTuple.patchi.set
    unfold label at *
    simp only [decide_eq_false_iff_not]
    omega
  · unfold faMesh.patchTuple.realPatchi faMesh.patchTuple.patchi.set
    dsimp only
    rw [if_neg (by unfold label at *; omega)]
  · unfold faMesh.patchTuple.patchi.set
    unfold label at *
    dsimp only
    omega

theorem patchTuple_patchi_round_trip_witness :
    ((0 : Nat) < 32 ∧ (0 : label) ≤ labelMax 32 ∧ labelMax 32 ≤ labelMax 32)
      ∧ faMesh.patchTuple.faPatchi 32 (labelMax 32) ⟨0, 0, 4, 9⟩ = ⟨0, -2147483648, 4, 9⟩
      ∧ (((faMesh.patchTuple.faPatchi 32 (labelMax 32) ⟨0, 0, 4, 9⟩).is_finiteArea = true
          ∧ (faMesh.patchTuple.faPatchi 32 (labelMax 32) ⟨0, 0, 4, 9⟩).realPatchi 32
              = labelMax 32)
        ∧ ((faMesh.patchTuple.patchi.set (labelMax 32) ⟨0, 0, 4, 9⟩).is_finiteArea = false
          ∧ (faMesh.patchTuple.patchi.set (labelMax 32) ⟨0, 0, 4, 9⟩).realPatchi 32
              = labelMax 32)
        ∧ ((faMesh.patchTuple.faPatchi 32 (labelMax 32) ⟨0, 0, 4, 9⟩).procNo
              = (⟨0, 0, 4, 9⟩ : faMesh.patchTuple).procNo
          ∧ (faMesh.patchTuple.faPatchi 32 (labelMax 32) ⟨0, 0, 4, 9⟩).patchEdgei
              = (⟨0, 0, 4, 9⟩ : faMesh.patchTuple).patchEdgei
          ∧ (faMesh.patchTuple.faPatchi 32 (labelMax 32) ⟨0, 0, 4, 9⟩).meshFacei
              = (⟨0, 0, 4, 9⟩ : faMesh.patchTuple).meshFacei)
        ∧ ∀ (u : label) (t' : faMesh.patchTuple), 0 ≤ u →
            (faMesh.patchTuple.faPatchi 32 (labelMax 32) ⟨0, 0, 4, 9⟩).patchi
              ≠ (faMesh.patchTuple.patchi.set u t').patchi) :=
  ⟨by decide, by decide,
    patchTuple_patchi_round_trip 32 (by decide) (labelMax 32) (by decide) ⟨0, 0, 4, 9⟩⟩

/-- C24 (a default-constructed or cleared `patchTuple` is invalid): after
`clear()`, and so after the default constructor, `valid()` is false, `procNo()`,
`patchEdgei()` and `meshFacei()` are `-1` and `patchi()` is `labelMax`, whatever
the tuple held; and for every tuple `valid()` holds exactly when `procNo()` and
`patchEdgei()` are non-negative, so it does not depend on `patchi` and
`meshFacei`. -/
theorem patchTuple_clear_invalid (w : Nat) (t : faMesh.patchTuple) (patchi meshFacei : label) :
    ((faMesh.patchTuple.clear w t).valid = false
        ∧ (faMesh.patchTuple.clear w t).procNo = -1
        ∧ (faMesh.patchTuple.clear w t).patchEdgei = -1
        ∧ (faMesh.patchTuple.clear w t).meshFacei = -1
        ∧ (faMesh.patchTuple.clear w t).patchi = labelMax w)
      ∧ faMesh.patchTuple.defaultConstruct w t = faMesh.patchTuple.clear w t
      ∧ (t.valid = true ↔ t.procNo ≥ 0 ∧ t.patchEdgei ≥ 0)
      ∧ faMesh.patchTuple.valid ⟨t.procNo, patchi, t.patchEdgei, meshFacei⟩ = t.valid := by
  refine ⟨⟨rfl, rfl, rfl, rfl, rfl⟩, rfl, ?_, rfl⟩
  unfold faMesh.patchTuple.valid
  simp

/-! ## `boundarySubset` on labels in range -/

theorem boundarySubset_loop_in_range {T : Type} (fullDebug : Bool) (mesh : faMesh)
    (bndField : List T) (edgeLabels : List label)
    (h : ∀ edgei ∈ edgeLabels,
      mesh.nInternalEdges_ ≤ edgei ∧ edgei < mesh.nInternalEdges_ + bndField.length) :
    ∃ result, faMesh.boundarySubset.loop fullDebug mesh bndField edgeLabels
        = Outcome.returned result
      ∧ List.Forall₂ (fun edgei value =>
          (0 ≤ edgei - mesh.nInternalEdges_ ∧ edgei - mesh.nInternalEdges_ < bndField.length)
          ∧ bndField[(edgei - mesh.nInternalEdges_).toNat]? = some value)
          edgeLabels result := by
  induction edgeLabels with
  | nil => exact ⟨[], rfl, List.Forall₂.nil⟩
  | cons e rest ih =>
    obtain ⟨result, hloop, hall⟩ := ih (fun x hx => h x (List.mem_cons_of_mem _ hx))
    have he := h e (List.mem_cons_self _ _)
    have hidx : 0 ≤ e - mesh.nInternalEdges_ ∧ e - mesh.nInternalEdges_ < bndField.length := by
      unfold label at *
      omega
    obtain ⟨value, hvalue, hget⟩ := UList.get_in_range fullDebug bndField
      (e - mesh.nInternalEdges_) hidx
    refine ⟨value :: result, ?_, List.Forall₂.cons ⟨hidx, hvalue⟩ hall⟩
    unfold faMesh.boundarySubset.loop
    rw [hget, hloop]

theorem checkBoundaryEdgeLabelRange_iff (mesh : faMesh) (edgeLabels : List label) :
    mesh.checkBoundaryEdgeLabelRange edgeLabels = true
      ↔ ∀ edgei ∈ edgeLabels, mesh.nInternalEdges_ ≤ edgei ∧ edgei < mesh.nEdges_ := by
  unfold faMesh.checkBoundaryEdgeLabelRange
  simp

/-- C23, the claim fails in a build with `FULLDEBUG`: on the mesh of five edges
of which two are internal and a boundary field of size four, the label `5`
lies in `[nInternalEdges, nInternalEdges + bndField.size())`, that is `[2, 6)`,
and `boundarySubset` returns no list: `5` is not the label of an edge of the
mesh and the range check ends in a fatal error.  The build without
`FULLDEBUG` returns the entry of index `3`. -/
theorem boundarySubset_oversized_field :
    (∀ edgei ∈ ([5] : List label), small.mesh.nInternalEdges_ ≤ edgei
        ∧ edgei < small.mesh.nInternalEdges_ + small.longField.length)
      ∧ faMesh.boundarySubset true small.mesh small.longField [5] = Outcome.fatalError
      ∧ faMesh.boundarySubset false small.mesh small.longField [5] = Outcome.returned [40] := by
  decide

/-- C23, amended: when every entry of `edgeLabels` lies in
`[nInternalEdges, nInternalEdges + bndField.size())` and, in a build with
`FULLDEBUG`, is also below `nEdges`, `boundarySubset` returns a list of the
length of `edgeLabels` whose entry `i` is
`bndField[edgeLabels[i] - nInternalEdges]`, every index used being in
`0 .. bndField.size() - 1`.  In a build with `FULLDEBUG` an entry that is not
below `nEdges` ends the call in a fatal error; there is no such entry when
`bndField` has no more entries than the mesh has boundary edges. -/
theorem boundarySubset_in_range {T : Type} (fullDebug : Bool) (mesh : faMesh)
    (bndField : List T) (edgeLabels : List label)
    (h : ∀ edgei ∈ edgeLabels,
      mesh.nInternalEdges_ ≤ edgei ∧ edgei < mesh.nInternalEdges_ + bndField.length) :
    ((fullDebug = false ∨ ∀ edgei ∈ edgeLabels, edgei < mesh.nEdges_) →
        ∃ result, faMesh.boundarySubset fullDebug mesh bndField edgeLabels
            = Outcome.returned result
          ∧ result.length = edgeLabels.length
          ∧ List.Forall₂ (fun edgei value =>
              (0 ≤ edgei - mesh.nInternalEdges_
                ∧ edgei - mesh.nInternalEdges_ < bndField.length)
              ∧ bndField[(edgei - mesh.nInternalEdges_).toNat]? = some value)
              edgeLabels result)
      ∧ (fullDebug = true → (∃ edgei ∈ edgeLabels, mesh.nEdges_ ≤ edgei) →
          faMesh.boundarySubset fullDebug mesh bndField edgeLabels = Outcome.fatalError)
      ∧ ((bndField.length : label) ≤ mesh.nEdges_ - mesh.nInternalEdges_ →
          ∀ edgei ∈ edgeLabels, edgei < mesh.nEdges_) := by
  refine ⟨fun hbuild => ?_, fun hdebug hout => ?_, fun hsize e he => ?_⟩
  · obtain ⟨result, hloop, hall⟩ :=
      boundarySubset_loop_in_range fullDebug mesh bndField edgeLabels h
    have hcheck : (fullDebug && !mesh.checkBoundaryEdgeLabelRange edgeLabels) = false := by
      rcases hbuild with hb | hb
      · rw [hb]
        rfl
      · have := (checkBoundaryEdgeLabelRange_iff mesh edgeLabels).2
          (fun e he => ⟨(h e he).1, hb e he⟩)
        rw [this]
        simp
    refine ⟨result, ?_, hall.length_eq.symm, hall⟩
    unfold faMesh.boundarySubset
    rw [hcheck]
    exact hloop
  · have hcheck : mesh.checkBoundaryEdgeLabelRange edgeLabels = false := by
      rw [Bool.eq_false_iff, Ne, checkBoundaryEdgeLabelRange_iff]
      intro hall
      obtain ⟨e, he, hge⟩ := hout
      exact absurd (hall e he).2 (not_lt.2 hge)
    unfold faMesh.boundarySubset
    rw [hdebug, hcheck]
    rfl
  · have := h e he
    unfold label at *
    omega

theorem boundarySubset_in_range_witness :
    (∀ edgei ∈ ([4, 2] : List label), small.mesh.nInternalEdges_ ≤ edgei
        ∧ edgei < small.mesh.nInternalEdges_ + small.bndField.length)
      ∧ faMesh.boundarySubset true small.mesh small.bndField [4, 2] = Outcome.returned [30, 10]
      ∧ faMesh.boundarySubset false small.mesh small.bndField [4, 2]
          = Outcome.returned [30, 10]
      ∧ (((true = false ∨ ∀ edgei ∈ ([4, 2] : List label), edgei < small.mesh.nEdges_) →
          ∃ result, faMesh.boundarySubset true small.mesh small.bndField [4, 2]
              = Outcome.returned result
            ∧ result.length = ([4, 2] : List label).length
            ∧ List.Forall₂ (fun edgei value =>
                (0 ≤ edgei - small.mesh.nInternalEdges_
                  ∧ edgei - small.mesh.nInternalEdges_ < small.bndField.length)
                ∧ small.bndField[(edgei - small.mesh.nInternalEdges_).toNat]? = some value)
                [4, 2] result)
        ∧ (true = true → (∃ edgei ∈ ([4, 2] : List label), small.mesh.nEdges_ ≤ edgei) →
            faMesh.boundarySubset true small.mesh small.bndField [4, 2] = Outcome.fatalError)
        ∧ ((small.bndField.length : label) ≤ small.mesh.nEdges_ - small.mesh.nInternalEdges_ →
            ∀ edgei ∈ ([4, 2] : List label), edgei < small.mesh.nEdges_)) :=
  ⟨by decide, by decide, by decide,
    boundarySubset_in_range true small.mesh small.bndField [4, 2] (by decide)⟩

end Foam
